import Mathlib

/-!
FATX on-disk engine: a shallow embedding of `fatx.hpp` / `fatx.cpp`

Machine integers are natural numbers; `clusptr`, `streamptr` and `filesize`
are 64-bit unsigned in the source, so subtraction that can pass below zero is
taken modulo `2 ^ 64` (`wsub`), and addition that can pass the word size is
taken modulo `2 ^ 64` (`wadd`).  Narrower fields (`uint32_t`, `uint16_t`) are
cut modulo their width where the source assigns them.

Characters and bytes are the values `0..255`.  The cells of the FAT are kept in
`dskmap`; `device` holds the bytes of the support, which the model reads for
the partition headers and the directory records.
-/

namespace Fatx

/-! ## Definitions -/

/-- Width of `clusptr`, `streamptr` and `filesize` (`uint64_t`). -/
def W64 : Nat := 2 ^ 64

/-- Unsigned 64-bit addition. -/
def wadd (a b : Nat) : Nat := (a + b) % W64

/-- Unsigned 64-bit subtraction. -/
def wsub (a b : Nat) : Nat := (a + W64 - b % W64) % W64

/-- Fat: end of chain (`EOC`). -/
def EOC : Nat := 0xFFFFFFFF

/-- Fat: free link (`FLK`). -/
def FLK : Nat := 0

/-! ### Entries attributes (`class attrib`) -/

/-- The eight attribute flags of `class attrib`. -/
structure attrib where
  ro : Bool
  hid : Bool
  sys : Bool
  lab : Bool
  dir : Bool
  arc : Bool
  dev : Bool
  na : Bool
deriving DecidableEq, Repr

/-- Constructor `attrib(const char& c)`: flag `k` is `c & (1 << k)` converted to
`bool`.  The character is given by its byte value `0..255`; the integer
promotion of a negative `char` keeps the low eight bits, so bit `k` of the byte
is what is tested. -/
def attrib.ofChar (c : Nat) : attrib :=
  { ro := c &&& (1 <<< 0) != 0
    hid := c &&& (1 <<< 1) != 0
    sys := c &&& (1 <<< 2) != 0
    lab := c &&& (1 <<< 3) != 0
    dir := c &&& (1 <<< 4) != 0
    arc := c &&& (1 <<< 5) != 0
    dev := c &&& (1 <<< 6) != 0
    na := c &&& (1 <<< 7) != 0 }

/-- Body of `attrib::write`: the byte stored in `buf[0]`.  In C++ the operator
`|` binds tighter than `?:`, so the source expression
`ro ? (1 << 0) : 0 | hid ? (1 << 1) : 0 | ... | na ? (1 << 7) : 0`
is the chain `ro ? 1 : ((0 | hid) ? 2 : ((0 | sys) ? 4 : ...))`, which is what is
written here (a `bool` operand of `|` is promoted to `0` or `1`). -/
def attrib.write (a : attrib) : Nat :=
  if a.ro then 1 <<< 0
  else if (0 ||| a.hid.toNat) != 0 then 1 <<< 1
  else if (0 ||| a.sys.toNat) != 0 then 1 <<< 2
  else if (0 ||| a.lab.toNat) != 0 then 1 <<< 3
  else if (0 ||| a.dir.toNat) != 0 then 1 <<< 4
  else if (0 ||| a.arc.toNat) != 0 then 1 <<< 5
  else if (0 ||| a.dev.toNat) != 0 then 1 <<< 6
  else if (0 ||| a.na.toNat) != 0 then 1 <<< 7
  else 0

/-! ### Front end and partition geometry (`class frontend`, `class fatxpar`) -/

/-- Program selected by the binary name (`frontend::call_t`). -/
inductive call_t where
  | unknown
  | fuse
  | mkfs
  | fsck
  | unrm
  | label
deriving DecidableEq, Repr

/-- The text of the option `--table` as `fatxpar::setup` tells it apart: empty
(`auto`), one of the five container names, or any other text. -/
inductive table_t where
  | auto
  | mu
  | file
  | hd
  | usb
  | kit
  | other
deriving DecidableEq, Repr

/-- The text of the option `--partition` as `fatxpar::setup` tells it apart. -/
inductive slot_t where
  | sc
  | gc
  | cp
  | x1
  | x2
  | other
deriving DecidableEq, Repr

/-- The part of `class frontend` the code reads: the running program, the
answer `getanswer` returns to a prompt, and the options of the command line
with the values the constructor gives them. -/
structure frontend where
  prog : call_t
  answer : Bool
  readonly : Bool := false
  table : table_t := table_t.auto
  partition : slot_t := slot_t.x2
  offset : Nat := 0
  size : Nat := 0
  clus_size : Nat := 0
  allyes : Bool := true
  dellost : Bool := true
  deldate : Bool := true
deriving DecidableEq, Repr

/-- `frontend::writeable`. -/
def frontend.writeable (fe : frontend) : Bool := !fe.readonly

/-- The fields of `class fatxpar`: the geometry used by the FAT code, and the
partition identity, which the constructor sets to zero. -/
structure fatxpar where
  clus_size : Nat
  clus_pow : Nat
  clus_fat : Nat
  chain_size : Nat
  chain_pow : Nat
  fat_start : Nat
  fat_size : Nat
  root_start : Nat
  root_clus : Nat
  par_id : Nat := 0
  par_start : Nat := 0
  par_size : Nat := 0
  clus_num : Nat := 0
  par_label : List Nat := []
deriving DecidableEq, Repr

/-- `clsarithm::cls2ptr`: device pointer of the data of cluster `p`, `0` when
`p` is out of bounds. -/
def clsarithm.cls2ptr (par : fatxpar) (p : Nat) : Nat :=
  if p < par.root_clus ∨ p > par.clus_fat then 0
  else (par.root_start + wsub p 1 * par.clus_size) % W64

/-! ### Data areas (`class area`, `class vareas`) -/

/-- A run of contiguous clusters (`class area`). -/
structure area where
  offset : Nat
  pointer : Nat
  size : Nat
  start : Nat
  stop : Nat
deriving DecidableEq, Repr

/-- Vector of areas (`class vareas : public vector<area>`). -/
abbrev vareas := List area

/-- Number of clusters of one area, `i.stop - i.start + 1` in 64-bit arithmetic. -/
def area.cls (i : area) : Nat := wadd (wsub i.stop i.start) 1

/-- `vareas::first`. -/
def vareas.first (v : vareas) : Nat :=
  match v with
  | [] => 0
  | a :: _ => a.start

/-- `vareas::last`. -/
def vareas.last (v : vareas) : Nat :=
  match v.getLast? with
  | none => 0
  | some a => a.stop

/-- `vareas::nbcls`. -/
def vareas.nbcls (v : vareas) : Nat :=
  v.foldl (fun res i => wadd res i.cls) 0

/-- The `for` loop of `vareas::at`. -/
def vareas.atLoop : vareas → Nat → Nat
  | [], _ => 0
  | i :: rest, s =>
    if s ≤ i.cls then wsub (wadd i.start s) 1 else vareas.atLoop rest (wsub s i.cls)

/-- `vareas::at`: the `s`-th cluster of the chain (`s = 0`: the last one). -/
def vareas.at (v : vareas) (s : Nat) : Nat :=
  if s = 0 then v.last else vareas.atLoop v s

/-- The `for` loop of `vareas::in`; the iterator is given as an index, `end()`
being the length of the vector. -/
def vareas.inLoop : vareas → Nat → Nat → Nat
  | [], _, idx => idx
  | i :: rest, s, idx =>
    if s ≤ i.cls then idx else vareas.inLoop rest (wsub s i.cls) (idx + 1)

/-- `vareas::in`: index of the area holding the `s`-th cluster. -/
def vareas.in (v : vareas) (s : Nat) : Nat :=
  if s = 0 then v.length - 1 else vareas.inLoop v s 0

/-- The per-area body of `vareas::sub`. -/
def vareas.subArea (par : fatxpar) (s o : Nat) (i : area) : area :=
  let front : Bool := decide (o > i.offset) && decide (o < wsub (wadd i.offset i.size) 1)
  let no := if front then o else i.offset
  let pointer := if front then wadd i.pointer (wsub o i.offset) else i.pointer
  let ns := if front then wsub i.size (wsub o i.offset) else i.size
  let start := if front then wadd i.start (wsub o i.offset >>> par.clus_pow) else i.start
  let back : Bool := decide (wsub (wadd o s) 1 > i.offset) &&
    decide (wsub (wadd o s) 1 < wsub (wadd i.offset i.size) 1)
  let cut := wsub (wsub (wadd i.offset i.size) o) s
  { offset := no
    pointer := pointer
    size := if back then wsub ns cut else ns
    start := start
    stop := if back then wsub i.stop (cut >>> par.clus_pow) else i.stop }

/-- `vareas::sub(s, o)`: the areas of the bytes `[o, o + s)`. -/
def vareas.sub (par : fatxpar) (v : vareas) (s o : Nat) : vareas :=
  let res := v.filter (fun a =>
    !(decide (a.offset > wsub (wadd o s) 1) || decide (wsub (wadd a.offset a.size) 1 < o)))
  if o > (v.nbcls <<< par.clus_pow) % W64 then [] else res.map (vareas.subArea par s o)

/-- The loop of `vareas::add` giving the appended areas their file offsets. -/
def vareas.reoffset : vareas → Nat → vareas
  | [], _ => []
  | i :: rest, o => { i with offset := o } :: vareas.reoffset rest (wadd o i.size)

/-- `vareas::add(va)`. -/
def vareas.add (v va : vareas) : vareas :=
  match va, v.getLast? with
  | [], _ => v
  | _ :: _, none => va
  | a :: rest, some b =>
    if a.start = wadd b.stop 1 then
      let b1 : area := { b with size := wadd b.size a.size, stop := a.stop }
      v.dropLast ++ b1 :: vareas.reoffset rest (wadd b1.offset b1.size)
    else
      v ++ vareas.reoffset va (wadd b.offset b.size)

/-! ### The free-gap index (`dskmap::gap_t`)

`gap_t` is a `bimap<set_of<mapptr_t>, multiset_of<mapsiz_t>>` of pairs
(first cluster, size).  It is kept here as the list of its pairs in the order of
the right view: ascending size, pairs of equal size in insertion order.  The
left view (ascending first cluster, unique) is searched through that list. -/

/-- The free-gap index, in right-view order. -/
abbrev gap_t := List (Nat × Nat)

/-- `freegaps.insert(gap_t::value_type(b, s))`: refused when the left key `b`
is already present, else placed behind every pair whose size is not above `s`. -/
def gap_t.insert (g : gap_t) (b s : Nat) : gap_t :=
  if g.any (fun x => x.1 == b) then g
  else g.takeWhile (fun x => decide (x.2 ≤ s)) ++ (b, s) :: g.dropWhile (fun x => decide (x.2 ≤ s))

/-- `freegaps.left.find(o)`. -/
def gap_t.left_find (g : gap_t) (o : Nat) : Option (Nat × Nat) :=
  g.find? (fun x => x.1 == o)

/-- `freegaps.left.erase(k)`: erase by first cluster. -/
def gap_t.left_erase (g : gap_t) (k : Nat) : gap_t :=
  g.filter (fun x => x.1 != k)

/-- `freegaps.right.erase(k)`: erase by size, every pair whose size is `k`. -/
def gap_t.right_erase (g : gap_t) (k : Nat) : gap_t :=
  g.filter (fun x => x.2 != k)

/-- The pair with the greatest first cluster among those accepted by `f`. -/
def gap_t.maxLeft (f : Nat × Nat → Bool) : gap_t → Option (Nat × Nat)
  | [] => none
  | x :: xs =>
    match gap_t.maxLeft f xs with
    | none => if f x then some x else none
    | some y => if f x && decide (y.1 < x.1) then some x else some y

/-- The pair with the least first cluster among those accepted by `f`. -/
def gap_t.minLeft (f : Nat × Nat → Bool) : gap_t → Option (Nat × Nat)
  | [] => none
  | x :: xs =>
    match gap_t.minLeft f xs with
    | none => if f x then some x else none
    | some y => if f x && decide (x.1 < y.1) then some x else some y

/-- `freegaps.left.rbegin()`: the gap with the highest first cluster. -/
def gap_t.left_rbegin (g : gap_t) : Option (Nat × Nat) :=
  gap_t.maxLeft (fun _ => true) g

/-- `freegaps.left.upper_bound(k)`: the first gap beginning after `k`
(`none` is `end()`). -/
def gap_t.left_upper_bound (g : gap_t) (k : Nat) : Option (Nat × Nat) :=
  gap_t.minLeft (fun x => decide (k < x.1)) g

/-- The iterator before `next` in the left view (`prev = next; prev--`);
`none` when `next` is `begin()`. -/
def gap_t.left_prev (g : gap_t) (next : Option (Nat × Nat)) : Option (Nat × Nat) :=
  match next with
  | none => gap_t.left_rbegin g
  | some n => gap_t.maxLeft (fun x => decide (x.1 < n.1)) g

/-- `freegaps.right.lower_bound(s)`: the first pair of the right view whose
size is at least `s`. -/
def gap_t.right_lower_bound (g : gap_t) (s : Nat) : Option (Nat × Nat) :=
  g.find? (fun x => decide (s ≤ x.2))

/-- `freegaps.right.rbegin()`: the last pair of the right view. -/
def gap_t.right_rbegin (g : gap_t) : Option (Nat × Nat) :=
  g.getLast?

/-! ### The on-disk FAT map (`class dskmap`)

`fat c` is the value of the FAT cell of cluster `c` on the device.  This state
leaves out the cache `memnext` that `read` and `write` go through, the byte
encoding of the cells, the front end (on a read-only front end `device::write`
stores nothing) and what `real_read` does besides fetching a cell: it never
fetches the cell of cluster `clus_fat` (a missed read of it gives 0), and in
fsck mode it offers to free a cell it finds holding an out-of-range value.
`dskmap.read` and `dskmap.write` are `dskmap::read` and `dskmap::write` on a
writable front end, for the clusters below `clus_fat` and as long as no cell
fetched holds an out-of-range value.  The functions on the device,
`dskio.read` and `dskio.write` further down, carry the cache, the front end and
`real_read` as they are; what depends on the last cluster, on the repair or on
the front end is evaluated on them. -/

/-- State of `class dskmap`: the FAT cells and the free-gap index. -/
structure dskmap where
  fat : Nat → Nat
  freegaps : gap_t

/-- `dskmap::read` on the cells as stored: the two guards, then the cell of `p`
(`memnext(p)` when the cache holds the cell or fetches it unchanged). -/
def dskmap.read (par : fatxpar) (d : dskmap) (p : Nat) : Nat :=
  if p = FLK ∨ p = EOC then 0
  else if p < 1 ∨ p > par.clus_fat then 0
  else d.fat p

/-- `dskmap::write` on the cells as stored, on a writable front end: the three
guards, then the cell of `p` set to `v` (`memnext(p, v)`); the returned flag and
the state after the call. -/
def dskmap.write (par : fatxpar) (d : dskmap) (p v : Nat) : Bool × dskmap :=
  if p = FLK ∨ p = EOC then (false, d)
  else if p < 1 ∨ p > par.clus_fat then (false, d)
  else if v ≠ FLK ∧ v ≠ EOC ∧ (v < 1 ∨ v > par.clus_fat) then (false, d)
  else (true, { d with fat := fun c => if c = p then v else d.fat c })

/-- Local variables of the loop of `dskmap::getareas`. -/
structure walk where
  d : dskmap
  sc : List Nat
  res : vareas
  area_off : Nat
  area_ptr : Nat
  area_siz : Nat
  area_start : Nat
  cur_cls : Nat
  prv_cls : Nat

/-- Outcome of one pass through the loop of `dskmap::getareas`. -/
inductive walk_t where
  | next (w : walk)
  | done (res : vareas) (d : dskmap)

/-- One pass through the `while(true)` loop of `dskmap::getareas`; `lbd` is the
visitor (`none` for the empty function). -/
def dskmap.getareas_step (par : fatxpar) (fe : frontend)
    (lbd : Option (dskmap → Nat → Nat → dskmap)) (w : walk) : walk_t :=
  let special : Bool := decide (w.cur_cls = EOC) || decide (w.cur_cls = FLK)
  if !special && decide (w.cur_cls ∈ w.sc) then
    walk_t.done w.res
      (if fe.prog = call_t.fsck ∧ fe.answer = true then (dskmap.write par w.d w.prv_cls EOC).2
       else w.d)
  else
    let sc := if special then w.sc else w.cur_cls :: w.sc
    let fresh : Bool := !special && decide (w.area_ptr = 0)
    let area_ptr := if fresh then clsarithm.cls2ptr par w.cur_cls else w.area_ptr
    let area_start := if fresh then w.cur_cls else w.area_start
    let area_siz := if special then w.area_siz else wadd w.area_siz par.clus_size
    let close : Bool :=
      (decide (w.prv_cls ≠ 0) && decide (w.prv_cls ≠ wsub w.cur_cls 1)) || special
    let area_siz1 := if close && !special then wsub area_siz par.clus_size else area_siz
    let res := if close then
        w.res ++ [{ offset := w.area_off, pointer := area_ptr, size := area_siz1,
                    start := area_start, stop := w.prv_cls }]
      else w.res
    if special then walk_t.done res w.d
    else
      let nxt := dskmap.read par w.d w.cur_cls
      walk_t.next
        { d := match lbd with
            | none => w.d
            | some f => f w.d w.cur_cls nxt
          sc := sc
          res := res
          area_off := if close then wadd w.area_off area_siz1 else w.area_off
          area_ptr := if close then clsarithm.cls2ptr par w.cur_cls else area_ptr
          area_siz := if close then par.clus_size else area_siz1
          area_start := if close then w.cur_cls else area_start
          cur_cls := nxt
          prv_cls := w.cur_cls }

/-- The loop of `dskmap::getareas`, at most `fuel` passes. -/
def dskmap.getareas_loop (par : fatxpar) (fe : frontend)
    (lbd : Option (dskmap → Nat → Nat → dskmap)) : Nat → walk → vareas × dskmap
  | 0, w => (w.res, w.d)
  | fuel + 1, w =>
    match dskmap.getareas_step par fe lbd w with
    | walk_t.done res d => (res, d)
    | walk_t.next w1 => dskmap.getareas_loop par fe lbd fuel w1

/-- `dskmap::getareas(orig, lbd)`: the areas of the chain from `orig` and the
state left by the visitor.  Every pass of the loop but the last adds a new
cluster to `sc`, and a cluster outside `[1, clus_fat]` reads as `0`, so the
loop makes at most `clus_fat + 2` passes. -/
def dskmap.getareas (par : fatxpar) (fe : frontend) (d : dskmap) (orig : Nat)
    (lbd : Option (dskmap → Nat → Nat → dskmap)) : vareas × dskmap :=
  if orig = EOC ∨ orig = FLK then ([], d)
  else dskmap.getareas_loop par fe lbd (par.clus_fat + 2)
    { d := d, sc := [], res := [], area_off := 0, area_ptr := 0, area_siz := 0,
      area_start := 0, cur_cls := orig, prv_cls := 0 }

/-- The inner `for` of `dskmap::forfat` over the FAT block number `k`: `i` is
the `uint16_t` index in the block, `c` the cluster counter.  The loop stops when
`c` reaches `clus_fat`, so `clus_fat - c` passes are all it can make; the cell
decoded at `buf[i * chain_size]` of block `k` is cell
`k * (clus_size >> chain_pow) + i` of the FAT. -/
def dskmap.forfat_inner {σ : Type} (par : fatxpar) (fat : Nat → Nat)
    (lbd : σ → Nat → Nat → σ) (k : Nat) : Nat → Nat → Nat → σ → Nat × σ
  | 0, _, c, st => (c, st)
  | fuel + 1, i, c, st =>
    if i < par.clus_size >>> par.chain_pow ∧ c < par.clus_fat then
      dskmap.forfat_inner par fat lbd k fuel ((i + 1) % 65536) (c + 1)
        (lbd st c (fat (k * (par.clus_size >>> par.chain_pow) + i)))
    else (c, st)

/-- `dskmap::forfat(lbd)`: the outer `for` reads the FAT region block by block
(`clus_size` bytes each, so `ceil(fat_size / clus_size)` blocks, every device
read taken to succeed), the visitor `lbd` threading a state of type `σ`.  The
visitor is handed the cell as the state holds it; with 2-byte cells the source
hands it the stored `0xFFFF` for END, which makes no difference to a visitor
that only compares the value with FREE, as the one of `gapcheck` does. -/
def dskmap.forfat {σ : Type} (par : fatxpar) (fat : Nat → Nat)
    (lbd : σ → Nat → Nat → σ) (init : σ) : σ :=
  ((List.range ((par.fat_size + par.clus_size - 1) / par.clus_size)).foldl
    (fun (cs : Nat × σ) k =>
      dskmap.forfat_inner par fat lbd k (par.clus_fat - cs.1)
        (if k = 0 then par.root_clus % 65536 else 0) cs.1 cs.2)
    (par.root_clus, init)).2

/-- State captured by the lambda of `dskmap::gapcheck`: the index, and the
locals `b` (first cluster of the open gap, `0` when none) and `s` (its size). -/
structure gapscan where
  gaps : gap_t
  b : Nat
  s : Nat

/-- The lambda `dskmap::gapcheck` passes to `forfat`. -/
def dskmap.gapcheck_lbd (st : gapscan) (o v : Nat) : gapscan :=
  if v = FLK then
    if st.b ≠ 0 then { st with s := st.s + 1 }
    else { st with b := o, s := 1 }
  else if st.b ≠ 0 then { st with gaps := gap_t.insert st.gaps st.b st.s, b := 0 }
  else st

/-- `dskmap::gapcheck`. -/
def dskmap.gapcheck (par : fatxpar) (d : dskmap) : dskmap :=
  let st := dskmap.forfat par d.fat dskmap.gapcheck_lbd { gaps := [], b := 0, s := 0 }
  { d with freegaps := if st.b ≠ 0 then gap_t.insert st.gaps st.b st.s else st.gaps }

/-- The loop `for(i = c; i < c + n; i++) write(i, (i == c + n - 1) ? EOC : i + 1)`
of `dskmap::alloc`. -/
def dskmap.write_run (par : fatxpar) (d : dskmap) (c n : Nat) : dskmap :=
  (List.range n).foldl
    (fun d j => (dskmap.write par d (c + j) (if c + j = c + n - 1 then EOC else c + j + 1)).2) d

/-- The `do ... while(tot_size != 0)` loop of the fragmented case of
`dskmap::alloc`, at most `fuel` passes.  A pass that does not end the loop
lowers `tot_size` by the size of the gap it took, so a loop that ends makes at
most `tot_size` passes (a pass on a gap of size 0 repeats for ever or empties
the index).  The result is `none` when the source dereferences
`freegaps.right.rbegin()` of an empty index (undefined) or never leaves the
loop. -/
def dskmap.alloc_frag (par : fatxpar) : Nat → dskmap → vareas → Nat → Nat →
    Option (vareas × dskmap)
  | 0, _, _, _, _ => none
  | fuel + 1, d, res, tot_size, old_clus =>
    match gap_t.right_rbegin d.freegaps with
    | none => none
    | some gap =>
      let gap_clus := gap.1
      let gap_size := gap.2
      let d1 := if old_clus ≠ 0 then (dskmap.write par d old_clus gap_clus).2 else d
      let n := min gap_size tot_size
      let d2 := dskmap.write_run par d1 gap_clus n
      let a : area :=
        { offset := match res.getLast? with
            | none => 0
            | some b => wadd b.offset b.size
          pointer := clsarithm.cls2ptr par gap_clus
          size := (n * par.clus_size) % W64
          start := gap_clus
          stop := wsub (wadd gap_clus n) 1 }
      let g1 := gap_t.right_erase d2.freegaps gap_clus
      if tot_size < gap_size then
        some (res ++ [a],
          { d2 with freegaps :=
              gap_t.insert g1 (wadd gap_clus gap_size) (wsub tot_size gap_size) })
      else if tot_size - gap_size ≠ 0 then
        dskmap.alloc_frag par fuel { d2 with freegaps := g1 } (res ++ [a])
          (tot_size - gap_size) gap_clus
      else some (res ++ [a], { d2 with freegaps := g1 })

/-- The gap `(gap_clus, gap_size)` chosen by the three single-gap tries of
`dskmap::alloc(s, o)`, `(0, 0)` when none applies. -/
def dskmap.alloc_pick (g : gap_t) (s o : Nat) : Nat × Nat :=
  let p1 : Nat × Nat :=
    if o ≠ 0 then
      match gap_t.left_find g o with
      | some prev => if prev.2 ≥ s then prev else (0, 0)
      | none => (0, 0)
    else (0, 0)
  let p2 : Nat × Nat :=
    if p1.1 = 0 then
      match gap_t.left_rbegin g with
      | some e => if e.2 ≥ s then e else (p1.1, p1.2)
      | none => (p1.1, p1.2)
    else p1
  if p2.1 = 0 then
    match gap_t.right_lower_bound g s with
    | some fit => if fit.2 = s then (fit.1, fit.2) else p2
    | none => p2
  else p2

/-- `dskmap::alloc(s, o)`: the area vector returned and the state after the
call; `none` when the fragmented loop has no defined result.  The loop is
given `s + freegaps.size() + 1` passes, more than a loop that ends can make. -/
def dskmap.alloc (par : fatxpar) (d : dskmap) (s o : Nat) : Option (vareas × dskmap) :=
  if s = 0 then some ([], d)
  else if d.freegaps = [] then some ([], d)
  else
    let pick := dskmap.alloc_pick d.freegaps s o
    if pick.1 ≠ 0 then
      let d1 := dskmap.write_run par d pick.1 s
      let g1 := gap_t.left_erase d1.freegaps pick.1
      let g2 := if pick.2 ≠ s then gap_t.insert g1 (wadd pick.1 s) (wsub pick.2 s) else g1
      some ([{ offset := 0, pointer := clsarithm.cls2ptr par pick.1,
               size := (s * par.clus_size) % W64, start := pick.1,
               stop := wsub (wadd pick.1 s) 1 }],
            { d1 with freegaps := g2 })
    else if (d.freegaps.foldl (fun acc i => wadd acc i.2) 0) ≥ s then
      dskmap.alloc_frag par (s + d.freegaps.length + 1) d [] s 0
    else some ([], d)

/-- The body of the `for(area i: va)` loop of `dskmap::free`, folding one freed
area into the index.  Each of the three merge tests starts with
`next != freegaps.left.end()`.  When `next` is `begin()` the source has
decremented `begin()`; the test on `prev` is taken as false there. -/
def dskmap.free_gap (g : gap_t) (i : area) : gap_t :=
  let next := gap_t.left_upper_bound g i.start
  let prev := gap_t.left_prev g next
  match next with
  | none => gap_t.insert g i.start (wadd (wsub i.stop i.start) 1)
  | some n =>
    let prevAdj : Bool :=
      match prev with
      | some p => decide (wadd p.1 p.2 = i.start)
      | none => false
    let p := prev.getD (0, 0)
    if prevAdj && decide (wadd i.stop 1 = n.1) then
      gap_t.insert (gap_t.left_erase (gap_t.left_erase g p.1) n.1) p.1
        (wadd (wadd (wsub (wadd p.2 i.stop) i.start) 1) n.2)
    else if prevAdj then
      gap_t.insert (gap_t.left_erase g p.1) p.1 (wadd (wsub (wadd p.2 i.stop) i.start) 1)
    else if wadd i.stop 1 = n.1 then
      gap_t.insert (gap_t.left_erase g n.1) i.start (wadd (wadd (wsub i.stop i.start) 1) n.2)
    else gap_t.insert g i.start (wadd (wsub i.stop i.start) 1)

/-- The visitor `dskmap::free` passes to `getareas`:
`[this] (const clusptr& c, const clusptr& v) -> void { (void)v; write(c, FLK); }`. -/
def dskmap.free_lbd (par : fatxpar) : dskmap → Nat → Nat → dskmap :=
  fun d c _ => (dskmap.write par d c FLK).2

/-- `dskmap::free(o)`. -/
def dskmap.free (par : fatxpar) (fe : frontend) (d : dskmap) (o : Nat) : dskmap :=
  if o = FLK ∨ o = EOC then d
  else
    let r := dskmap.getareas par fe d o (some (dskmap.free_lbd par))
    if fe.prog = call_t.fsck then r.2
    else { r.2 with freegaps := r.1.foldl dskmap.free_gap r.2.freegaps }

/-- `dskmap::resize(o, s)`: the returned flag, the area vector `*o` and the
state after the call (`o = none` is the null pointer); `none` when the `alloc`
it calls has no defined result. -/
def dskmap.resize (par : fatxpar) (fe : frontend) (d : dskmap) (o : Option vareas) (s : Nat) :
    Option (Bool × Option vareas × dskmap) :=
  match o with
  | none => some (false, none, d)
  | some v =>
    if v = [] then some (decide (s = 0), some v, d)
    else if s = 0 then some (true, some v, dskmap.free par fe d v.first)
    else if v.nbcls < s then
      match dskmap.alloc par d (wsub s v.nbcls) (wadd v.last 1) with
      | none => none
      | some (extend, d1) =>
        if extend = [] then some (false, some v, d1)
        else
          let w := dskmap.write par d1 v.last extend.first
          some (w.1, some (v.add extend), w.2)
    else if v.nbcls > s then
      let w := dskmap.write par d (vareas.at v s) EOC
      let d1 := if w.1 then dskmap.free par fe w.2 (vareas.at v (wadd s 1)) else w.2
      let v1 : vareas := v.take (vareas.in v s + 1)
      match v1.getLast? with
      | none => some (w.1, some v1, d1)
      | some b =>
        let size := wsub b.size (wsub (vareas.nbcls v1) s)
        some (w.1, some (v1.dropLast ++
          [{ b with size := size, stop := wsub (wadd b.start size) 1 }]), d1)
    else some (true, some v, d)

/-! ### Notions used to state the properties -/

/-- `chain fat o cs`: following the FAT from `o`, the clusters met are those of
`cs` in that order, and the cell of the last one holds END or FREE (`cs` is
empty when `o` itself is END or FREE). -/
def chain (fat : Nat → Nat) : Nat → List Nat → Prop
  | o, [] => o = EOC ∨ o = FLK
  | o, c :: cs => c = o ∧ o ≠ EOC ∧ o ≠ FLK ∧ chain fat (fat c) cs

/-- Cluster `c` has a cell that the FAT reader fetches from the device:
`cls2fat` accepts it (`root_clus ≤ c`) and `real_read`, which clips its read at
`clus_fat - p` cells, reaches it (`c < clus_fat`). -/
def fatxpar.in_fat (par : fatxpar) (c : Nat) : Prop := par.root_clus ≤ c ∧ c < par.clus_fat

instance (par : fatxpar) (c : Nat) : Decidable (par.in_fat c) := by
  unfold fatxpar.in_fat
  infer_instance

/-- The clusters of an area vector, area after area. -/
def vareas.clusters (v : vareas) : List Nat :=
  v.flatMap (fun a => List.range' a.start a.cls)

/-- Visiting the clusters `lo, lo + 1, ..., lo + n - 1` in turn, each with its
own FAT cell. -/
def scan {σ : Type} (fat : Nat → Nat) (lbd : σ → Nat → Nat → σ) (lo n : Nat) (init : σ) : σ :=
  (List.range' lo n).foldl (fun st c => lbd st c (fat c)) init

/-- Geometry under which `forfat` hands every cluster number to the visitor
together with its own cell: the root cluster lies in the first FAT block, the
`uint16_t` block index does not wrap, and the FAT region holds a cell for every
cluster below `clus_fat`. -/
structure fatxpar.scan_ok (par : fatxpar) : Prop where
  root_pos : 1 ≤ par.root_clus
  root_le : par.root_clus ≤ par.clus_fat
  root_block : par.root_clus < par.clus_size >>> par.chain_pow
  block_u16 : par.clus_size >>> par.chain_pow < 65536
  fat_cover : par.clus_fat ≤
    ((par.fat_size + par.clus_size - 1) / par.clus_size) * (par.clus_size >>> par.chain_pow)

/-- Cluster `c` lies in the gap `g` (first cluster, size). -/
def gap_has (g : Nat × Nat) (c : Nat) : Prop := g.1 ≤ c ∧ c < g.1 + g.2

instance (g : Nat × Nat) (c : Nat) : Decidable (gap_has g c) := by
  unfold gap_has
  infer_instance

/-- The pair `g` is a maximal run of FREE cells among the clusters `lo ≤ c < hi`. -/
def free_run (fat : Nat → Nat) (lo hi : Nat) (g : Nat × Nat) : Prop :=
  1 ≤ g.2 ∧ lo ≤ g.1 ∧ g.1 + g.2 ≤ hi ∧ (∀ c, gap_has g c → fat c = FLK) ∧
  (g.1 = lo ∨ fat (g.1 - 1) ≠ FLK) ∧ (g.1 + g.2 = hi ∨ fat (g.1 + g.2) ≠ FLK)

/-- Invariant of the scan of `gapcheck` once the clusters `lo ≤ c < m` have
been visited. -/
structure scan_inv (fat : Nat → Nat) (lo m : Nat) (st : gapscan) : Prop where
  closed : ∀ g ∈ st.gaps, 1 ≤ g.2 ∧ lo ≤ g.1 ∧ g.1 + g.2 < m ∧ (∀ c, gap_has g c → fat c = FLK) ∧
    (g.1 = lo ∨ fat (g.1 - 1) ≠ FLK) ∧ fat (g.1 + g.2) ≠ FLK ∧ (st.b ≠ 0 → g.1 + g.2 < st.b)
  opened : st.b ≠ 0 → lo ≤ st.b ∧ st.b + st.s = m ∧ 1 ≤ st.s ∧
    (∀ c, st.b ≤ c → c < m → fat c = FLK) ∧ (st.b = lo ∨ fat (st.b - 1) ≠ FLK)
  idle : st.b = 0 → m = lo ∨ fat (m - 1) ≠ FLK
  cover : ∀ c, lo ≤ c → c < m → fat c = FLK →
    (∃ g ∈ st.gaps, gap_has g c) ∨ (st.b ≠ 0 ∧ st.b ≤ c)
  keys : (st.gaps.map Prod.fst).Nodup

/-! ### Example partition and FAT contents -/

/-- A partition of 14848 bytes with clusters of 512 bytes, as `fatxpar::setup`
derives it: 29 clusters, 2-byte cells, FAT of 0x1000 bytes at 0x1000, data at
0x2000, `clus_fat = 12`, root cluster 1. -/
def exPar : fatxpar :=
  { clus_size := 512, clus_pow := 9, clus_fat := 12, chain_size := 2, chain_pow := 1,
    fat_start := 0x1000, fat_size := 0x1000, root_start := 0x2000, root_clus := 1 }

/-- A partition of 167424 bytes with clusters of 512 bytes whose boot sector
names cluster 300 as root: 256 cells in a FAT block, `clus_fat = 310`. -/
def exParRoot : fatxpar :=
  { clus_size := 512, clus_pow := 9, clus_fat := 310, chain_size := 2, chain_pow := 1,
    fat_start := 0x1000, fat_size := 0x1000, root_start := 0x2000, root_clus := 300 }

/-- FAT in which the cell of cluster 256 is FREE and every other cell holds END. -/
def fatRoot : Nat → Nat := fun c => if c = 256 then FLK else EOC

/-- The mounted file system (`fusefatx`), prompts answered no. -/
def exFe : frontend := { prog := call_t.fuse, answer := false }

/-- FAT whose cell of cluster `c` is the `c`-th number of the list (cells past
the list are FREE). -/
def fatOf (l : List Nat) : Nat → Nat := fun c => l.getD c 0

/-- State right after `gapcheck` on the FAT with the given cells. -/
def exState (l : List Nat) : dskmap :=
  dskmap.gapcheck exPar { fat := fatOf l, freegaps := [] }

/-- The cells of the clusters 0..13 and the gap index of a state. -/
def dskmap.view (d : dskmap) : List Nat × gap_t :=
  ((List.range 14).map d.fat, d.freegaps)

/-- The first and last cluster of every area of a vector. -/
def vareas.runs (v : vareas) : List (Nat × Nat) := v.map (fun a => (a.start, a.stop))

/-- Clusters 5, 6, 9 and 11 are free, every other cluster is a one-cluster chain. -/
def cellsA : List Nat := [0, EOC, EOC, EOC, EOC, 0, 0, EOC, EOC, 0, EOC, 0, EOC]

/-- Clusters 2, 4..7 and 10..11 are free, every other cluster is a one-cluster chain. -/
def cellsB : List Nat := [0, EOC, 0, EOC, 0, 0, 0, 0, EOC, EOC, 0, 0, EOC]

/-- Clusters 5 and 6 are free, every other cluster is a one-cluster chain. -/
def cellsC : List Nat := [0, EOC, EOC, EOC, EOC, 0, 0, EOC, EOC, EOC, EOC, EOC, EOC]

/-- The root directory holds cluster 1; clusters 2..5 and 8..10 are free. -/
def cellsD : List Nat := [0, EOC, 0, 0, 0, 0, EOC, EOC, 0, 0, 0, EOC, EOC]

/-- A chain 5 → 6 → 7 → 8 → 9 → END; clusters 2 and 11 are free. -/
def cellsE : List Nat := [0, EOC, 0, EOC, EOC, 6, 7, 8, 9, EOC, EOC, 0, EOC]

/-- Clusters 3, 4 and the last cluster 12 are free. -/
def cellsF : List Nat := [0, EOC, EOC, 0, 0, EOC, EOC, EOC, EOC, EOC, EOC, EOC, 0]

/-- One area of one cluster: cluster 5, file offset 0, 512 bytes. -/
def areaOne : area :=
  { offset := 0, pointer := 0x2800, size := 512, start := 5, stop := 5 }

/-- Example flags: read-only and hidden set, the six others clear. -/
def attribRoHid : attrib :=
  { ro := true, hid := true, sys := false, lab := false,
    dir := false, arc := false, dev := false, na := false }


/-! ### Byte order codec (`class endian` of fatx.hpp)

The shifts `0xFF << (pos(i) * 8)` and `1 << (8 * pos(i))` of the source are
`int` operations; they are taken here without overflow, which is their value
for the widths of 2 and 4 bytes the program uses. -/

/-- `endian_format<big>::pos`: the weight index of byte `i` of a `bytes`-byte
string; `big` is the template argument (`0` for `litend`, `1` for `bigend`). -/
def endian.pos (bytes big i : Nat) : Nat :=
  if big = 0 then bytes - 1 - i else i

/-- `endian_format<big>::getbyte`: byte `i` of the string that encodes `n`.  The
result is a `char`, kept here as its value modulo 256. -/
def endian.getbyte (bytes big n i : Nat) : Nat :=
  ((n &&& (0xFF <<< (endian.pos bytes big i * 8))) >>> (endian.pos bytes big i * 8)) % 256

/-- `endian_format<big>::setbyte`: the contribution of byte `i` of the string
`s` to the decoded value, converted to the `8 * bytes`-bit `value_type`. -/
def endian.setbyte (bytes big : Nat) (s : List Nat) (i : Nat) : Nat :=
  ((1 <<< (8 * endian.pos bytes big i)) * (s.getD i 0 % 256)) % 2 ^ (8 * bytes)

/-- `endian_format<big>::getvalue`: the value a byte string decodes to. -/
def endian.getvalue (bytes big : Nat) (s : List Nat) : Nat :=
  (List.range bytes).foldl
    (fun res i => (res + endian.setbyte bytes big s i) % 2 ^ (8 * bytes)) 0

/-- `endian_format<big>::setvalue`: the byte string that encodes `n`; the
argument is a `value_type`, so it is first cut to `8 * bytes` bits. -/
def endian.setvalue (bytes big n : Nat) : List Nat :=
  (List.range bytes).map (fun i => endian.getbyte bytes big (n % 2 ^ (8 * bytes)) i)

/-- `endian<bytes>::litend(n)`: the on-disk bytes of the value `n`. -/
def endian.litend (bytes n : Nat) : List Nat := endian.setvalue bytes 0 n

/-- `endian<bytes>::litend(s)()`: the value of the first `bytes` bytes of `s`. -/
def endian.litend_value (bytes : Nat) (s : List Nat) : Nat :=
  endian.getvalue bytes 0 (s.take bytes)

/-! ### Packed time stamps (`class date` of fatx.hpp) -/

/-- Subtraction of `unsigned int` values. -/
def usub32 (a b : Nat) : Nat := (a % 2 ^ 32 + 2 ^ 32 - b % 2 ^ 32) % 2 ^ 32

/-- `class date`: the six `unsigned int` fields of a time stamp. -/
structure date where
  year : Nat
  month : Nat
  day : Nat
  hour : Nat
  min : Nat
  sec : Nat
deriving DecidableEq, Repr

/-- `date::date()`: the first day of 1980, midnight. -/
def date.epoch : date :=
  { year := 1980, month := 1, day := 1, hour := 0, min := 0, sec := 0 }

/-- `date::date(const unsigned char buf[4])`: the time stamp packed in four bytes. -/
def date.ofBuf (buf : List Nat) : date :=
  let b0 := buf.getD 0 0 % 256
  let b1 := buf.getD 1 0 % 256
  let b2 := buf.getD 2 0 % 256
  let b3 := buf.getD 3 0 % 256
  { year := (b0 >>> 1) + 1980
    month := (((b0 &&& 1) <<< 3) ||| ((b1 &&& 0xE0) >>> 5)) + 1
    day := (b1 &&& 0x1F) + 1
    hour := b2 >>> 3
    min := ((b2 &&& 0x07) <<< 3) ||| ((b3 &&& 0xE0) >>> 5)
    sec := b3 &&& 0x1F }

/-- `date::write`: the four bytes a time stamp is packed into. -/
def date.write (d : date) : List Nat :=
  [ ((((usub32 d.year 1980) &&& 0x7F) <<< 1) ||| (((usub32 d.month 1) &&& 0x08) >>> 3)) % 256,
    ((((usub32 d.month 1) &&& 0x07) <<< 5) ||| ((usub32 d.day 1) &&& 0x1F)) % 256,
    (((d.hour &&& 0x1F) <<< 3) ||| ((d.min &&& 0x38) >>> 3)) % 256,
    (((d.min &&& 0x07) <<< 5) ||| (d.sec &&& 0x1F)) % 256 ]

/-! ### The device and partition detection (`class device`, `fatxpar::setup`) -/

/-- `blksize`: the standard block size. -/
def blksize : Nat := 512

/-- `fsid`: the four characters "XTAF". -/
def fsid : List Nat := [88, 84, 65, 70]

/-- `class device`: the size of the support, its bytes, and the flag `changes`.
Read and write errors of the operating system are not modelled. -/
structure device where
  tot_size : Nat
  data : Nat → Nat
  changes : Bool

/-- `device::read`: the `s` bytes at `p`, empty when the block is out of bounds. -/
def device.read (dev : device) (p s : Nat) : List Nat :=
  if s = 0 then []
  else if dev.tot_size ≠ 0 ∧ wadd p s > dev.tot_size then []
  else (List.range s).map (fun i => dev.data (p + i))

/-- `device::write`: the returned flag and the device after the call.  A write
out of bounds fails; a write on a read-only front end succeeds without writing. -/
def device.write (fe : frontend) (dev : device) (p : Nat) (s : List Nat) : Bool × device :=
  if s = [] then (true, dev)
  else if wadd p s.length > dev.tot_size then (false, dev)
  else if ¬ fe.writeable then (true, dev)
  else (true, { dev with
    data := fun q => if p ≤ q ∧ q < p + s.length then s.getD (q - p) 0 else dev.data q
    changes := true })

/-- The test `dev.read(p).find(fsid, 0) == 0`: the block at `p` can be read
and starts with "XTAF". -/
def device.has_fsid (dev : device) (p : Nat) : Bool :=
  (dev.read p blksize).take 4 == fsid

/-- `fatxpar::bootsect`. -/
structure bootsect where
  id : Nat
  spc : Nat
  root : Nat
deriving DecidableEq, Repr

/-- `bootsect::bootsect(const char buf[blksize])`. -/
def bootsect.ofBuf (buf : List Nat) : bootsect :=
  { id := endian.litend_value 4 (buf.drop 4)
    spc := endian.litend_value 4 (buf.drop 8)
    root := endian.litend_value 4 (buf.drop 12) }

/-- `bootsect::write` on a block of zeros. -/
def bootsect.write (bs : bootsect) : List Nat :=
  fsid ++ endian.litend 4 bs.id ++ endian.litend 4 bs.spc ++ endian.litend 4 bs.root ++
    List.replicate (blksize - 16) 0

/-- `fatxpar::devheader`; the field `unkn`, which the size constructor leaves
unset, is not kept. -/
structure devheader where
  id : Nat
  p2_start : Nat
  p2_size : Nat
  p1_start : Nat
  p1_size : Nat
deriving DecidableEq, Repr

/-- `devheader::devheader(char buf[blksize])`. -/
def devheader.ofBuf (buf : List Nat) : devheader :=
  { id := endian.litend_value 4 buf
    p2_start := endian.litend_value 4 (buf.drop 8)
    p2_size := endian.litend_value 4 (buf.drop 12)
    p1_start := endian.litend_value 4 (buf.drop 16)
    p1_size := endian.litend_value 4 (buf.drop 20) }

/-- `devheader::devheader(const uint64_t s)`. -/
def devheader.ofSize (s : Nat) : devheader :=
  { id := 0x00020000
    p2_start := 0x00633000
    p2_size := (wsub s 0xC6600000 >>> 9) % 2 ^ 32
    p1_start := 0x005B3000
    p1_size := 0x00080000 }

/-- `devheader::write` on a block of zeros (the unset field written as zero). -/
def devheader.write (dh : devheader) : List Nat :=
  endian.litend 4 dh.id ++ endian.litend 4 0 ++ endian.litend 4 dh.p2_start ++
    endian.litend 4 dh.p2_size ++ endian.litend 4 dh.p1_start ++ endian.litend 4 dh.p1_size ++
    List.replicate (blksize - 24) 0

/-- Local variables of the detection part of `fatxpar::setup`. -/
structure probe where
  found : Bool
  par_start : Nat
  par_size : Nat
deriving DecidableEq, Repr

/-- The detection part of `fatxpar::setup` (the five `if` blocks before the
test of `found`), started on the zero fields the constructor leaves.  The slot
name the source writes back to the front end is not kept. -/
def fatxpar.setup_probe (fe : frontend) (dev : device) : probe :=
  let ts := dev.tot_size
  let auto : Bool := decide (fe.table = table_t.auto)
  let s0 : probe := { found := false, par_start := 0, par_size := 0 }
  let s1 : probe :=
    if auto ∧ fe.offset ≠ 0 ∧ dev.has_fsid fe.offset then
      { s0 with par_start := fe.offset, found := true }
    else s0
  let s2 : probe :=
    if fe.table = table_t.mu ∨ fe.table = table_t.file ∨
        (auto ∧ ¬ s1.found ∧ dev.has_fsid 0) then
      if ts > 0x7FF000 ∧ ((¬ auto ∧ fe.table = table_t.mu) ∨
          (auto ∧ dev.has_fsid 0x7FF000)) then
        if fe.partition = slot_t.sc then
          { found := true, par_start := 0, par_size := 0x7FF000 }
        else { found := true, par_start := 0x7FF000, par_size := wsub ts 0x7FF000 }
      else { found := true, par_start := 0, par_size := wsub ts 0 }
    else s1
  let s3 : probe :=
    if ts > 0x130eb0000 ∧ (fe.table = table_t.hd ∨
        (auto ∧ ¬ s2.found ∧ dev.has_fsid 0x130eb0000)) then
      if fe.partition = slot_t.sc ∧ (¬ auto ∨ dev.has_fsid 0x80000) then
        { found := true, par_start := 0x80000, par_size := 0x80000000 }
      else if fe.partition = slot_t.gc ∧ (¬ auto ∨ dev.has_fsid 0x80080000) then
        { found := true, par_start := 0x80080000, par_size := 0xA0E30000 }
      else if fe.partition = slot_t.x1 ∧ (¬ auto ∨ dev.has_fsid 0x120eb0000) then
        { found := true, par_start := 0x120eb0000, par_size := 0x10000000 }
      else { found := true, par_start := 0x130eb0000, par_size := wsub ts 0x130eb0000 }
    else s2
  let s4 : probe :=
    if ts > 0x20000000 ∧ (fe.table = table_t.usb ∨
        (auto ∧ ¬ s3.found ∧ dev.has_fsid 0x20000000)) then
      if fe.partition = slot_t.sc ∧ (¬ auto ∨ dev.has_fsid 0x8000400) then
        { found := true, par_start := 0x8000400, par_size := 0x4800000 }
      else { found := true, par_start := 0x20000000, par_size := wsub ts 0x20000000 }
    else s3
  if fe.table = table_t.kit ∨ (auto ∧ ¬ s4.found) then
    let dh := if auto then devheader.ofBuf (dev.read 0 blksize) else devheader.ofSize ts
    if ¬ auto ∨ (dh.id = 0x00020000 ∧ dev.has_fsid (dh.p2_start * blksize)) then
      if fe.partition = slot_t.cp ∧ (¬ auto ∨ dev.has_fsid (dh.p1_start * blksize)) then
        { found := true, par_start := dh.p1_start * blksize, par_size := dh.p1_size * blksize }
      else
        { found := true, par_start := dh.p2_start * blksize, par_size := dh.p2_size * blksize }
    else s4
  else s4

/-- `bitset<32>(n).to_string()`: the 32 binary digits of `n`, highest first. -/
def bitset32 (n : Nat) : List Bool :=
  (List.range 32).map (fun i => (n % 2 ^ 32).testBit (31 - i))

/-- `s.find('1')` on a string of binary digits, `none` for `npos`. -/
def bits_find (s : List Bool) : Option Nat := s.findIdx? (fun b => b)

/-- `s.rfind('1')` on a string of binary digits, `none` for `npos`. -/
def bits_rfind (s : List Bool) : Option Nat :=
  (s.reverse.findIdx? (fun b => b)).map (fun i => s.length - 1 - i)

/-- The table of sectors per cluster `fatxpar::setup` uses when no boot sector
gives it. -/
def fatxpar.spc_table (par_size : Nat) : Nat :=
  if par_size > 0x200000000 then 512
  else if par_size > 0x100000000 then 256
  else if par_size > 0x080000000 then 128
  else if par_size > 0x040000000 then 64
  else if par_size > 0x020000000 then 32
  else if par_size > 0x010000000 then 16
  else if par_size > 0x008000000 then 8
  else if par_size > 0x001000000 then 4
  else if par_size > 0x000800000 then 8
  else if par_size > 0x000400000 then 4
  else if par_size > 0x000200000 then 2
  else 1

/-- `fatxpar::write`: the boot sector written at the start of the partition
(after the device header of a DevKit disk). -/
def fatxpar.write (fe : frontend) (dev : device) (par : fatxpar) : Bool × device :=
  let dev1 :=
    if fe.table = table_t.kit then
      (device.write fe dev 0 (devheader.write (devheader.ofSize dev.tot_size))).2
    else dev
  device.write fe dev1 par.par_start
    (bootsect.write
      { id := par.par_id, spc := (par.clus_size / blksize) % 2 ^ 32, root := par.root_clus % 2 ^ 32 })

/-- The geometry part of `fatxpar::setup` (from the test of the cluster size
to the test of the root cluster), `none` when the cluster size is not a power
of two.  The flag tells that the root cluster was out of range and set to 1.
The fields are the integers of the source: `clus_size`, `clus_num` and
`clus_fat` have 32 bits, `clus_pow` 16, the pointers 64; the product
`clus_num * chain_size` is taken on 32 bits. -/
def fatxpar.setup_geometry (par_id par_start par_size clus_size root_clus : Nat) :
    Option (fatxpar × Bool) :=
  let s := bitset32 clus_size
  if bits_find s ≠ bits_rfind s then none
  else
    let clus_pow := match bits_find s with
      | some i => 31 - i
      | none => 32
    let clus_num := (par_size >>> clus_pow) % 2 ^ 32
    let chain_size := if clus_num < 0xFFF0 then 2 else 4
    let chain_pow := if chain_size = 2 then 1 else 2
    let fat_start := wadd par_start 0x1000
    let fat_prod := (clus_num * chain_size) % 2 ^ 32
    let fat_size := wadd fat_prod (0x1000 - fat_prod % 0x1000)
    let root_start := wadd fat_start fat_size
    let clus_fat := (wsub (wsub par_size (wsub root_start par_start) >>> clus_pow) 1) % 2 ^ 32
    let bad_root : Bool := decide (root_clus < 1 ∨ root_clus > clus_fat)
    some ({ clus_size := clus_size, clus_pow := clus_pow, clus_fat := clus_fat,
            chain_size := chain_size, chain_pow := chain_pow, fat_start := fat_start,
            fat_size := fat_size, root_start := root_start,
            root_clus := if bad_root then 1 else root_clus,
            par_id := par_id, par_start := par_start, par_size := par_size,
            clus_num := clus_num }, bad_root)

/-- `fatxpar::setup`: the partition and its geometry, with the device after
the call, or `none` when the source returns `false`. -/
def fatxpar.setup (fe : frontend) (dev : device) : Option (fatxpar × device) :=
  let ts := dev.tot_size
  let pr := fatxpar.setup_probe fe dev
  let found : Bool := pr.found && decide (fe.table = table_t.auto)
  if ¬ found ∧ fe.prog ≠ call_t.mkfs then none
  else
    let bs := bootsect.ofBuf (dev.read pr.par_start blksize)
    let par_start := if found then pr.par_start
      else if pr.par_start ≠ 0 then pr.par_start else fe.offset
    let par_size0 := if found then pr.par_size
      else if pr.par_size ≠ 0 then pr.par_size else wsub ts par_start
    let par_id := if found then bs.id else 0
    let spc := if fe.clus_size ≠ 0 then fe.clus_size
      else if found then (if bs.spc = 0 ∨ bs.spc > 0xFFFF then 1 else bs.spc)
      else fatxpar.spc_table par_size0
    let clus_size := (blksize * spc) % 2 ^ 32
    let root_clus := if found then bs.root else 1
    let par_size := if fe.size ≠ 0 then fe.size else par_size0
    match fatxpar.setup_geometry par_id par_start par_size clus_size root_clus with
    | none => none
    | some (par, bad_root) =>
      if bad_root ∧ fe.prog = call_t.fsck ∧ fe.answer then
        some (par, (fatxpar.write fe dev par).2)
      else some (par, dev)

/-- `clsarithm::cls2fat`: device pointer of the FAT cell of cluster `p`, `0`
when `p` is out of bounds. -/
def clsarithm.cls2fat (par : fatxpar) (p : Nat) : Nat :=
  if p < par.root_clus ∨ p > par.clus_fat then 0
  else wadd par.fat_start (p * par.chain_size)

/-- `dskmap::real_write`: the write of the cell of cluster `p` on the device,
the function the cache calls on every write it is given. -/
def dskmap.real_write (par : fatxpar) (fe : frontend) (dev : device) (p v : Nat) :
    Bool × device :=
  device.write fe dev (clsarithm.cls2fat par p)
    (if par.chain_size = 4 then endian.litend 4 v else endian.litend 2 v)

/-! ### Directory records (`class entry`) -/

/-- `EOD`, the `char` of value -1 that marks the end of a directory, as a byte. -/
def EOD : Nat := 0xFF

/-- `name_size`: the maximum size of entry names. -/
def name_size : Nat := 0x2A

/-- `deleted_size`: the name size that marks a deleted entry. -/
def deleted_size : Nat := 0xE5

/-- `entry::ent_size`: the size of a directory record. -/
def ent_size : Nat := 64

/-- `sepdir[0]`: the character '/'. -/
def sepdir : Nat := 47

/-- `entry::status_t` (`end_` stands for the enumerator `end`). -/
inductive status_t where
  | valid
  | delwdata
  | delnodata
  | lost
  | end_
  | invalid
deriving DecidableEq, Repr

/-- The fields of `class entry` that hold the directory record, with the area
vector of the entry.  `name` is the array `char name[name_size + 1]`, one byte
value `0..255` per character. -/
structure entry where
  status : status_t
  namesize : Nat
  flags : attrib
  name : List Nat
  cluster : Nat
  size : Nat
  creation : date
  access : date
  update : date
  loc : Nat
  areas : Option vareas
deriving DecidableEq, Repr

/-- The `char` at index `i` of a buffer, as a byte. -/
def byte_at (l : List Nat) (i : Nat) : Nat := l.getD i 0 % 256

/-- `strlen` on a character array. -/
def strlen (s : List Nat) : Nat := (s.takeWhile (fun c => c != 0)).length

/-- The test `strncmp(a, b, n) == 0`. -/
def strncmp_eq (a b : List Nat) (n : Nat) : Bool :=
  (a.takeWhile (fun c => c != 0)).take n == (b.takeWhile (fun c => c != 0)).take n

/-- The test `c < ' ' || c > '~'` on a `char` given as a byte: a byte above 127
is below ' ' when `char` is signed and above '~' when it is not. -/
def nonprint (c : Nat) : Bool := decide (c < 32 ∨ c > 126)

/-- The status expression of `entry::entry(const streamptr&, const char*)` for a
buffer that is not null.  The test `buf[0] >= 0 && buf[0] <= name_size` is
`byte ≤ name_size` for either signedness of `char`.  In the test for `delwdata`
the operand `typeid(fat) != typeid(memmap*)` compares the static type
`dskmap*` of the pointer with `memmap*` and is always true, so the clause after
its `||` is never evaluated. -/
def entry.status_of (par : fatxpar) (d : dskmap) (l : List Nat) (cluster size : Nat)
    (flags : attrib) : status_t :=
  if (byte_at l 0 = EOD ∧ byte_at l 1 = EOD) ∨ (byte_at l 0 = 0 ∧ byte_at l 1 = 0) then
    status_t.end_
  else if cluster > par.clus_fat ∨ nonprint (byte_at l 2) ∨
      (byte_at l 3 ≠ 0 ∧ (nonprint (byte_at l 3) ∨
        (byte_at l 4 ≠ 0 ∧ nonprint (byte_at l 4)))) then
    status_t.invalid
  else if byte_at l 0 ≤ name_size ∧
      ((size = 0 ∧ cluster = 0) ∨ (cluster ≠ 0 ∧ dskmap.read par d cluster ≠ FLK)) then
    status_t.valid
  else if (cluster = 0 ∧ ¬ flags.dir) ∨ (cluster ≠ 0 ∧ dskmap.read par d cluster = FLK) then
    status_t.delwdata
  else if flags.dir then status_t.invalid
  else status_t.delnodata

/-- The name array after `memset(name, 0, name_size + 1)` and
`memcpy(name, &buf[2], namesize <= name_size ? namesize : name_size)`. -/
def entry.name_of (l : List Nat) (namesize : Nat) : List Nat :=
  (List.range (if namesize ≤ name_size then namesize else name_size)).map
      (fun i => byte_at l (2 + i)) ++
    List.replicate (name_size + 1 - (if namesize ≤ name_size then namesize else name_size)) 0

/-- The loop `for(i = 0; i < strlen(name); i++) name[i] = ...` that cleans the
name, from index `i`, at most `fuel` passes (the array has `name_size + 1`
characters, the last one null, so `name_size + 1` passes are enough). -/
def entry.clean_name : Nat → Nat → List Nat → List Nat
  | 0, _, name => name
  | fuel + 1, i, name =>
    if i < strlen name then
      entry.clean_name fuel (i + 1)
        (name.set i
          (if name.getD i 0 = EOD then 0
           else if nonprint (name.getD i 0) then 126
           else name.getD i 0))
    else name

/-- `entry::entry(const streamptr& s, const char buf[ent_size])`: the entry
decoded from the record `buf` found at `s` (`none` for the null pointer). -/
def entry.ofBuf (par : fatxpar) (d : dskmap) (s : Nat) (buf : Option (List Nat)) : entry :=
  match buf with
  | none =>
    { status := status_t.end_, namesize := 0, flags := attrib.ofChar 0,
      name := List.replicate (name_size + 1) 0, cluster := 0, size := 0,
      creation := date.ofBuf [0, 0, 0, 0], access := date.ofBuf [0, 0, 0, 0],
      update := date.ofBuf [0, 0, 0, 0], loc := s, areas := none }
  | some l =>
    let namesize := byte_at l 0
    let flags := attrib.ofChar (byte_at l 1)
    let cluster := endian.litend_value 4 (l.drop 0x2C)
    let size := endian.litend_value 4 (l.drop 0x30)
    let status0 := entry.status_of par d l cluster size flags
    let name0 := entry.name_of l namesize
    let status :=
      if status0 ≠ status_t.end_ ∧
          ((namesize ≠ deleted_size ∧ namesize ≠ strlen name0) ∨ strlen name0 = 0 ∨
            name0.getD 0 0 = sepdir) then
        status_t.invalid
      else status0
    { status := status, namesize := namesize, flags := flags,
      name :=
        if status ≠ status_t.end_ ∧ status ≠ status_t.invalid then
          entry.clean_name (name_size + 1) 0 name0
        else name0,
      cluster := cluster, size := size,
      creation := date.ofBuf (l.drop 0x34), access := date.ofBuf (l.drop 0x38),
      update := date.ofBuf (l.drop 0x3C), loc := s, areas := none }

/-- The 64 bytes `entry::write` builds: the end mark, or the record of the
entry with the access time `now` set by `touch(false, true, false)`. -/
def entry.record (e : entry) (now : date) : List Nat :=
  if e.status = status_t.end_ then List.replicate ent_size EOD
  else
    [ (if e.status = status_t.delwdata ∨ e.status = status_t.delnodata then deleted_size
       else strlen e.name) % 256,
      attrib.write e.flags ] ++
    (e.name ++ List.replicate name_size 0).take name_size ++
    endian.litend 4 e.cluster ++ endian.litend 4 e.size ++
    date.write e.creation ++ date.write now ++ date.write e.update

/-- `entry::write`: the returned flag, the entry and the device after the call. -/
def entry.write (fe : frontend) (dev : device) (e : entry) (now : date) :
    Bool × entry × device :=
  if e.status = status_t.invalid ∨ (e.flags.dir ∧ e.cluster = 0) then (false, e, dev)
  else if e.loc = 0 then (true, e, dev)
  else
    let r := device.write fe dev e.loc (entry.record e now)
    (r.1, if e.status = status_t.end_ then e else { e with access := now }, r.2)

/-- The inner loop of the scan of `entry::addtodir` over the records of the
cluster read in `buf` from the device pointer `base`: the pointer of the first
record that starts with `EOD EOD` (`0` if none) and the pointer of the last
record before it whose first byte is `deleted_size` (`del` if none). -/
def entry.addtodir_block (buf : List Nat) (base del : Nat) : Nat × Nat :=
  let st := (List.range ((buf.length + ent_size - 1) / ent_size)).foldl
    (fun (st : Nat × Nat × Bool) k =>
      if st.2.2 then st
      else if byte_at buf (ent_size * k) = EOD ∧ byte_at buf (ent_size * k + 1) = EOD then
        (wadd base (ent_size * k), st.2.1, true)
      else if byte_at buf (ent_size * k) = deleted_size then
        (st.1, wadd base (ent_size * k), false)
      else st)
    (0, del, false)
  (st.1, st.2.1)

/-- The outer loop of the scan of `entry::addtodir`, from cluster `i` with the
pointers `end_` and `del` found so far, at most `fuel` passes.  The loop
changes nothing, so a run that comes to an end never meets a cluster twice;
`none` stands for a loop that does not end. -/
def entry.addtodir_scan (par : fatxpar) (d : dskmap) (dev : device) :
    Nat → Nat → Nat → Nat → Option (Nat × Nat)
  | 0, i, end_, del =>
    if end_ = 0 ∧ i ≠ EOC ∧ i ≠ FLK then none else some (end_, del)
  | fuel + 1, i, end_, del =>
    if end_ = 0 ∧ i ≠ EOC ∧ i ≠ FLK then
      let r := entry.addtodir_block
        (dev.read (clsarithm.cls2ptr par i) par.clus_size) (clsarithm.cls2ptr par i) del
      entry.addtodir_scan par d dev fuel (dskmap.read par d i) r.1 r.2
    else some (end_, del)

/-- What `entry::addtodir` returns and leaves: the flag, the new entry, the
directory, its children, the FAT and the device. -/
structure addtodir_t where
  ok : Bool
  e : Option entry
  dir : entry
  childs : List entry
  d : dskmap
  dev : device

/-- The end of `entry::addtodir` once the slot `loc` is chosen: the entry is
made valid, added to the children and written, the directory is touched and
saved (`root` tells that the directory is its own parent). -/
def entry.addtodir_push (fe : frontend) (d : dskmap) (dev : device) (dir : entry)
    (childs : List entry) (root : Bool) (e : entry) (loc : Nat) (now : date) : addtodir_t :=
  let w := entry.write fe dev { e with loc := loc, status := status_t.valid } now
  let dir1 := { dir with update := now }
  let s := if root then (true, dir1, w.2.2) else entry.write fe w.2.2 dir1 now
  { ok := s.1, e := some w.2.1, dir := s.2.1, childs := childs ++ [w.2.1], d := d, dev := s.2.2 }

/-- `entry::addtodir(e)` on the directory `dir` with the children `childs`.
The FAT cells are those of `d`, the device holds the data clusters.  The result
is `none` when the scan does not end or `dskmap::resize` has no defined result. -/
def entry.addtodir (par : fatxpar) (fe : frontend) (d : dskmap) (dev : device) (dir : entry)
    (childs : List entry) (root : Bool) (e : Option entry) (now : date) : Option addtodir_t :=
  match e with
  | none => some { ok := false, e := none, dir := dir, childs := childs, d := d, dev := dev }
  | some e =>
    if ¬ dir.flags.dir ∨ dir.cluster = 0 ∨ (e.flags.dir ∧ e.cluster = 0) then
      some { ok := false, e := some e, dir := dir, childs := childs, d := d, dev := dev }
    else if childs.any
        (fun i => i.namesize == e.namesize && strncmp_eq i.name e.name i.namesize) then
      some { ok := false, e := some e, dir := dir, childs := childs, d := d, dev := dev }
    else
      match entry.addtodir_scan par d dev (par.clus_fat + 2) dir.cluster 0 0 with
      | none => none
      | some (end_, del) =>
        if end_ ≠ 0 then
          let dev1 :=
            if wsub (wadd end_ ent_size)
                (((wadd end_ ent_size) >>> par.clus_pow) <<< par.clus_pow) ≠ 0 then
              (entry.write fe dev (entry.ofBuf par d (wadd end_ ent_size) none) now).2.2
            else dev
          some (entry.addtodir_push fe d dev1 dir childs root e end_ now)
        else if del ≠ 0 then
          some (entry.addtodir_push fe d dev dir childs root e del now)
        else
          let g : Option vareas × dskmap :=
            match dir.areas with
            | some (a :: v) => (some (a :: v), d)
            | _ => ((some (dskmap.getareas par fe d dir.cluster none).1),
                (dskmap.getareas par fe d dir.cluster none).2)
          if g.1 = some [] then
            some { ok := false, e := some e, dir := { dir with areas := g.1 },
                   childs := childs, d := g.2, dev := dev }
          else
            match dskmap.resize par fe g.2 g.1 (wadd ((g.1.getD []).nbcls) 1) with
            | none => none
            | some (false, a, d1) =>
              some { ok := false, e := some e, dir := { dir with areas := a },
                     childs := childs, d := d1, dev := dev }
            | some (true, a, d1) =>
              let loc := clsarithm.cls2ptr par (vareas.last (a.getD []))
              let dev1 :=
                (entry.write fe dev (entry.ofBuf par d1 (wadd loc ent_size) none) now).2.2
              some (entry.addtodir_push fe d1 dev1 { dir with areas := a } childs root e loc now)

/-! ### Example devices -/

/-- A partition image: the boot sector of a partition with one sector per
cluster and root cluster `root` at offset `start`, zeros elsewhere. -/
def imageData (start root : Nat) : Nat → Nat := fun q =>
  if start ≤ q ∧ q < start + 16 then
    (fsid ++ endian.litend 4 0 ++ endian.litend 4 1 ++ endian.litend 4 root).getD (q - start) 0
  else 0

/-- A device of `size` bytes holding `imageData start root`. -/
def exImage (size start root : Nat) : device :=
  { tot_size := size, data := imageData start root, changes := false }

/-- The mounted file system started with `--offset 0x200`. -/
def exFeOffset : frontend := { prog := call_t.fuse, answer := false, offset := 0x200 }

/-- The geometry `fatxpar::setup` derives for a partition image of 0x10000
bytes whose boot sector names cluster 2 as root. -/
def exParTwo : fatxpar :=
  { clus_size := 512, clus_pow := 9, clus_fat := 111, chain_size := 2, chain_pow := 1,
    fat_start := 0x1000, fat_size := 0x1000, root_start := 0x2000, root_clus := 2,
    par_id := 0, par_start := 0, par_size := 0x10000, clus_num := 128 }

/-- A time stamp: 2001-02-03 04:05:06. -/
def exDate : date := { year := 2001, month := 2, day := 3, hour := 4, min := 5, sec := 6 }

/-- No flag set. -/
def attribNone : attrib := attrib.ofChar 0

/-- The root directory on cluster 1, as `entry::entry()` sets its fields. -/
def exRoot : entry :=
  { status := status_t.valid, namesize := 0, flags := { attribNone with dir := true },
    name := List.replicate (name_size + 1) 0, cluster := 1, size := 0,
    creation := exDate, access := exDate, update := exDate, loc := 0, areas := none }

/-- A new empty file named "A", as `entry::entry(const string&, const filesize&,
const bool)` sets its fields. -/
def exFile : entry :=
  { status := status_t.invalid, namesize := 1, flags := attribNone,
    name := 65 :: List.replicate name_size 0, cluster := 0, size := 0,
    creation := exDate, access := exDate, update := exDate, loc := 0, areas := none }

/-- A file "AB" of 700 bytes on cluster 5, with its record at 0x2040. -/
def exFileAB : entry :=
  { status := status_t.valid, namesize := 2, flags := attribNone,
    name := [65, 66] ++ List.replicate 41 0, cluster := 5, size := 700,
    creation := exDate, access := exDate, update := exDate, loc := 0x2040, areas := none }

/-- A device of 14848 bytes, all zero. -/
def exDev : device := { tot_size := 0x3A00, data := fun _ => 0, changes := false }

/-- Cluster 1 is a one-cluster chain, every other cluster is free. -/
def cellsRoot : List Nat := [0, EOC]

/-- A record of a file without data: name length 3, name "A/B". -/
def recSep : List Nat := [3, 0, 65, 47, 66] ++ List.replicate 59 0

/-! ### The volume label (`fatxpar::label`) -/

/-- `slab`: the maximum size of the label name file. -/
def slab : Nat := name_size * 2 + 2

/-- `fatxpar::label(unsigned char buf[slab])`: the buffer it fills and the size
it returns.  The loop over the characters of `par_label` leaves at
`res == slab`, after which a pass changes nothing. -/
def fatxpar.label (par : fatxpar) : List Nat × Nat :=
  par.par_label.foldl
    (fun (st : List Nat × Nat) c =>
      if st.2 = slab then st
      else (st.1.set (st.2 + 2 - 1) (c % 256), st.2 + 2))
    (((List.replicate slab 0).set 0 0xFE).set 1 0xFF, 2)

/-- `fatxpar::label(const unsigned char buf[slab], const size_t size)`: the
characters at the indices 3, 5, ... below `slab`, up to the first index that
is not below `size`, are appended to `par_label`. -/
def fatxpar.label_read (par : fatxpar) (buf : List Nat) (size : Nat) : fatxpar :=
  { par with
    par_label := par.par_label ++
      (((List.range ((slab - 2) / 2)).map (fun j => 3 + 2 * j)).takeWhile
        (fun i => decide (i < size))).map (fun i => buf.getD i 0 % 256) }

/-- The bytes of the label after the two bytes of the mark: for each character a
null byte and the character. -/
def label_units (l : List Nat) : List Nat := l.flatMap (fun c => [0, c % 256])

/-! ### The exit code of the program (`main`) -/

/-- `code_noerr`: no error code. -/
def code_noerr : Int := 0

/-- `code_corrd`: errors corrected code. -/
def code_corrd : Int := 1 <<< 0

/-- `code_ncorr`: errors remaining code. -/
def code_ncorr : Int := 1 <<< 2

/-- `code_operr`: internal error code. -/
def code_operr : Int := 1 <<< 3

/-- `code_usage`: usage error code. -/
def code_usage : Int := 1 <<< 4

/-- The value `main` returns once `frontend::setup` and `fatx_context::setup`
have succeeded.  The variable `err` is set to 0 at its declaration and assigned
in one place only, `err = fuse_main(...)` in the branch `prog == fuse` (the
value `fuse_err`); the function ends with
`if(err != 0) err = prog != fsck ? code_noerr : !dev.modified() ? code_noerr :
allyes ? code_corrd : code_ncorr; return err;`. -/
def main_exit (mmi : frontend) (dev : device) (fuse_err : Int) : Int :=
  let err : Int := if mmi.prog = call_t.fuse then fuse_err else 0
  if err ≠ 0 then
    if mmi.prog ≠ call_t.fsck then code_noerr
    else if ¬ dev.changes then code_noerr
    else if mmi.allyes then code_corrd
    else code_ncorr
  else err

/-! ### The LRU cache (`class read_cache`) -/

/-- State of `read_cache`.  `container` is a
`bimap<set_of<key_type>, list_of<value_type>>`; it is kept as the list of its
pairs (key, value) in the order of the right view, the least recently used pair
first.  The keys are unique (left view). -/
structure read_cache where
  capacity : Nat
  readahead : Nat
  container : List (Nat × Nat)
deriving DecidableEq, Repr

/-- `container.insert(value_type(k, v))`: refused when the key is present, else
the pair goes to the end of the right view. -/
def read_cache.insert (l : List (Nat × Nat)) (k v : Nat) : List (Nat × Nat) :=
  if l.any (fun x => x.1 == k) then l else l ++ [(k, v)]

/-- `container.right.insert(container.right.begin(), first, last)` for a range
of pairs (value, key): the pairs whose key is not yet present are placed, in
their order, before the pairs the container held. -/
def read_cache.insert_front (l : List (Nat × Nat)) (vv : List (Nat × Nat)) :
    List (Nat × Nat) :=
  (vv.foldl
    (fun (pre : List (Nat × Nat)) x =>
      if (pre ++ l).any (fun y => y.1 == x.2) then pre else pre ++ [(x.2, x.1)]) []) ++ l

/-- `read_cache::operator()(k, v)` (put): the flag returned, the state after the
call and the calls made to the write function `write`. -/
def read_cache.put (write : Nat → Nat → Bool) (c : read_cache) (k v : Nat) :
    Bool × read_cache × List (Nat × Nat) :=
  let cont :=
    if c.container.any (fun x => x.1 == k) then
      c.container.filter (fun x => x.1 != k) ++ [(k, v)]
    else
      read_cache.insert
        (if c.container.length = c.capacity then c.container.drop 1 else c.container) k v
  (write k v, { c with container := cont }, [(k, v)])

/-- `read_cache::operator()(k)` (get): the value returned, the state after the
call and the calls made to the read function `read`, which answers a list of
pairs (value, key).  An `advance` past the end of the list, undefined in the
source, empties the list. -/
def read_cache.get (read : Nat → Nat → List (Nat × Nat)) (c : read_cache) (k : Nat) :
    Nat × read_cache × List (Nat × Nat) :=
  match c.container.find? (fun x => x.1 == k) with
  | some x =>
    (x.2, { c with container := c.container.filter (fun y => y.1 != k) ++ [x] }, [])
  | none =>
    match read k c.readahead with
    | [] => (0, c, [(k, c.readahead)])
    | f :: rest =>
      let cont1 :=
        if c.container.length + (f :: rest).length > c.capacity then
          c.container.drop (c.container.length + (f :: rest).length - c.capacity)
        else c.container
      (f.1,
        { c with container := read_cache.insert_front (read_cache.insert cont1 f.2 f.1) rest },
        [(k, c.readahead)])

/-! ### Renaming an entry (`entry::rename`) -/

/-- The characters of a name array up to the first null. -/
def cstr (s : List Nat) : List Nat := s.takeWhile (fun c => c != 0)

/-- No two valid entries of the list have the same name. -/
def names_unique : List entry → Bool
  | [] => true
  | a :: t =>
    t.all (fun b =>
      !(a.status == status_t.valid && b.status == status_t.valid && cstr a.name == cstr b.name))
    && names_unique t

/-- `nstr.rfind(sepdir, nstr.size())`: the index of the last separator, `none`
for `npos`. -/
def rfind_sep (nstr : List Nat) : Option Nat :=
  (nstr.reverse.findIdx? (fun c => c == sepdir)).map (fun i => nstr.length - 1 - i)

/-- A directory as `entry::rename` meets it: its entry, its children, whether it
is the root (its own parent). -/
structure dir_t where
  ent : entry
  childs : List entry
  root : Bool

/-- What `entry::rename` returns and leaves: the flag, the entry, its former
directory, the directory found for the new path, the FAT and the device. -/
structure rename_t where
  ok : Bool
  e : entry
  oldpar : dir_t
  newpar : Option dir_t
  d : dskmap
  dev : device

/-- The end of `entry::rename`: the name array and the name length are set from
`nstr` and the entry is saved. -/
def entry.rename_name (fe : frontend) (dev : device) (e : entry) (nstr : List Nat)
    (now : date) : Bool × entry × device :=
  let n := if nstr.length ≤ name_size then nstr.length else name_size
  let e1 : entry :=
    { e with
      name := (cstr nstr).take n ++ List.replicate (name_size + 1 - ((cstr nstr).take n).length) 0
      namesize := if e.status = status_t.valid then n else e.namesize }
  entry.write fe dev e1 now

/-- `entry::rename(n)` on the child number `pos` of the directory `oldpar`.
`found` is what `root->find` answers for the part of the path before the last
separator: the directory, and whether it is `oldpar` itself.  When the entry
stays in its directory its place in the children is updated; when it moves it
is taken out of the children of `oldpar` and handed to `addtodir` of the new
directory.  The result is `none` when `addtodir` has no defined result. -/
def entry.rename (par : fatxpar) (fe : frontend) (d : dskmap) (dev : device) (e : entry)
    (oldpar : dir_t) (pos : Nat) (n : List Nat) (found : Option (dir_t × Bool))
    (now : date) : Option rename_t :=
  if e.status ≠ status_t.valid then
    some { ok := false, e := e, oldpar := oldpar, newpar := found.map Prod.fst, d := d, dev := dev }
  else if n = [] ∨ e.flags.lab then
    some { ok := true, e := e, oldpar := oldpar, newpar := found.map Prod.fst, d := d, dev := dev }
  else
    match rfind_sep n with
    | none =>
      let w := entry.rename_name fe dev e n now
      some { ok := w.1, e := w.2.1,
             oldpar := { oldpar with childs := oldpar.childs.set pos w.2.1 },
             newpar := none, d := d, dev := w.2.2 }
    | some idx =>
      match found with
      | none =>
        some { ok := false, e := e, oldpar := oldpar, newpar := none, d := d, dev := dev }
      | some (newpar, true) =>
        let w := entry.rename_name fe dev e (n.drop (idx + 1)) now
        some { ok := w.1, e := w.2.1,
               oldpar := { oldpar with childs := oldpar.childs.set pos w.2.1 },
               newpar := some { newpar with childs := newpar.childs.set pos w.2.1 },
               d := d, dev := w.2.2 }
      | some (newpar, false) =>
        let w1 := entry.write fe dev { e with status := status_t.delwdata } now
        let e1 : entry := { w1.2.1 with status := status_t.valid }
        let old1 : entry := { oldpar.ent with update := now }
        let s := if oldpar.root then (true, old1, w1.2.2) else entry.write fe w1.2.2 old1 now
        let oldp : dir_t := { oldpar with ent := s.2.1, childs := oldpar.childs.eraseIdx pos }
        if ¬ s.1 then
          some { ok := false, e := e1, oldpar := oldp, newpar := some newpar, d := d,
                 dev := s.2.2 }
        else
          match entry.addtodir par fe d s.2.2 newpar.ent newpar.childs newpar.root (some e1)
              now with
          | none => none
          | some r =>
            if ¬ r.ok then
              some { ok := false, e := r.e.getD e1, oldpar := oldp,
                     newpar := some { newpar with ent := r.dir, childs := r.childs },
                     d := r.d, dev := r.dev }
            else
              let e2 := r.e.getD e1
              let w := entry.rename_name fe r.dev e2 (n.drop (idx + 1)) now
              let newp : dir_t :=
                { newpar with ent := r.dir, childs := r.childs.dropLast ++ [w.2.1] }
              some { ok := w.1, e := w.2.1, oldpar := oldp, newpar := some newp,
                     d := r.d, dev := w.2.2 }

/-! ### Chains that do not end -/

/-- `path fat o cs r`: following the FAT from `o`, the clusters met are those of
`cs` in that order, none of them END or FREE, and the cell of the last one
holds `r` (`r` is `o` itself when `cs` is empty). -/
def path (fat : Nat → Nat) : Nat → List Nat → Nat → Prop
  | o, [], r => o = r
  | o, c :: cs, r => c = o ∧ o ≠ EOC ∧ o ≠ FLK ∧ path fat (fat c) cs r

/-! ### The FAT overlay in memory (`class memmap`) -/

/-- `vareas::isin`. -/
def vareas.isin (v : vareas) (c : Nat) : Bool :=
  v.any (fun i => decide (i.start ≤ c) && decide (c ≤ i.stop))

/-- `dskmap::status_t`. -/
inductive dskmap.status_t where
  | disk
  | deleted
  | modified
  | marked
deriving DecidableEq, Repr

/-- `memmap::link`; `ent` stands for the pointer to the entry. -/
structure memmap.link where
  next : Nat
  ent : Nat
  status : dskmap.status_t
deriving DecidableEq, Repr

/-- `class memmap : public dskmap`: the state of the base class, the map
`memchain` as the list of its pairs in key order, and the vector `lost`. -/
structure memmap where
  d : dskmap
  memchain : List (Nat × memmap.link)
  lost : List vareas

/-- `memchain.insert(make_pair(p, l))`: the pair takes its place in key order;
the map is left as it is when it holds the key. -/
def memmap.insert : List (Nat × memmap.link) → Nat → memmap.link → List (Nat × memmap.link)
  | [], p, l => [(p, l)]
  | x :: t, p, l =>
    if p < x.1 then (p, l) :: x :: t
    else if p = x.1 then x :: t
    else x :: memmap.insert t p l

/-- `memmap::read`: the link of the overlay when there is one, else the cell on
disk, or FREE when lost chains are not kept. -/
def memmap.read (par : fatxpar) (fe : frontend) (m : memmap) (p : Nat) : Nat :=
  match m.memchain.lookup p with
  | some l => l.next
  | none => if fe.dellost then dskmap.read par m.d p else FLK

/-- `memmap::change(p, e, n, s)`. -/
def memmap.change (m : memmap) (p e n : Nat) (s : dskmap.status_t) : memmap :=
  match m.memchain.lookup p with
  | some _ =>
    { m with
      memchain := m.memchain.map (fun x =>
        if x.1 = p then (x.1, { next := if n ≠ FLK then n else x.2.next, ent := e, status := s })
        else x) }
  | none => { m with memchain := memmap.insert m.memchain p { next := n, ent := e, status := s } }

/-- `memmap::status`. -/
def memmap.status (m : memmap) (p : Nat) : dskmap.status_t :=
  match m.memchain.lookup p with
  | none => dskmap.status_t.disk
  | some l => l.status

/-- `memmap::getentry`, null being `0`. -/
def memmap.getentry (m : memmap) (p : Nat) : Nat :=
  match m.memchain.lookup p with
  | none => 0
  | some l => l.ent

/-- Local variables of the loop of `dskmap::getareas` when the object is a
`memmap`. -/
structure mwalk where
  m : memmap
  sc : List Nat
  res : vareas
  area_off : Nat
  area_ptr : Nat
  area_siz : Nat
  area_start : Nat
  cur_cls : Nat
  prv_cls : Nat

/-- Outcome of one pass through the loop of `dskmap::getareas` on a `memmap`. -/
inductive mwalk_t where
  | next (w : mwalk)
  | done (res : vareas) (m : memmap)

/-- One pass through the `while(true)` loop of `dskmap::getareas` when the
object is a `memmap`: the call `read(prv_cls = cur_cls)` is virtual and runs
`memmap::read`, the call `write(prv_cls, EOC)` is not and runs `dskmap::write`.
`lbd` is the visitor (`none` for the empty function). -/
def memmap.getareas_step (par : fatxpar) (fe : frontend)
    (lbd : Option (memmap → Nat → Nat → memmap)) (w : mwalk) : mwalk_t :=
  let special : Bool := decide (w.cur_cls = EOC) || decide (w.cur_cls = FLK)
  if !special && decide (w.cur_cls ∈ w.sc) then
    mwalk_t.done w.res
      (if fe.prog = call_t.fsck ∧ fe.answer = true then
        { w.m with d := (dskmap.write par w.m.d w.prv_cls EOC).2 }
       else w.m)
  else
    let sc := if special then w.sc else w.cur_cls :: w.sc
    let fresh : Bool := !special && decide (w.area_ptr = 0)
    let area_ptr := if fresh then clsarithm.cls2ptr par w.cur_cls else w.area_ptr
    let area_start := if fresh then w.cur_cls else w.area_start
    let area_siz := if special then w.area_siz else wadd w.area_siz par.clus_size
    let close : Bool :=
      (decide (w.prv_cls ≠ 0) && decide (w.prv_cls ≠ wsub w.cur_cls 1)) || special
    let area_siz1 := if close && !special then wsub area_siz par.clus_size else area_siz
    let res := if close then
        w.res ++ [{ offset := w.area_off, pointer := area_ptr, size := area_siz1,
                    start := area_start, stop := w.prv_cls }]
      else w.res
    if special then mwalk_t.done res w.m
    else
      let nxt := memmap.read par fe w.m w.cur_cls
      mwalk_t.next
        { m := match lbd with
            | none => w.m
            | some f => f w.m w.cur_cls nxt
          sc := sc
          res := res
          area_off := if close then wadd w.area_off area_siz1 else w.area_off
          area_ptr := if close then clsarithm.cls2ptr par w.cur_cls else area_ptr
          area_siz := if close then par.clus_size else area_siz1
          area_start := if close then w.cur_cls else area_start
          cur_cls := nxt
          prv_cls := w.cur_cls }

/-- The loop of `dskmap::getareas` on a `memmap`, at most `fuel` passes. -/
def memmap.getareas_loop (par : fatxpar) (fe : frontend)
    (lbd : Option (memmap → Nat → Nat → memmap)) : Nat → mwalk → vareas × memmap
  | 0, w => (w.res, w.m)
  | fuel + 1, w =>
    match memmap.getareas_step par fe lbd w with
    | mwalk_t.done res m => (res, m)
    | mwalk_t.next w1 => memmap.getareas_loop par fe lbd fuel w1

/-- `dskmap::getareas(orig, lbd)` on a `memmap`.  Every pass of the loop but the
last adds a new cluster to `sc`; a cluster read from the disk is at most
`clus_fat` or ends the loop at the next pass, and so does the link of an
overlay built by `markchain`, which is FREE; `clus_fat + 2` passes are enough
for such a walk. -/
def memmap.getareas (par : fatxpar) (fe : frontend) (m : memmap) (orig : Nat)
    (lbd : Option (memmap → Nat → Nat → memmap)) : vareas × memmap :=
  if orig = EOC ∨ orig = FLK then ([], m)
  else memmap.getareas_loop par fe lbd (par.clus_fat + 2)
    { m := m, sc := [], res := [], area_off := 0, area_ptr := 0, area_siz := 0,
      area_start := 0, cur_cls := orig, prv_cls := 0 }

/-- The visitor of `memmap::markchain`: `change(c, e)`, that is the link FREE
and the status `marked`. -/
def memmap.mark_lbd (e : Nat) (m : memmap) (c : Nat) (_ : Nat) : memmap :=
  memmap.change m c e FLK dskmap.status_t.marked

/-- `memmap::markchain(p, e)`: the chain from `p` is walked with `dellost` set
for the time of the walk, the visitor labelling every cluster met. -/
def memmap.markchain (par : fatxpar) (fe : frontend) (m : memmap) (p e : Nat) :
    vareas × memmap :=
  memmap.getareas par { fe with dellost := true } m p (some (memmap.mark_lbd e))

/-- The visitor `memmap::fatlost` hands to `forfat`. -/
def memmap.fatlost_visit (par : fatxpar) (fe : frontend) (m : memmap) (o v : Nat) : memmap :=
  if v ≠ FLK ∧ memmap.status m o = dskmap.status_t.disk ∧
      m.lost.any (fun i => i.isin o) = false then
    let r := memmap.getareas par fe m o none
    { r.2 with lost := r.2.lost.filter (fun i => !(r.1.isin i.first)) ++ [r.1] }
  else m

/-- `memmap::fatlost`.  The visitor is handed the cells the FAT holds at the
call; it writes a cell only when it cuts a cycle. -/
def memmap.fatlost (par : fatxpar) (fe : frontend) (m : memmap) : memmap :=
  dskmap.forfat par m.d.fat (memmap.fatlost_visit par fe) { m with lost := [] }

/-- The overlay after `markchain` has been run for each entry of the list, a
pair (first cluster, entry) each. -/
def memmap.markall (par : fatxpar) (fe : frontend) (m : memmap) (heads : List (Nat × Nat)) :
    memmap :=
  heads.foldl (fun m h => (memmap.markchain par fe m h.1 h.2).2) m

/-- The FAT `fat` is sound on the clusters `root_clus ≤ c < clus_fat`: a cell
holds FREE, END or a cluster of that range (`links`); following the cells never
comes back to a cluster, `rank` going down along every link (`acyclic`); no two
cells hold the same cluster (`single`); no cell holds a cluster whose cell is
FREE (`ends`). -/
structure fat_sound (par : fatxpar) (fat : Nat → Nat) (rank : Nat → Nat) : Prop where
  links : ∀ c, par.in_fat c → fat c = FLK ∨ fat c = EOC ∨ par.in_fat (fat c)
  acyclic : ∀ c, par.in_fat c → par.in_fat (fat c) → rank (fat c) < rank c
  single : ∀ a b, par.in_fat a → par.in_fat b → par.in_fat (fat a) → fat a = fat b → a = b
  ends : ∀ c, par.in_fat c → par.in_fat (fat c) → fat (fat c) ≠ FLK

/-- The overlay `m` labels chains of the FAT of `d` that start at clusters of
`H`: its links are FREE and marked, its clusters lie in the range and have a
cell that is not FREE, the cluster held by the cell of one of them is one of
them, and each of them is in `H` or is held by the cell of one of them. -/
structure overlay_ok (par : fatxpar) (d : dskmap) (H : Nat → Prop) (m : memmap) : Prop where
  disk : m.d = d
  marked : ∀ q l, m.memchain.lookup q = some l →
    l.next = FLK ∧ l.status = dskmap.status_t.marked
  range : ∀ q, m.memchain.lookup q ≠ none → par.in_fat q ∧ d.fat q ≠ FLK
  closed : ∀ q, m.memchain.lookup q ≠ none → d.fat q ≠ EOC → d.fat q ≠ FLK →
    m.memchain.lookup (d.fat q) ≠ none
  origin : ∀ q, m.memchain.lookup q ≠ none →
    H q ∨ ∃ z, m.memchain.lookup z ≠ none ∧ d.fat z = q

/-- The area vector `L` is a lost chain of the FAT of `d` under the overlay `m`:
`isin` holds of the clusters of the chain from `L.first()` and of no other, and
these lie in the range, have no link in the overlay and a cell that is not
FREE. -/
def lost_chain (par : fatxpar) (d : dskmap) (m : memmap) (L : vareas) : Prop :=
  ∃ cs, chain d.fat L.first cs ∧ (∀ x, L.isin x = true ↔ x ∈ cs) ∧ L.first ∈ cs ∧
    ∀ x ∈ cs, par.in_fat x ∧ m.memchain.lookup x = none ∧ d.fat x ≠ FLK

/-! ### Further examples -/

/-- The partition `exPar` with the label "HI". -/
def exParLabel : fatxpar := { exPar with par_label := [72, 73] }

/-- The program fsck with every prompt answered yes. -/
def exFsck : frontend := { prog := call_t.fsck, answer := true }

/-- The device `exDev` after a write. -/
def exDevModified : device := { exDev with changes := true }

/-- Clusters 2..4, 6..9 and 11 are free, every other cluster is a one-cluster
chain. -/
def cellsG : List Nat := [0, EOC, 0, 0, 0, EOC, 0, 0, 0, 0, EOC, 0, EOC]

/-- A device of 14848 bytes whose bytes 0x2000 .. 0x203F, the first record of
cluster 1, hold 0xFF, the others zero. -/
def exDevEnd : device :=
  { tot_size := 0x3A00, data := fun q => if 0x2000 ≤ q ∧ q < 0x2040 then 0xFF else 0,
    changes := false }

/-- A valid empty file named "A" with its record at 0x2000. -/
def exFileA : entry :=
  { exFile with status := status_t.valid, loc := 0x2000 }

/-- A valid empty file named "B" with its record at 0x2040. -/
def exFileB : entry :=
  { exFile with status := status_t.valid, name := 66 :: List.replicate name_size 0,
                loc := 0x2040 }

/-- The root directory with the children "A" and "B". -/
def exRootAB : dir_t := { ent := exRoot, childs := [exFileA, exFileB], root := true }

/-- The program fsck in test mode: prompts answered yes, nothing written. -/
def exFsckTest : frontend := { prog := call_t.fsck, answer := true, readonly := true }

/-- Clusters 5 and 6 point at each other: the chain from 5 is 5 → 6 → 5. -/
def cellsCycle : List Nat := [0, EOC, 0, 0, 0, 6, 5]

/-- A cache of two pairs that is full: the pair of key 1 is the least recently
used one. -/
def exCache : read_cache := { capacity := 2, readahead := 1, container := [(1, 10), (2, 20)] }

/-- The chains 2 → 3 → 5, 7 → 9 and 11 → 8 → 10, the one-cluster chains 1, 4
and 12, and cluster 6 free. -/
def cellsW : List Nat := [0, EOC, 3, 5, EOC, EOC, 0, 9, 10, EOC, EOC, 8, EOC]

/-- A fresh overlay on the FAT `cellsW`. -/
def exMem : memmap := { d := exState cellsW, memchain := [], lost := [] }

/-- Two valid entries: the root directory on cluster 1 and a file on cluster 2. -/
def exHeads : List (Nat × Nat) := [(1, 100), (2, 101)]

/-- A rank that goes down along the links of `cellsW`. -/
def exRank (c : Nat) : Nat := if c = 11 then 30 else 20 - c

/-- The chain 2 → 3 → 6 of a valid entry runs into cluster 6, whose cell is
FREE. -/
def cellsDangle : List Nat := [0, EOC, 3, 6, EOC, EOC, 0]

/-- A fresh overlay on the FAT `cellsDangle`. -/
def exMemDangle : memmap := { d := exState cellsDangle, memchain := [], lost := [] }

/-! ### The FAT on the device (`dskmap::real_read`, `dskmap::read`, `dskmap::write`)

Here the cells of the FAT are bytes of the device, read and written through the
cache `memnext`. -/

/-- `max_cache_div`: the FAT size divider for the cache maximum size. -/
def max_cache_div : Nat := 1000

/-- `nb_cache_div`: the cache size divider for the number of read ahead
operations. -/
def nb_cache_div : Nat := 10

/-- `clsarithm::inccls`. -/
def clsarithm.inccls (par : fatxpar) (p : Nat) : Nat :=
  if p ≤ par.clus_fat then wadd p 1 else 2

/-- The statements of `read_cache::operator()(k)` that follow a miss, `vv` being
what the read function gave: nothing is stored and `0` is returned when `vv` is
empty; else the least recently used pairs make room, the first pair of `vv`
goes to the end of the right view and the others before its beginning.  An
`advance` past the end of the list, undefined in the source, empties the
list. -/
def read_cache.install (c : read_cache) (vv : List (Nat × Nat)) : Nat × read_cache :=
  match vv with
  | [] => (0, c)
  | f :: rest =>
    let cont1 :=
      if c.container.length + (f :: rest).length > c.capacity then
        c.container.drop (c.container.length + (f :: rest).length - c.capacity)
      else c.container
    (f.1, { c with container := read_cache.insert_front (read_cache.insert cont1 f.2 f.1) rest })

/-- `read_cache::clear`. -/
def read_cache.clear (c : read_cache) : read_cache := { c with container := [] }

/-- What `dskmap::read` and `dskmap::write` work on: the device, the cache
`memnext` and the set `bad` of the clusters already reported. -/
structure dskio where
  dev : device
  memnext : read_cache
  bad : List Nat

/-- The cache as the constructor `dskmap::dskmap` sets it: the capacity is
`CACHESIZE`, the larger of `clus_fat * chain_size / max_cache_div` (an
`unsigned int` product) and `clus_size`, and the read ahead the larger of
`CACHESIZE / nb_cache_div` and `clus_size`. -/
def dskio.init (par : fatxpar) (dev : device) : dskio :=
  let big := (par.clus_fat * par.chain_size) % 2 ^ 32 / max_cache_div
  let cachesize := if big > par.clus_size then big else par.clus_size
  { dev := dev,
    memnext :=
      { capacity := cachesize,
        readahead :=
          if cachesize / nb_cache_div > par.clus_size then cachesize / nb_cache_div
          else par.clus_size,
        container := [] },
    bad := [] }

/-- `dskmap::write` on the device: the guards, then `memnext(p, v)`, which
updates the cache and hands the pair to `real_write`. -/
def dskio.write (par : fatxpar) (fe : frontend) (st : dskio) (p v : Nat) : Bool × dskio :=
  if p = FLK ∨ p = EOC then (false, st)
  else if p < 1 ∨ p > par.clus_fat then (false, st)
  else if v ≠ FLK ∧ v ≠ EOC ∧ (v < 1 ∨ v > par.clus_fat) then (false, st)
  else
    let w := dskmap.real_write par fe st.dev p v
    let r := read_cache.put (fun _ _ => w.1) st.memnext p v
    (r.1, { st with dev := w.2, memnext := r.2.1 })

/-- One pass of the `for` of `dskmap::real_read`, at the byte index `i` of the
buffer `buf` read at the cell of cluster `p`: the pairs (value, cluster)
collected so far and the state. -/
def dskio.real_read_cell (par : fatxpar) (fe : frontend) (p : Nat) (buf : List Nat)
    (acc : List (Nat × Nat) × dskio) (i : Nat) : List (Nat × Nat) × dskio :=
  let a0 :=
    if par.chain_size = 4 then endian.litend_value 4 (buf.drop i)
    else endian.litend_value 2 (buf.drop i)
  let a := if par.chain_size = 2 ∧ a0 = EOC &&& 0xFFFF then EOC else a0
  if a ≠ FLK ∧ a ≠ EOC ∧ (a < 1 ∨ a > par.clus_fat) ∧ wadd p i ∉ acc.2.bad then
    let st1 : dskio := { acc.2 with bad := wadd p i :: acc.2.bad }
    if fe.prog = call_t.fsck ∧ fe.answer = true then
      (acc.1 ++ [(FLK, wadd p (i >>> par.chain_pow))], (dskio.write par fe st1 (wadd p i) FLK).2)
    else (acc.1 ++ [(a, wadd p (i >>> par.chain_pow))], st1)
  else (acc.1 ++ [(a, wadd p (i >>> par.chain_pow))], acc.2)

/-- `dskmap::real_read(p, s)`: the pairs (value, cluster) of at most `s` cells
from the cell of cluster `p` on, and the state the repairs leave.  The loop
runs over the byte indices `0, chain_size, 2 * chain_size, ...` below the size
of the buffer. -/
def dskio.real_read (par : fatxpar) (fe : frontend) (st : dskio) (p s : Nat) :
    List (Nat × Nat) × dskio :=
  let s1 := min s (wsub par.clus_fat p)
  let buf := st.dev.read (clsarithm.cls2fat par p) ((par.chain_size * s1) % W64)
  ((List.range ((buf.length + par.chain_size - 1) / par.chain_size)).map
    (fun j => j * par.chain_size)).foldl (dskio.real_read_cell par fe p buf) ([], st)

/-- `dskmap::read` on the device: the guards, then `memnext(p)`, which answers
from the cache or, on a miss, calls `real_read(p, readahead)` and stores what
it gave. -/
def dskio.read (par : fatxpar) (fe : frontend) (st : dskio) (p : Nat) : Nat × dskio :=
  if p = FLK ∨ p = EOC then (0, st)
  else if p < 1 ∨ p > par.clus_fat then (0, st)
  else
    match st.memnext.container.find? (fun x => x.1 == p) with
    | some x =>
      (x.2, { st with
        memnext := { st.memnext with
          container := st.memnext.container.filter (fun y => y.1 != p) ++ [x] } })
    | none =>
      let rr := dskio.real_read par fe st p st.memnext.readahead
      let r := read_cache.install rr.2.memnext rr.1
      (r.1, { rr.2 with memnext := r.2 })

/-- The value of the FAT cell of cluster `c` on the device. -/
def dskio.cell (par : fatxpar) (st : dskio) (c : Nat) : Nat :=
  let buf := (List.range par.chain_size).map
    (fun i => st.dev.data (par.fat_start + c * par.chain_size + i))
  if par.chain_size = 4 then endian.litend_value 4 buf else endian.litend_value 2 buf

/-- Local variables of the loop of `dskmap::getareas`, the FAT being read from
the device. -/
structure iowalk where
  st : dskio
  sc : List Nat
  res : vareas
  area_off : Nat
  area_ptr : Nat
  area_siz : Nat
  area_start : Nat
  cur_cls : Nat
  prv_cls : Nat

/-- Outcome of one pass through the loop of `dskmap::getareas`, the FAT being
read from the device. -/
inductive iowalk_t where
  | next (w : iowalk)
  | done (res : vareas) (st : dskio)

/-- One pass through the `while(true)` loop of `dskmap::getareas`, the calls
`read` and `write` being those on the device; `lbd` is the visitor (`none` for
the empty function), called after the read with the cluster and the value
read. -/
def dskio.getareas_step (par : fatxpar) (fe : frontend)
    (lbd : Option (dskio → Nat → Nat → dskio)) (w : iowalk) : iowalk_t :=
  let special : Bool := decide (w.cur_cls = EOC) || decide (w.cur_cls = FLK)
  if !special && decide (w.cur_cls ∈ w.sc) then
    iowalk_t.done w.res
      (if fe.prog = call_t.fsck ∧ fe.answer = true then (dskio.write par fe w.st w.prv_cls EOC).2
       else w.st)
  else
    let sc := if special then w.sc else w.cur_cls :: w.sc
    let fresh : Bool := !special && decide (w.area_ptr = 0)
    let area_ptr := if fresh then clsarithm.cls2ptr par w.cur_cls else w.area_ptr
    let area_start := if fresh then w.cur_cls else w.area_start
    let area_siz := if special then w.area_siz else wadd w.area_siz par.clus_size
    let close : Bool :=
      (decide (w.prv_cls ≠ 0) && decide (w.prv_cls ≠ wsub w.cur_cls 1)) || special
    let area_siz1 := if close && !special then wsub area_siz par.clus_size else area_siz
    let res := if close then
        w.res ++ [{ offset := w.area_off, pointer := area_ptr, size := area_siz1,
                    start := area_start, stop := w.prv_cls }]
      else w.res
    if special then iowalk_t.done res w.st
    else
      let r := dskio.read par fe w.st w.cur_cls
      iowalk_t.next
        { st := match lbd with
            | none => r.2
            | some f => f r.2 w.cur_cls r.1
          sc := sc
          res := res
          area_off := if close then wadd w.area_off area_siz1 else w.area_off
          area_ptr := if close then clsarithm.cls2ptr par w.cur_cls else area_ptr
          area_siz := if close then par.clus_size else area_siz1
          area_start := if close then w.cur_cls else area_start
          cur_cls := r.1
          prv_cls := w.cur_cls }

/-- The loop of `dskmap::getareas` on the device, at most `fuel` passes. -/
def dskio.getareas_loop (par : fatxpar) (fe : frontend)
    (lbd : Option (dskio → Nat → Nat → dskio)) : Nat → iowalk → vareas × dskio
  | 0, w => (w.res, w.st)
  | fuel + 1, w =>
    match dskio.getareas_step par fe lbd w with
    | iowalk_t.done res st => (res, st)
    | iowalk_t.next w1 => dskio.getareas_loop par fe lbd fuel w1

/-- `dskmap::getareas(orig, lbd)`, the FAT being read from the device;
`clus_fat + 2` passes are enough, as for the walk on the cells. -/
def dskio.getareas (par : fatxpar) (fe : frontend) (st : dskio) (orig : Nat)
    (lbd : Option (dskio → Nat → Nat → dskio)) : vareas × dskio :=
  if orig = EOC ∨ orig = FLK then ([], st)
  else dskio.getareas_loop par fe lbd (par.clus_fat + 2)
    { st := st, sc := [], res := [], area_off := 0, area_ptr := 0, area_siz := 0,
      area_start := 0, cur_cls := orig, prv_cls := 0 }

/-- The visitor of `dskmap::free`, on the device: `{ (void)v; write(c, FLK); }`. -/
def dskio.free_lbd (par : fatxpar) (fe : frontend) : dskio → Nat → Nat → dskio :=
  fun st c _ => (dskio.write par fe st c FLK).2

/-- `dskmap::free(o)` on the device: the walk that writes FREE to the cell of
every cluster it visits.  The loop that follows it in the source, outside fsck
mode, only enters the areas walked in the gap index (`dskmap.free`) and touches
neither the device nor the cache. -/
def dskio.free (par : fatxpar) (fe : frontend) (st : dskio) (o : Nat) : dskio :=
  if o = FLK ∨ o = EOC then st
  else (dskio.getareas par fe st o (some (dskio.free_lbd par fe))).2

/-! ### The area being built by `getareas` -/

/-- The local variables of `dskmap::getareas` that hold the areas found and the
area being built. -/
structure abuild where
  res : vareas
  area_off : Nat
  area_ptr : Nat
  area_siz : Nat
  area_start : Nat
  prv_cls : Nat

/-- The variables before the first pass of the loop. -/
def abuild.init : abuild :=
  { res := [], area_off := 0, area_ptr := 0, area_siz := 0, area_start := 0, prv_cls := 0 }

/-- What a pass of the loop of `getareas` on a cluster `cur` that is neither END
nor FREE does to the areas: the statements of `dskmap.getareas_step` without
the reading of the cell. -/
def abuild.pass (par : fatxpar) (a : abuild) (cur : Nat) : abuild :=
  let area_ptr := if a.area_ptr = 0 then clsarithm.cls2ptr par cur else a.area_ptr
  let area_start := if a.area_ptr = 0 then cur else a.area_start
  let area_siz := wadd a.area_siz par.clus_size
  if a.prv_cls ≠ 0 ∧ a.prv_cls ≠ wsub cur 1 then
    { res := a.res ++ [{ offset := a.area_off, pointer := area_ptr,
                         size := wsub area_siz par.clus_size,
                         start := area_start, stop := a.prv_cls }]
      area_off := wadd a.area_off (wsub area_siz par.clus_size)
      area_ptr := clsarithm.cls2ptr par cur
      area_siz := par.clus_size
      area_start := cur
      prv_cls := cur }
  else
    { res := a.res, area_off := a.area_off, area_ptr := area_ptr, area_siz := area_siz,
      area_start := area_start, prv_cls := cur }

/-- The areas returned when the loop meets END or FREE: the area being built is
the last one. -/
def abuild.close (a : abuild) : vareas :=
  a.res ++ [{ offset := a.area_off, pointer := a.area_ptr, size := a.area_siz,
              start := a.area_start, stop := a.prv_cls }]

/-- The area variables of a walk on the cells. -/
def walk.build (w : walk) : abuild :=
  { res := w.res, area_off := w.area_off, area_ptr := w.area_ptr, area_siz := w.area_siz,
    area_start := w.area_start, prv_cls := w.prv_cls }

/-- The area variables of a walk on a `memmap`. -/
def mwalk.build (w : mwalk) : abuild :=
  { res := w.res, area_off := w.area_off, area_ptr := w.area_ptr, area_siz := w.area_siz,
    area_start := w.area_start, prv_cls := w.prv_cls }

/-- The areas of the vector, from the file offset `o` on, follow one another:
the file offset of each is the sum of the sizes of those before it. -/
def vareas.offsets_from : vareas → Nat → Prop
  | [], _ => True
  | a :: t, o => a.offset = o ∧ vareas.offsets_from t (o + a.size)

/-- An area is well formed: `stop >= start`, the size is that of its clusters,
and the pointer is that of its first cluster. -/
def area.wf (par : fatxpar) (a : area) : Prop :=
  a.start ≤ a.stop ∧ a.size = (a.stop - a.start + 1) * par.clus_size ∧
    a.pointer = clsarithm.cls2ptr par a.start

/-- The clusters in `sc` when the loop of `getareas` ends, in the order of their
visit; `none` when the loop has not ended after `fuel` passes. -/
def dskmap.getareas_visits (par : fatxpar) (fe : frontend)
    (lbd : Option (dskmap → Nat → Nat → dskmap)) : Nat → walk → Option (List Nat)
  | 0, _ => none
  | fuel + 1, w =>
    match dskmap.getareas_step par fe lbd w with
    | walk_t.done _ _ => some w.sc.reverse
    | walk_t.next w1 => dskmap.getareas_visits par fe lbd fuel w1

/-! ### Guessing the clusters of a deleted entry (`entry::guess`) -/

/-- `date::seq`. -/
def date.seq (d : date) : Nat :=
  ((usub32 d.year 1980 &&& 0xFFFF) <<< 48) ||| ((d.month % 2 ^ 32 &&& 0xFF) <<< 40) |||
    ((d.day % 2 ^ 32 &&& 0xFF) <<< 32) ||| ((d.hour % 2 ^ 32 &&& 0xFF) <<< 16) |||
    ((d.min % 2 ^ 32 &&& 0xFF) <<< 8) ||| (d.sec % 2 ^ 32 &&& 0xFF)

/-- `clsarithm::siz2cls`. -/
def clsarithm.siz2cls (par : fatxpar) (s : Nat) : Nat :=
  wadd (s >>> par.clus_pow)
    (if wsub s (((s >>> par.clus_pow) <<< par.clus_pow) % W64) ≠ 0 then 1 else 0)

/-- The variables of the loop of `entry::guess`: the overlay, the last cluster
taken `p`, the first cluster skipped `s`, the set `old`, the cluster looked at
`q` and the number `nb` of clusters still to find. -/
structure guess_t where
  m : memmap
  p : Nat
  s : Nat
  old : List Nat
  q : Nat
  nb : Nat

/-- Outcome of the body of the loop of `entry::guess`: the loop goes on with
`q = inccls(q)`, or the function returns with the status `delnodata`, or a null
pointer is dereferenced. -/
inductive guess_r where
  | next (g : guess_t)
  | giveup (m : memmap)
  | undef

/-- The statements of the loop of `entry::guess` from the comment "q is free"
on: the cluster `q` is linked after `p` and labelled as deleted data of the
entry. -/
def entry.guess_take (me : Nat) (g : guess_t) (old : List Nat) : guess_r :=
  guess_r.next
    { m := memmap.change g.m g.p me g.q dskmap.status_t.deleted, p := g.q, s := 0, old := old,
      q := g.q, nb := wsub g.nb 1 }

/-- The statements "cluster is occuped, skip it". -/
def entry.guess_skip (g : guess_t) : guess_r :=
  guess_r.next { g with s := if g.s = 0 then g.q else g.s }

/-- The body of the loop of `entry::guess` for the entry `e`, which the pointer
`me` stands for; `ents` gives the entry behind a pointer of the overlay.  The
call `read` is the one of `memmap`. -/
def entry.guess_pass (par : fatxpar) (fe : frontend) (ents : Nat → Option entry) (me : Nat)
    (e : entry) (g : guess_t) : guess_r :=
  if memmap.read par fe g.m g.q ≠ FLK then
    if g.q = e.cluster then guess_r.giveup g.m
    else if memmap.getentry g.m g.q ≠ me then
      let older : Option Bool :=
        if memmap.status g.m g.q = dskmap.status_t.deleted then
          match ents (memmap.getentry g.m g.q) with
          | none => none
          | some o => some (!o.flags.dir && fe.deldate && decide (o.update.seq < e.update.seq))
        else some false
      match older with
      | none => guess_r.undef
      | some true =>
        entry.guess_take me g
          (if memmap.getentry g.m g.q ∈ g.old then g.old
           else g.old ++ [memmap.getentry g.m g.q])
      | some false =>
        if memmap.getentry g.m g.q = 0 then
          match g.m.lost.findIdx? (fun i => i.first == g.q) with
          | none => entry.guess_skip g
          | some k =>
            if vareas.nbcls (g.m.lost.getD k []) ≤ g.nb then
              let m1 : memmap := { g.m with lost := g.m.lost.eraseIdx k }
              let m2 := memmap.change m1 g.p me g.q dskmap.status_t.deleted
              let r := memmap.getareas par fe m2 g.q
                (some (fun m c v => memmap.change m c me v dskmap.status_t.deleted))
              guess_r.next
                { m := r.2, p := r.1.last, s := g.s, old := g.old, q := r.1.last,
                  nb := wsub g.nb r.1.nbcls }
            else entry.guess_skip g
        else entry.guess_skip g
    else entry.guess_take me g g.old
  else entry.guess_take me g g.old

/-- The loop of `entry::guess` and the statement that follows it, at most `fuel`
passes: the overlay and the set `old` at the end, with the status of the entry.
The result is `none` when the loop has not ended after `fuel` passes or a null
pointer is dereferenced. -/
def entry.guess_loop (par : fatxpar) (fe : frontend) (ents : Nat → Option entry) (me : Nat)
    (e : entry) : Nat → guess_t → Option (memmap × status_t × List Nat)
  | 0, _ => none
  | fuel + 1, g =>
    if g.nb > 0 then
      match entry.guess_pass par fe ents me e g with
      | guess_r.next g1 =>
        entry.guess_loop par fe ents me e fuel { g1 with q := clsarithm.inccls par g1.q }
      | guess_r.giveup m => some (m, status_t.delnodata, [])
      | guess_r.undef => none
    else some (memmap.change g.m g.p me EOC dskmap.status_t.deleted, e.status, g.old)

/-- `entry::guess` up to its last loop: the overlay, the status of the entry and
the entries of `old`, on each of which the source then calls `guess`. -/
def entry.guess (par : fatxpar) (fe : frontend) (ents : Nat → Option entry) (me : Nat)
    (e : entry) (fuel : Nat) (m : memmap) : Option (memmap × status_t × List Nat) :=
  entry.guess_loop par fe ents me e fuel
    { m := m, p := e.cluster, s := 0, old := [], q := e.cluster,
      nb := if e.flags.dir then 1 else clsarithm.siz2cls par e.size }

/-! ### Notions used to state the properties of the areas -/

/-- Geometry under which the pointers and the sizes of the areas do not wrap:
cluster numbers start at 1 and fit a FAT cell, the data do not start at the
offset 0, and the data of the clusters end below `2 ^ 64`. -/
structure fatxpar.areas_ok (par : fatxpar) : Prop where
  root_pos : 1 ≤ par.root_clus
  fat_le : par.clus_fat ≤ EOC
  start_pos : 1 ≤ par.root_start
  no_wrap : par.root_start + par.clus_fat * par.clus_size < 2 ^ 64

/-- The sum of the sizes of the areas of a vector. -/
def vareas.bytes (v : vareas) : Nat := (v.map (fun a => a.size)).sum

/-- The area variables `a` after the passes on the clusters `V`: the areas
found are well formed, lie below `clus_fat` and follow one another, the area
being built runs from `area_start` to `prv_cls`, and the areas found with the
area being built hold the clusters `V` in their order. -/
structure abuild.ok (par : fatxpar) (V : List Nat) (a : abuild) : Prop where
  wf : ∀ x ∈ a.res, area.wf par x ∧ x.stop ≤ par.clus_fat
  offs : vareas.offsets_from a.res 0
  off : a.area_off = vareas.bytes a.res
  ptr : a.area_ptr = clsarithm.cls2ptr par a.area_start
  ptr_ne : a.area_ptr ≠ 0
  prv_ne : a.prv_cls ≠ 0
  le : a.area_start ≤ a.prv_cls
  prv_le : a.prv_cls ≤ par.clus_fat
  siz : a.area_siz = (a.prv_cls - a.area_start + 1) * par.clus_size
  total : a.area_off + a.area_siz = V.length * par.clus_size
  clus : vareas.clusters a.res ++ List.range' a.area_start (a.prv_cls - a.area_start + 1) = V

/-! ### The FAT overlay on the device (`class memmap` over the device-level FAT)

The overlay of `memmap` with the cells read from the device through the cache:
`memmap::read` falls back on `dskmap::read`, which is `dskio.read`. -/

/-- State of `class memmap`, the base class being the FAT on the device. -/
structure memio where
  st : dskio
  memchain : List (Nat × memmap.link)
  lost : List vareas

/-- `memmap::read` on the device: the link of the overlay when there is one,
else `dskmap::read`, or FREE when lost chains are not kept. -/
def memio.read (par : fatxpar) (fe : frontend) (m : memio) (p : Nat) : Nat × memio :=
  match m.memchain.lookup p with
  | some l => (l.next, m)
  | none =>
    if fe.dellost then
      let r := dskio.read par fe m.st p
      (r.1, { m with st := r.2 })
    else (FLK, m)

/-- `memmap::change(p, e, n, s)`. -/
def memio.change (m : memio) (p e n : Nat) (s : dskmap.status_t) : memio :=
  match m.memchain.lookup p with
  | some _ =>
    { m with
      memchain := m.memchain.map (fun x =>
        if x.1 = p then (x.1, { next := if n ≠ FLK then n else x.2.next, ent := e, status := s })
        else x) }
  | none => { m with memchain := memmap.insert m.memchain p { next := n, ent := e, status := s } }

/-- `memmap::status`. -/
def memio.status (m : memio) (p : Nat) : dskmap.status_t :=
  match m.memchain.lookup p with
  | none => dskmap.status_t.disk
  | some l => l.status

/-- `memmap::getentry`, null being `0`. -/
def memio.getentry (m : memio) (p : Nat) : Nat :=
  match m.memchain.lookup p with
  | none => 0
  | some l => l.ent

/-- Local variables of the loop of `dskmap::getareas` when the object is a
`memmap` on the device. -/
structure miowalk where
  m : memio
  sc : List Nat
  res : vareas
  area_off : Nat
  area_ptr : Nat
  area_siz : Nat
  area_start : Nat
  cur_cls : Nat
  prv_cls : Nat

/-- Outcome of one pass through the loop of `dskmap::getareas` on a `memmap` on
the device. -/
inductive miowalk_t where
  | next (w : miowalk)
  | done (res : vareas) (m : memio)

/-- One pass through the `while(true)` loop of `dskmap::getareas` when the
object is a `memmap` on the device: the call `read(prv_cls = cur_cls)` is
virtual and runs `memmap::read`, the call `write(prv_cls, EOC)` runs
`dskmap::write`.  `lbd` is the visitor (`none` for the empty function). -/
def memio.getareas_step (par : fatxpar) (fe : frontend)
    (lbd : Option (memio → Nat → Nat → memio)) (w : miowalk) : miowalk_t :=
  let special : Bool := decide (w.cur_cls = EOC) || decide (w.cur_cls = FLK)
  if !special && decide (w.cur_cls ∈ w.sc) then
    miowalk_t.done w.res
      (if fe.prog = call_t.fsck ∧ fe.answer = true then
        { w.m with st := (dskio.write par fe w.m.st w.prv_cls EOC).2 }
       else w.m)
  else
    let sc := if special then w.sc else w.cur_cls :: w.sc
    let fresh : Bool := !special && decide (w.area_ptr = 0)
    let area_ptr := if fresh then clsarithm.cls2ptr par w.cur_cls else w.area_ptr
    let area_start := if fresh then w.cur_cls else w.area_start
    let area_siz := if special then w.area_siz else wadd w.area_siz par.clus_size
    let close : Bool :=
      (decide (w.prv_cls ≠ 0) && decide (w.prv_cls ≠ wsub w.cur_cls 1)) || special
    let area_siz1 := if close && !special then wsub area_siz par.clus_size else area_siz
    let res := if close then
        w.res ++ [{ offset := w.area_off, pointer := area_ptr, size := area_siz1,
                    start := area_start, stop := w.prv_cls }]
      else w.res
    if special then miowalk_t.done res w.m
    else
      let r := memio.read par fe w.m w.cur_cls
      miowalk_t.next
        { m := match lbd with
            | none => r.2
            | some f => f r.2 w.cur_cls r.1
          sc := sc
          res := res
          area_off := if close then wadd w.area_off area_siz1 else w.area_off
          area_ptr := if close then clsarithm.cls2ptr par w.cur_cls else area_ptr
          area_siz := if close then par.clus_size else area_siz1
          area_start := if close then w.cur_cls else area_start
          cur_cls := r.1
          prv_cls := w.cur_cls }

/-- The loop of `dskmap::getareas` on a `memmap` on the device, at most `fuel`
passes. -/
def memio.getareas_loop (par : fatxpar) (fe : frontend)
    (lbd : Option (memio → Nat → Nat → memio)) : Nat → miowalk → vareas × memio
  | 0, w => (w.res, w.m)
  | fuel + 1, w =>
    match memio.getareas_step par fe lbd w with
    | miowalk_t.done res m => (res, m)
    | miowalk_t.next w1 => memio.getareas_loop par fe lbd fuel w1

/-- `dskmap::getareas(orig, lbd)` on a `memmap` on the device; `clus_fat + 2`
passes are enough for the walks of `markchain`, whose links in the overlay are
FREE. -/
def memio.getareas (par : fatxpar) (fe : frontend) (m : memio) (orig : Nat)
    (lbd : Option (memio → Nat → Nat → memio)) : vareas × memio :=
  if orig = EOC ∨ orig = FLK then ([], m)
  else memio.getareas_loop par fe lbd (par.clus_fat + 2)
    { m := m, sc := [], res := [], area_off := 0, area_ptr := 0, area_siz := 0,
      area_start := 0, cur_cls := orig, prv_cls := 0 }

/-- The visitor of `memmap::markchain`: `{ (void)v; change(c, e); }`, that is
the link FREE and the status `marked`. -/
def memio.mark_lbd (e : Nat) (m : memio) (c : Nat) (_ : Nat) : memio :=
  memio.change m c e FLK dskmap.status_t.marked

/-- `memmap::markchain(p, e)` on the device: `dellost` is saved, set for the
time of the walk, and set back; the areas, the overlay and the value of
`dellost` after the call. -/
def memio.markchain (par : fatxpar) (fe : frontend) (m : memio) (p e : Nat) :
    vareas × memio × Bool :=
  let dl := fe.dellost
  let fe1 : frontend := { fe with dellost := true }
  let r := memio.getareas par fe1 m p (some (memio.mark_lbd e))
  (r.1, r.2, dl)

/-! ### Examples on the device -/

/-- A device of 14848 bytes whose FAT at 0x1000 holds the given 2-byte cells,
most significant byte first, and whose other bytes are zero. -/
def fatDev (cells : List Nat) : device :=
  { tot_size := 0x3A00,
    data := fun q =>
      if 0x1000 ≤ q ∧ q < 0x1000 + 2 * cells.length then
        (if (q - 0x1000) % 2 = 0 then cells.getD ((q - 0x1000) / 2) 0 / 256 % 256
         else cells.getD ((q - 0x1000) / 2) 0 % 256)
      else 0,
    changes := false }

/-- The cells of the clusters 0..12 with END stored as 0xFFFF: the chain
5 → 6, the cell of cluster 6 holding 0x7000, the chain 7 → 8 → END, the
one-cluster chains 1 and 12. -/
def cellsBad : List Nat := [0, 0xFFFF, 0, 0, 0, 6, 0x7000, 8, 0xFFFF, 0, 0, 0, 0xFFFF]

/-- The cells of the clusters 0..12 with END stored as 0xFFFF: the chain
12 → 5 → END and the one-cluster chain 1. -/
def cellsLast : List Nat := [0, 0xFFFF, 0, 0, 0, 0xFFFF, 0, 0, 0, 0, 0, 0, 5]

/-- The chain 5 → 7 → 5. -/
def cellsCycleGap : List Nat := [0, EOC, 0, 0, 0, 7, 0, 5]

/-- The root directory on cluster 1, a valid file on the chain 7 → 8, and
every other cluster free. -/
def cellsLive : List Nat := [0, EOC, 0, 0, 0, 0, 0, 8, EOC]

/-- A fresh overlay on the FAT `cellsLive`. -/
def exMemLive : memmap := { d := exState cellsLive, memchain := [], lost := [] }

/-- The valid entries of `cellsLive`: the root directory (pointer 100) and the
file on cluster 7 (pointer 101). -/
def exHeadsLive : List (Nat × Nat) := [(1, 100), (7, 101)]

/-- A deleted file of 1024 bytes, two clusters, whose first cluster was 6. -/
def exDeleted : entry :=
  { exFile with status := status_t.delwdata, name := 68 :: List.replicate name_size 0,
                cluster := 6, size := 1024 }

/-- A deleted file of 1536 bytes, three clusters, whose first cluster was 11. -/
def exDeletedEnd : entry :=
  { exFile with status := status_t.delwdata, name := 69 :: List.replicate name_size 0,
                cluster := 11, size := 1536 }

/-- The entries behind the pointers 100, 101, 200 and 201. -/
def exEnts (p : Nat) : Option entry :=
  if p = 100 then some exRoot
  else if p = 101 then some { exFileAB with cluster := 7, size := 1024 }
  else if p = 200 then some exDeleted
  else if p = 201 then some exDeletedEnd
  else none

/-- The cells of the clusters 0..12 with END stored as 0xFFFF: the clusters 11
and 12 point at each other, the chain from 11 is 11 → 12 → 11. -/
def cellsCycleLast : List Nat := [0, 0xFFFF, 0, 0, 0, 0, 0, 0, 0, 0, 0, 12, 11]

/-- The cells of the clusters 0..12 with END stored as 0xFFFF: the clusters 5
and 7 point at each other, the chain from 5 is 5 → 7 → 5, and the cell of
cluster 6, which is on no chain, holds 0x7000. -/
def cellsCycleBad : List Nat := [0, 0xFFFF, 0, 0, 0, 7, 0x7000, 5, 0, 0, 0, 0, 0]

/-- The cells of the clusters 0..12 with END stored as 0xFFFF: the cycle
5 → 6 → 5. -/
def cellsCycleDev : List Nat := [0, 0xFFFF, 0, 0, 0, 6, 5, 0, 0, 0, 0, 0, 0]

/-- A fresh overlay on the device-level FAT of the given cells. -/
def exMemDev (cells : List Nat) : memio :=
  { st := dskio.init exPar (fatDev cells), memchain := [], lost := [] }
/-! ## Theorems -/

/-! ### Walking and freeing a chain -/

/-- A chain only depends on the cells of its own clusters. -/
theorem chain_congr {fat fat1 : Nat → Nat} : ∀ (cs : List Nat) (o : Nat),
    (∀ x ∈ cs, fat x = fat1 x) → chain fat o cs → chain fat1 o cs
  | [], _, _, h => h
  | c :: cs, o, hx, h => by
    obtain ⟨h1, h2, h3, h4⟩ := h
    refine ⟨h1, h2, h3, ?_⟩
    rw [← hx c (List.mem_cons_self _ _)]
    exact chain_congr cs _ (fun x hxm => hx x (List.mem_cons_of_mem _ hxm)) h4

/-- Writing FREE into the cell of a cluster of `[1, clus_fat]` is accepted and
changes that cell alone. -/
theorem write_free_fat (par : fatxpar) (d : dskmap) (c : Nat)
    (h1 : 1 ≤ c) (h2 : c ≤ par.clus_fat) (h3 : c ≠ EOC) :
    (dskmap.write par d c FLK).2 = { d with fat := fun x => if x = c then FLK else d.fat x } := by
  have h0 : c ≠ FLK := by unfold FLK; omega
  unfold dskmap.write
  rw [if_neg (by simp [h0, h3]), if_neg (by omega), if_neg (by simp)]

/-- Reading the cell of a cluster of `[1, clus_fat]` returns that cell. -/
theorem read_in_range (par : fatxpar) (d : dskmap) (c : Nat)
    (h1 : 1 ≤ c) (h2 : c ≤ par.clus_fat) (h3 : c ≠ EOC) :
    dskmap.read par d c = d.fat c := by
  have h0 : c ≠ FLK := by unfold FLK; omega
  unfold dskmap.read
  rw [if_neg (by simp [h0, h3]), if_neg (by omega)]

/-- A pass of the loop of `getareas` on a cluster that is neither END nor FREE
and not yet visited reads its cell, calls the visitor and goes on from the
value read. -/
theorem getareas_step_next (par : fatxpar) (fe : frontend)
    (lbd : Option (dskmap → Nat → Nat → dskmap)) (w : walk)
    (h1 : w.cur_cls ≠ EOC) (h2 : w.cur_cls ≠ FLK) (h3 : w.cur_cls ∉ w.sc) :
    ∃ w1, dskmap.getareas_step par fe lbd w = walk_t.next w1 ∧
      w1.d = (match lbd with
        | none => w.d
        | some f => f w.d w.cur_cls (dskmap.read par w.d w.cur_cls)) ∧
      w1.sc = w.cur_cls :: w.sc ∧ w1.cur_cls = dskmap.read par w.d w.cur_cls ∧
      w1.prv_cls = w.cur_cls := by
  have hs : (decide (w.cur_cls = EOC) || decide (w.cur_cls = FLK)) = false := by
    simp [h1, h2]
  unfold dskmap.getareas_step
  simp only [hs, h3, decide_False, Bool.and_false, Bool.false_eq_true, if_false]
  exact ⟨_, rfl, rfl, rfl, rfl, rfl⟩

/-- A pass of the loop of `getareas` on END or FREE ends the walk and leaves
the state as it is. -/
theorem getareas_step_special (par : fatxpar) (fe : frontend)
    (lbd : Option (dskmap → Nat → Nat → dskmap)) (w : walk)
    (h : w.cur_cls = EOC ∨ w.cur_cls = FLK) :
    ∃ res, dskmap.getareas_step par fe lbd w = walk_t.done res w.d := by
  have hs : (decide (w.cur_cls = EOC) || decide (w.cur_cls = FLK)) = true := by
    rcases h with h | h <;> simp [h]
  unfold dskmap.getareas_step
  simp only [hs, Bool.not_true, Bool.false_and, Bool.false_eq_true, if_false, if_true]
  exact ⟨_, rfl⟩

/-- The walk of `free` along a chain `cs`: with enough passes allowed, the
cells of `cs` end FREE, no other cell changes, the gap index is not touched. -/
theorem getareas_loop_free (par : fatxpar) (fe : frontend) :
    ∀ (cs : List Nat) (fuel : Nat) (w : walk),
      chain w.d.fat w.cur_cls cs → cs.Nodup → (∀ c ∈ cs, c ∉ w.sc) →
      (∀ c ∈ cs, 1 ≤ c ∧ c ≤ par.clus_fat) → cs.length + 1 ≤ fuel →
      (∀ c ∈ cs, (dskmap.getareas_loop par fe (some (dskmap.free_lbd par)) fuel w).2.fat c = FLK) ∧
      (∀ c, c ∉ cs →
        (dskmap.getareas_loop par fe (some (dskmap.free_lbd par)) fuel w).2.fat c = w.d.fat c) ∧
      (dskmap.getareas_loop par fe (some (dskmap.free_lbd par)) fuel w).2.freegaps = w.d.freegaps := by
  intro cs
  induction cs with
  | nil =>
    intro fuel w hc _ _ _ hf
    obtain ⟨f, rfl⟩ : ∃ f, fuel = f + 1 := ⟨fuel - 1, by simp at hf; omega⟩
    obtain ⟨res, hres⟩ := getareas_step_special par fe (some (dskmap.free_lbd par)) w hc
    simp [dskmap.getareas_loop, hres]
  | cons c cs ih =>
    intro fuel w hc hnd hsc hr hf
    obtain ⟨f, rfl⟩ : ∃ f, fuel = f + 1 := ⟨fuel - 1, by simp at hf; omega⟩
    obtain ⟨hcur, hE, hF, hrest⟩ := hc
    have hnot : w.cur_cls ∉ w.sc := hcur ▸ hsc c (List.mem_cons_self _ _)
    have hrc := hr c (List.mem_cons_self _ _)
    have hcE : c ≠ EOC := hcur ▸ hE
    rw [List.nodup_cons] at hnd
    obtain ⟨w1, hw1, hd1, hsc1, hcur1, _⟩ :=
      getareas_step_next par fe (some (dskmap.free_lbd par)) w hE hF hnot
    have hd1f : w1.d = { w.d with fat := fun x => if x = c then FLK else w.d.fat x } := by
      rw [hd1, ← hcur]
      exact write_free_fat par w.d c hrc.1 hrc.2 hcE
    have hcur1f : w1.cur_cls = w.d.fat c := by
      rw [hcur1, ← hcur]
      exact read_in_range par w.d c hrc.1 hrc.2 hcE
    have hfat1 : ∀ x, x ≠ c → w1.d.fat x = w.d.fat x := by
      intro x hx
      rw [hd1f]
      simp [hx]
    have hchain : chain w1.d.fat w1.cur_cls cs := by
      rw [hcur1f]
      refine chain_congr cs _ (fun x hx => ?_) hrest
      exact (hfat1 x (fun h => hnd.1 (h ▸ hx))).symm
    have hsc1f : ∀ x ∈ cs, x ∉ w1.sc := by
      intro x hx
      rw [hsc1, List.mem_cons, not_or, ← hcur]
      exact ⟨fun h => hnd.1 (h ▸ hx), hsc x (List.mem_cons_of_mem _ hx)⟩
    have hloop : dskmap.getareas_loop par fe (some (dskmap.free_lbd par)) (f + 1) w =
        dskmap.getareas_loop par fe (some (dskmap.free_lbd par)) f w1 := by
      simp [dskmap.getareas_loop, hw1]
    obtain ⟨i1, i2, i3⟩ := ih f w1 hchain hnd.2 hsc1f
      (fun x hx => hr x (List.mem_cons_of_mem _ hx)) (by simp at hf; omega)
    rw [hloop]
    refine ⟨?_, ?_, ?_⟩
    · intro x hx
      rcases List.mem_cons.1 hx with h | h
      · subst h
        rw [i2 x hnd.1, hd1f]
        simp
      · exact i1 x h
    · intro x hx
      rw [List.mem_cons, not_or] at hx
      rw [i2 x hx.2]
      exact hfat1 x hx.1
    · rw [i3, hd1f]

/-- A list of distinct clusters of `[1, n]` has at most `n` members. -/
theorem nodup_range_length (cs : List Nat) (n : Nat) (hnd : cs.Nodup)
    (hr : ∀ c ∈ cs, 1 ≤ c ∧ c ≤ n) : cs.length ≤ n := by
  have hsub : cs.toFinset ⊆ Finset.Icc 1 n := by
    intro x hx
    rw [List.mem_toFinset] at hx
    exact Finset.mem_Icc.2 (hr x hx)
  have hcard := Finset.card_le_card hsub
  rw [List.toFinset_card_of_nodup hnd, Nat.card_Icc] at hcard
  omega

/-- The effect of `free(o)` on the FAT cells, for a chain inside `[1, clus_fat]`. -/
theorem free_chain_cells (par : fatxpar) (fe : frontend) (d : dskmap) (o : Nat) (cs : List Nat)
    (hc : chain d.fat o cs) (hnd : cs.Nodup) (hr : ∀ c ∈ cs, 1 ≤ c ∧ c ≤ par.clus_fat) :
    (∀ c ∈ cs, (dskmap.free par fe d o).fat c = FLK) ∧
    (∀ c, c ∉ cs → (dskmap.free par fe d o).fat c = d.fat c) := by
  refine ⟨?_, ?_⟩
  all_goals
    by_cases ho : o = FLK ∨ o = EOC
    · have hnil : cs = [] := by
        cases cs with
        | nil => rfl
        | cons c cs =>
          obtain ⟨_, h2, h3, _⟩ := hc
          rcases ho with h | h
          · exact absurd h h3
          · exact absurd h h2
      subst hnil
      simp [dskmap.free, ho]
    · have hlen := nodup_range_length cs par.clus_fat hnd hr
      have hloop := getareas_loop_free par fe cs (par.clus_fat + 2)
        { d := d, sc := [], res := [], area_off := 0, area_ptr := 0, area_siz := 0,
          area_start := 0, cur_cls := o, prv_cls := 0 }
        hc hnd (fun c _ => List.not_mem_nil c) hr (by omega)
      have ho1 : ¬ (o = EOC ∨ o = FLK) := fun h => ho h.symm
      unfold dskmap.free dskmap.getareas
      rw [if_neg ho, if_neg ho1]
      by_cases hf : fe.prog = call_t.fsck
      · simp only [hf, if_true]
        first
          | exact hloop.1
          | exact hloop.2.1
      · simp only [hf, if_false]
        first
          | exact hloop.1
          | exact hloop.2.1

/-- When every gap is smaller than `s`, none of the three single-gap tries of
`alloc` applies. -/
theorem alloc_pick_none (g : gap_t) (s o : Nat) (h : ∀ x ∈ g, x.2 < s) :
    dskmap.alloc_pick g s o = (0, 0) := by
  have hmax : ∀ (f : Nat × Nat → Bool) (l : gap_t) (e : Nat × Nat),
      gap_t.maxLeft f l = some e → e ∈ l := by
    intro f l
    induction l with
    | nil => intro e he; simp [gap_t.maxLeft] at he
    | cons x xs ih =>
      intro e he
      unfold gap_t.maxLeft at he
      cases hm : gap_t.maxLeft f xs with
      | none =>
        rw [hm] at he
        by_cases hfx : f x = true
        · simp [hfx] at he
          exact he ▸ List.mem_cons_self _ _
        · simp [hfx] at he
      | some y =>
        rw [hm] at he
        simp only at he
        by_cases hc : (f x && decide (y.1 < x.1)) = true
        · rw [if_pos hc] at he
          cases he
          exact List.mem_cons_self _ _
        · rw [if_neg hc] at he
          cases he
          exact List.mem_cons_of_mem _ (ih _ hm)
  have h1 : (if o ≠ 0 then
      match gap_t.left_find g o with
      | some prev => if prev.2 ≥ s then prev else (0, 0)
      | none => (0, 0)
    else ((0, 0) : Nat × Nat)) = (0, 0) := by
    by_cases ho : o ≠ 0
    · rw [if_pos ho]
      cases hf : gap_t.left_find g o with
      | none => rfl
      | some prev =>
        have hmem : prev ∈ g := List.mem_of_find?_eq_some hf
        have := h prev hmem
        simp only
        rw [if_neg (by omega)]
    · rw [if_neg ho]
  unfold dskmap.alloc_pick
  simp only [h1, if_true]
  have h2 : (match gap_t.left_rbegin g with
      | some e => if e.2 ≥ s then e else ((0, 0) : Nat × Nat)
      | none => (0, 0)) = (0, 0) := by
    cases hf : gap_t.left_rbegin g with
    | none => rfl
    | some e =>
      have := h e (hmax _ g e hf)
      simp only
      rw [if_neg (by omega)]
  rw [h2]
  simp only [if_true]
  cases hf : gap_t.right_lower_bound g s with
  | none => rfl
  | some fit =>
    have := h fit (List.mem_of_find?_eq_some hf)
    simp only
    rw [if_neg (by omega)]

/-- The 64-bit sum of the gap sizes does not exceed their sum. -/
theorem gap_sum_le (g : gap_t) : ∀ acc : Nat,
    g.foldl (fun acc i => wadd acc i.2) acc ≤ acc + (g.map Prod.snd).sum := by
  induction g with
  | nil => intro acc; simp
  | cons x xs ih =>
    intro acc
    simp only [List.foldl_cons, List.map_cons, List.sum_cons]
    have h1 := ih (wadd acc x.2)
    have h2 : wadd acc x.2 ≤ acc + x.2 := Nat.mod_le _ _
    omega

/-- No space: when the gap sizes sum to less than `s`, `alloc(s, o)` returns the
empty vector and leaves the FAT and the gap index as they are. -/
theorem alloc_no_space (par : fatxpar) (d : dskmap) (s o : Nat)
    (h : (d.freegaps.map Prod.snd).sum < s) :
    dskmap.alloc par d s o = some ([], d) := by
  have hmem : ∀ x ∈ d.freegaps, x.2 < s := by
    intro x hx
    have := List.single_le_sum (by simp) x.2 (List.mem_map_of_mem Prod.snd hx)
    omega
  unfold dskmap.alloc
  by_cases hs : s = 0
  · rw [if_pos hs]
  · rw [if_neg hs]
    by_cases hg : d.freegaps = []
    · rw [if_pos hg]
    · rw [if_neg hg]
      simp only [alloc_pick_none d.freegaps s o hmem, ne_eq, not_true_eq_false, if_false]
      have := gap_sum_le d.freegaps 0
      rw [if_neg (by omega)]

/-! ### Scanning the FAT -/

/-- Unfolding `scan` at its last cluster. -/
theorem scan_succ {σ : Type} (fat : Nat → Nat) (lbd : σ → Nat → Nat → σ) (lo n : Nat) (init : σ) :
    scan fat lbd lo (n + 1) init = lbd (scan fat lbd lo n init) (lo + n) (fat (lo + n)) := by
  unfold scan
  rw [List.range'_concat, List.foldl_append]
  simp

/-- Unfolding `scan` at its first cluster. -/
theorem scan_cons {σ : Type} (fat : Nat → Nat) (lbd : σ → Nat → Nat → σ) (lo n : Nat) (init : σ) :
    scan fat lbd lo (n + 1) init = scan fat lbd (lo + 1) n (lbd init lo (fat lo)) := by
  unfold scan
  rw [List.range'_succ]
  simp

/-- A scan of `n + m` clusters is a scan of `n` followed by a scan of `m`. -/
theorem scan_add {σ : Type} (fat : Nat → Nat) (lbd : σ → Nat → Nat → σ) (lo n m : Nat) (init : σ) :
    scan fat lbd lo (n + m) init = scan fat lbd (lo + n) m (scan fat lbd lo n init) := by
  induction m with
  | zero => simp [scan]
  | succ m ih =>
    rw [← Nat.add_assoc, scan_succ, ih, scan_succ, Nat.add_assoc]

/-- The inner loop of `forfat` on block `k`, entered at the cell of cluster `c`,
visits the clusters up to the end of the block or to `clus_fat`, each with its
own cell. -/
theorem forfat_inner_eq {σ : Type} (par : fatxpar) (fat : Nat → Nat) (lbd : σ → Nat → Nat → σ)
    (k : Nat) (hE : par.clus_size >>> par.chain_pow < 65536) :
    ∀ (fuel i c : Nat) (st : σ), c = k * (par.clus_size >>> par.chain_pow) + i →
      i ≤ par.clus_size >>> par.chain_pow → par.clus_fat - c ≤ fuel →
      dskmap.forfat_inner par fat lbd k fuel i c st =
        (c + min (par.clus_size >>> par.chain_pow - i) (par.clus_fat - c),
          scan fat lbd c (min (par.clus_size >>> par.chain_pow - i) (par.clus_fat - c)) st) := by
  intro fuel
  induction fuel with
  | zero =>
    intro i c st _ _ hf
    have h0 : par.clus_fat - c = 0 := by omega
    simp [dskmap.forfat_inner, h0, scan]
  | succ fuel ih =>
    intro i c st hc hi hf
    unfold dskmap.forfat_inner
    by_cases hcond : i < par.clus_size >>> par.chain_pow ∧ c < par.clus_fat
    · rw [if_pos hcond]
      have hmod : (i + 1) % 65536 = i + 1 := Nat.mod_eq_of_lt (by omega)
      rw [hmod, ih (i + 1) (c + 1) _ (by rw [hc]; ring) (by omega) (by omega)]
      have hmin : min (par.clus_size >>> par.chain_pow - i) (par.clus_fat - c) =
          min (par.clus_size >>> par.chain_pow - (i + 1)) (par.clus_fat - (c + 1)) + 1 := by
        omega
      rw [hmin, scan_cons, ← hc]
      congr 1
      omega
    · rw [if_neg hcond]
      have h0 : min (par.clus_size >>> par.chain_pow - i) (par.clus_fat - c) = 0 := by omega
      simp [h0, scan]

/-- State of `forfat` after the first `K` blocks. -/
theorem forfat_blocks {σ : Type} (par : fatxpar) (fat : Nat → Nat) (lbd : σ → Nat → Nat → σ)
    (init : σ) (h : par.scan_ok) :
    ∀ K : Nat, (List.range K).foldl
      (fun (cs : Nat × σ) k =>
        dskmap.forfat_inner par fat lbd k (par.clus_fat - cs.1)
          (if k = 0 then par.root_clus % 65536 else 0) cs.1 cs.2)
      (par.root_clus, init) =
      (if K = 0 then par.root_clus else min par.clus_fat (K * (par.clus_size >>> par.chain_pow)),
        scan fat lbd par.root_clus
          ((if K = 0 then par.root_clus
            else min par.clus_fat (K * (par.clus_size >>> par.chain_pow))) - par.root_clus) init) := by
  intro K
  have h1 := h.root_pos
  have h2 := h.root_le
  have h3 := h.root_block
  have h4 := h.block_u16
  induction K with
  | zero => simp [scan]
  | succ K ih =>
    rw [List.range_succ, List.foldl_append, ih]
    simp only [List.foldl_cons, List.foldl_nil, Nat.succ_ne_zero, if_false]
    by_cases hK : K = 0
    · subst hK
      simp only [if_true, Nat.one_mul]
      have hmod : par.root_clus % 65536 = par.root_clus := Nat.mod_eq_of_lt (by omega)
      rw [hmod, forfat_inner_eq par fat lbd 0 h4 _ _ _ _ (by simp) (by omega) (le_refl _)]
      have e1 : par.root_clus +
          min (par.clus_size >>> par.chain_pow - par.root_clus) (par.clus_fat - par.root_clus) =
          min par.clus_fat (par.clus_size >>> par.chain_pow) := by omega
      have e2 : min (par.clus_size >>> par.chain_pow - par.root_clus)
          (par.clus_fat - par.root_clus) =
          min par.clus_fat (par.clus_size >>> par.chain_pow) - par.root_clus := by omega
      rw [e1, e2]
      simp [scan]
    · simp only [hK, if_false]
      have hmul : (K + 1) * (par.clus_size >>> par.chain_pow) =
          K * (par.clus_size >>> par.chain_pow) + par.clus_size >>> par.chain_pow := by ring
      by_cases hle : par.clus_fat ≤ K * (par.clus_size >>> par.chain_pow)
      · have e0 : min par.clus_fat (K * (par.clus_size >>> par.chain_pow)) = par.clus_fat :=
          Nat.min_eq_left hle
        have e1 : min par.clus_fat ((K + 1) * (par.clus_size >>> par.chain_pow)) =
            par.clus_fat := by
          rw [hmul]; omega
        rw [e0, e1]
        simp [dskmap.forfat_inner]
      · have hKE : par.root_clus ≤ K * (par.clus_size >>> par.chain_pow) := by
          have : 1 ≤ K := by omega
          calc par.root_clus ≤ 1 * (par.clus_size >>> par.chain_pow) := by omega
            _ ≤ K * (par.clus_size >>> par.chain_pow) := Nat.mul_le_mul_right _ this
        have e0 : min par.clus_fat (K * (par.clus_size >>> par.chain_pow)) =
            K * (par.clus_size >>> par.chain_pow) := by omega
        rw [e0, forfat_inner_eq par fat lbd K h4 _ _ _ _ (by simp) (by omega) (le_refl _)]
        have e1 : K * (par.clus_size >>> par.chain_pow) +
            min (par.clus_size >>> par.chain_pow - 0)
              (par.clus_fat - K * (par.clus_size >>> par.chain_pow)) =
            min par.clus_fat ((K + 1) * (par.clus_size >>> par.chain_pow)) := by
          rw [hmul]; omega
        rw [e1]
        congr 1
        have e2 : min par.clus_fat ((K + 1) * (par.clus_size >>> par.chain_pow)) - par.root_clus =
            (K * (par.clus_size >>> par.chain_pow) - par.root_clus) +
              min (par.clus_size >>> par.chain_pow - 0)
                (par.clus_fat - K * (par.clus_size >>> par.chain_pow)) := by
          rw [hmul]; omega
        rw [e2, scan_add]
        congr 1
        omega

/-- On a geometry satisfying `scan_ok`, `forfat` visits the clusters
`root_clus ≤ c < clus_fat` in ascending order, each with its own cell. -/
theorem forfat_eq_scan {σ : Type} (par : fatxpar) (fat : Nat → Nat) (lbd : σ → Nat → Nat → σ)
    (init : σ) (h : par.scan_ok) :
    dskmap.forfat par fat lbd init =
      scan fat lbd par.root_clus (par.clus_fat - par.root_clus) init := by
  unfold dskmap.forfat
  rw [forfat_blocks par fat lbd init h]
  have h1 := h.root_pos
  have h2 := h.root_le
  have h5 := h.fat_cover
  by_cases hK : (par.fat_size + par.clus_size - 1) / par.clus_size = 0
  · rw [hK] at h5
    omega
  · simp only [hK, if_false]
    rw [Nat.min_eq_left h5]

/-- Inserting a gap whose first cluster is new adds that pair to the index. -/
theorem gap_insert_perm (g : gap_t) (b s : Nat) (h : ∀ x ∈ g, x.1 ≠ b) :
    List.Perm (gap_t.insert g b s) ((b, s) :: g) := by
  unfold gap_t.insert
  have hany : g.any (fun x => x.1 == b) = false := by
    rw [Bool.eq_false_iff]
    intro hc
    rw [List.any_eq_true] at hc
    obtain ⟨x, hx, hxb⟩ := hc
    exact h x hx (by simpa using hxb)
  rw [hany]
  simp only [Bool.false_eq_true, if_false]
  refine List.perm_middle.trans ?_
  rw [List.takeWhile_append_dropWhile]

/-- Membership after inserting a gap whose first cluster is new. -/
theorem gap_mem_insert (g : gap_t) (b s : Nat) (h : ∀ x ∈ g, x.1 ≠ b) (x : Nat × Nat) :
    x ∈ gap_t.insert g b s ↔ x = (b, s) ∨ x ∈ g := by
  rw [(gap_insert_perm g b s h).mem_iff, List.mem_cons]

/-- First clusters stay distinct when a gap with a new first cluster is inserted. -/
theorem gap_keys_insert (g : gap_t) (b s : Nat) (h : ∀ x ∈ g, x.1 ≠ b)
    (hk : (g.map Prod.fst).Nodup) : ((gap_t.insert g b s).map Prod.fst).Nodup := by
  rw [((gap_insert_perm g b s h).map Prod.fst).nodup_iff, List.map_cons, List.nodup_cons]
  refine ⟨?_, hk⟩
  intro hb
  rw [List.mem_map] at hb
  obtain ⟨x, hx, hxb⟩ := hb
  exact h x hx hxb

/-- The invariant holds before the first cluster is visited. -/
theorem scan_inv_init (fat : Nat → Nat) (lo : Nat) :
    scan_inv fat lo lo { gaps := [], b := 0, s := 0 } where
  closed := by simp
  opened := by simp
  idle := fun _ => Or.inl rfl
  cover := by intro c h1 h2; omega
  keys := by simp

/-- The lambda of `gapcheck` keeps the invariant when it visits cluster `m`. -/
theorem scan_inv_step (fat : Nat → Nat) (lo m : Nat) (st : gapscan) (hlo : 1 ≤ lo) (hm : lo ≤ m)
    (h : scan_inv fat lo m st) :
    scan_inv fat lo (m + 1) (dskmap.gapcheck_lbd st m (fat m)) := by
  unfold dskmap.gapcheck_lbd
  by_cases hv : fat m = FLK
  · rw [if_pos hv]
    by_cases hb : st.b ≠ 0
    · rw [if_pos hb]
      obtain ⟨o1, o2, o3, o4, o5⟩ := h.opened hb
      refine ⟨?_, ?_, ?_, ?_, h.keys⟩
      · intro g hg
        obtain ⟨c1, c2, c3, c4, c5, c6, c7⟩ := h.closed g hg
        exact ⟨c1, c2, by omega, c4, c5, c6, c7⟩
      · intro _
        refine ⟨o1, by show st.b + (st.s + 1) = m + 1; omega, by show 1 ≤ st.s + 1; omega, ?_, o5⟩
        intro c hc1 hc2
        by_cases hcm : c = m
        · rw [hcm]; exact hv
        · exact o4 c hc1 (by omega)
      · intro h0; exact absurd h0 hb
      · intro c hc1 hc2 hc3
        by_cases hcm : c = m
        · right; exact ⟨hb, by show st.b ≤ c; omega⟩
        · exact h.cover c hc1 (by omega) hc3
    · rw [if_neg hb]
      have hb0 : st.b = 0 := by simpa using hb
      refine ⟨?_, ?_, ?_, ?_, h.keys⟩
      · intro g hg
        obtain ⟨c1, c2, c3, c4, c5, c6, _⟩ := h.closed g hg
        exact ⟨c1, c2, by omega, c4, c5, c6, fun _ => c3⟩
      · intro _
        refine ⟨hm, rfl, le_refl _, ?_, ?_⟩
        · intro c hc1 hc2
          have : c = m := by
            have : m ≤ c := hc1
            omega
          rw [this]; exact hv
        · rcases h.idle hb0 with hi | hi
          · left; exact hi
          · right; exact hi
      · intro h0
        have : m = 0 := h0
        omega
      · intro c hc1 hc2 hc3
        by_cases hcm : c = m
        · right
          refine ⟨?_, by show m ≤ c; omega⟩
          show m ≠ 0
          omega
        · rcases h.cover c hc1 (by omega) hc3 with hg | hg
          · left; exact hg
          · exact absurd hb0 hg.1
  · rw [if_neg hv]
    by_cases hb : st.b ≠ 0
    · rw [if_pos hb]
      obtain ⟨o1, o2, o3, o4, o5⟩ := h.opened hb
      have hnew : ∀ x ∈ st.gaps, x.1 ≠ st.b := by
        intro x hx
        obtain ⟨c1, _, _, _, _, _, c7⟩ := h.closed x hx
        have := c7 hb
        omega
      refine ⟨?_, ?_, ?_, ?_, gap_keys_insert _ _ _ hnew h.keys⟩
      · intro g hg
        rw [gap_mem_insert _ _ _ hnew] at hg
        rcases hg with hg | hg
        · subst hg
          refine ⟨o3, o1, by show st.b + st.s < m + 1; omega, ?_, o5, ?_, ?_⟩
          · intro c hc
            exact o4 c hc.1 (by have := hc.2; simp only at this; omega)
          · show fat (st.b + st.s) ≠ FLK
            rw [o2]; exact hv
          · intro h0; exact absurd rfl h0
        · obtain ⟨c1, c2, c3, c4, c5, c6, _⟩ := h.closed g hg
          exact ⟨c1, c2, by omega, c4, c5, c6, fun h0 => absurd rfl h0⟩
      · intro h0; exact absurd rfl h0
      · intro _
        right
        simpa using hv
      · intro c hc1 hc2 hc3
        have hcm : c ≠ m := fun hcm => hv (hcm ▸ hc3)
        left
        rcases h.cover c hc1 (by omega) hc3 with hg | hg
        · obtain ⟨g, hg1, hg2⟩ := hg
          exact ⟨g, (gap_mem_insert _ _ _ hnew g).2 (Or.inr hg1), hg2⟩
        · exact ⟨(st.b, st.s), (gap_mem_insert _ _ _ hnew _).2 (Or.inl rfl),
            ⟨hg.2, by show c < st.b + st.s; omega⟩⟩
    · rw [if_neg hb]
      have hb0 : st.b = 0 := by simpa using hb
      refine ⟨?_, ?_, ?_, ?_, h.keys⟩
      · intro g hg
        obtain ⟨c1, c2, c3, c4, c5, c6, c7⟩ := h.closed g hg
        exact ⟨c1, c2, by omega, c4, c5, c6, c7⟩
      · intro h0; exact absurd h0 hb
      · intro _
        right
        simpa using hv
      · intro c hc1 hc2 hc3
        have hcm : c ≠ m := fun hcm => hv (hcm ▸ hc3)
        exact h.cover c hc1 (by omega) hc3

/-- The invariant after `n` clusters. -/
theorem scan_inv_scan (fat : Nat → Nat) (lo : Nat) (hlo : 1 ≤ lo) :
    ∀ n : Nat, scan_inv fat lo (lo + n)
      (scan fat dskmap.gapcheck_lbd lo n { gaps := [], b := 0, s := 0 }) := by
  intro n
  induction n with
  | zero => simpa [scan] using scan_inv_init fat lo
  | succ n ih =>
    rw [scan_succ]
    exact scan_inv_step fat lo (lo + n) _ hlo (by omega) ih

/-- Two maximal FREE runs that share a cluster are the same run. -/
theorem free_run_unique (fat : Nat → Nat) (lo hi : Nat) (g1 g2 : Nat × Nat) (c : Nat)
    (h1 : free_run fat lo hi g1) (h2 : free_run fat lo hi g2)
    (c1 : gap_has g1 c) (c2 : gap_has g2 c) : g1 = g2 := by
  obtain ⟨a1, a2, a3, a4, a5, a6⟩ := h1
  obtain ⟨b1, b2, b3, b4, b5, b6⟩ := h2
  obtain ⟨x1, x2⟩ := c1
  obtain ⟨y1, y2⟩ := c2
  have hfst : g1.1 = g2.1 := by
    by_contra hne
    rcases Nat.lt_or_gt_of_ne hne with hlt | hlt
    · rcases b5 with e | e
      · omega
      · exact e (a4 (g2.1 - 1) ⟨by omega, by omega⟩)
    · rcases a5 with e | e
      · omega
      · exact e (b4 (g1.1 - 1) ⟨by omega, by omega⟩)
  have hsnd : g1.2 = g2.2 := by
    by_contra hne
    rcases Nat.lt_or_gt_of_ne hne with hlt | hlt
    · rcases a6 with e | e
      · omega
      · exact e (b4 (g1.1 + g1.2) ⟨by omega, by omega⟩)
    · rcases b6 with e | e
      · omega
      · exact e (a4 (g2.1 + g2.2) ⟨by omega, by omega⟩)
  exact Prod.ext hfst hsnd

/-- The index built by `gapcheck`: distinct first clusters, every gap a maximal
FREE run below `clus_fat`, every FREE cluster below `clus_fat` covered. -/
theorem gapcheck_free_runs (par : fatxpar) (d : dskmap) (h : par.scan_ok) :
    ((dskmap.gapcheck par d).freegaps.map Prod.fst).Nodup ∧
    (∀ g ∈ (dskmap.gapcheck par d).freegaps, free_run d.fat par.root_clus par.clus_fat g) ∧
    (∀ c, par.root_clus ≤ c → c < par.clus_fat → d.fat c = FLK →
      ∃ g ∈ (dskmap.gapcheck par d).freegaps, gap_has g c) := by
  have hroot := h.root_pos
  have hle := h.root_le
  have hinv := scan_inv_scan d.fat par.root_clus hroot (par.clus_fat - par.root_clus)
  have hm : par.root_clus + (par.clus_fat - par.root_clus) = par.clus_fat := by omega
  rw [hm] at hinv
  unfold dskmap.gapcheck
  simp only
  rw [forfat_eq_scan par d.fat dskmap.gapcheck_lbd _ h]
  generalize scan d.fat dskmap.gapcheck_lbd par.root_clus (par.clus_fat - par.root_clus)
    { gaps := [], b := 0, s := 0 } = st at hinv
  by_cases hb : st.b ≠ 0
  · rw [if_pos hb]
    obtain ⟨o1, o2, o3, o4, o5⟩ := hinv.opened hb
    have hnew : ∀ x ∈ st.gaps, x.1 ≠ st.b := by
      intro x hx
      obtain ⟨c1, _, _, _, _, _, c7⟩ := hinv.closed x hx
      have := c7 hb
      omega
    refine ⟨gap_keys_insert _ _ _ hnew hinv.keys, ?_, ?_⟩
    · intro g hg
      rw [gap_mem_insert _ _ _ hnew] at hg
      rcases hg with hg | hg
      · subst hg
        refine ⟨o3, o1, le_of_eq o2, ?_, o5, Or.inl o2⟩
        intro c hc
        exact o4 c hc.1 (by have := hc.2; simp only at this; omega)
      · obtain ⟨c1, c2, c3, c4, c5, c6, _⟩ := hinv.closed g hg
        exact ⟨c1, c2, by omega, c4, c5, Or.inr c6⟩
    · intro c hc1 hc2 hc3
      rcases hinv.cover c hc1 hc2 hc3 with hg | hg
      · obtain ⟨g, hg1, hg2⟩ := hg
        exact ⟨g, (gap_mem_insert _ _ _ hnew g).2 (Or.inr hg1), hg2⟩
      · exact ⟨(st.b, st.s), (gap_mem_insert _ _ _ hnew _).2 (Or.inl rfl),
          ⟨hg.2, by show c < st.b + st.s; omega⟩⟩
  · rw [if_neg hb]
    have hb0 : st.b = 0 := by simpa using hb
    refine ⟨hinv.keys, ?_, ?_⟩
    · intro g hg
      obtain ⟨c1, c2, c3, c4, c5, c6, _⟩ := hinv.closed g hg
      exact ⟨c1, c2, by omega, c4, c5, Or.inr c6⟩
    · intro c hc1 hc2 hc3
      rcases hinv.cover c hc1 hc2 hc3 with hg | hg
      · exact hg
      · exact absurd hb0 hg.1

/-- With the root cluster past the first FAT block the inner loop of `forfat`
skips block 0 and restarts its index at 0 in block 1: cluster 300 is handed
the cell of cluster 256, and `gapcheck` records the gap (300, 1) although the
cell of cluster 300 holds END. -/
theorem gapcheck_root_past_first_block :
    fatRoot 300 = EOC ∧
    (dskmap.gapcheck exParRoot { fat := fatRoot, freegaps := [] }).freegaps = [(300, 1)] := by
  decide


/-! ### Byte order and time stamps -/

/-- Masking byte `k / 8` of `n` and shifting it down is a division and a remainder. -/
theorem and_shift_mask (n k : Nat) : ((n &&& (0xFF <<< k)) >>> k) % 256 = (n / 2 ^ k) % 256 := by
  have h : (n &&& (0xFF <<< k)) >>> k = (n >>> k) &&& 0xFF := by
    apply Nat.eq_of_testBit_eq
    intro i
    simp [Nat.testBit_shiftRight, Nat.testBit_and, Nat.testBit_shiftLeft]
  rw [h, Nat.shiftRight_eq_div_pow]
  have := Nat.and_pow_two_sub_one_eq_mod (n / 2 ^ k) 8
  simp at this
  rw [this]
  omega

/-- `getbyte` in arithmetic form. -/
theorem getbyte_eq (bytes big n i : Nat) :
    endian.getbyte bytes big n i = (n / 2 ^ (endian.pos bytes big i * 8)) % 256 := by
  unfold endian.getbyte
  exact and_shift_mask _ _

/-- Decoding the 4-byte string of a value below `2 ^ 32` gives the value. -/
theorem litend4_decode_encode (n : Nat) (h : n < 2 ^ 32) :
    endian.litend_value 4 (endian.litend 4 n) = n := by
  simp [endian.litend_value, endian.litend, endian.setvalue, endian.getvalue, endian.setbyte,
    getbyte_eq, endian.pos, List.range_succ, Nat.shiftLeft_eq]
  omega

/-- Decoding the 2-byte string of a value below `2 ^ 16` gives the value. -/
theorem litend2_decode_encode (n : Nat) (h : n < 2 ^ 16) :
    endian.litend_value 2 (endian.litend 2 n) = n := by
  simp [endian.litend_value, endian.litend, endian.setvalue, endian.getvalue, endian.setbyte,
    getbyte_eq, endian.pos, List.range_succ, Nat.shiftLeft_eq]
  omega

/-- Encoding the value of a 4-byte string gives the string. -/
theorem litend4_encode_decode (s : List Nat) (hl : s.length = 4) (hb : ∀ b ∈ s, b < 256) :
    endian.litend 4 (endian.litend_value 4 s) = s := by
  match s, hl with
  | [a, b, c, d], _ =>
    have ha := hb a (by simp)
    have hb1 := hb b (by simp)
    have hc := hb c (by simp)
    have hd := hb d (by simp)
    simp [endian.litend_value, endian.litend, endian.setvalue, endian.getvalue, endian.setbyte,
      getbyte_eq, endian.pos, List.range_succ, Nat.shiftLeft_eq]
    omega

/-- Encoding the value of a 2-byte string gives the string. -/
theorem litend2_encode_decode (s : List Nat) (hl : s.length = 2) (hb : ∀ b ∈ s, b < 256) :
    endian.litend 2 (endian.litend_value 2 s) = s := by
  match s, hl with
  | [a, b], _ =>
    have ha := hb a (by simp)
    have hb1 := hb b (by simp)
    simp [endian.litend_value, endian.litend, endian.setvalue, endian.getvalue, endian.setbyte,
      getbyte_eq, endian.pos, List.range_succ, Nat.shiftLeft_eq]
    omega

/-- Length and bytes of the string `litend` builds. -/
theorem litend_bytes (bytes n i : Nat) (hi : i < bytes) :
    (endian.litend bytes n).length = bytes ∧
    (endian.litend bytes n).getD i 0 = (n % 2 ^ (8 * bytes) / 2 ^ (8 * (bytes - 1 - i))) % 256 := by
  constructor
  · simp [endian.litend, endian.setvalue]
  · simp [endian.litend, endian.setvalue, getbyte_eq, endian.pos, List.getD_eq_getElem?_getD, hi,
      Nat.mul_comm]

/-- A 7-bit field above a 1-bit field in one byte: both are read back. -/
theorem pack1 : ∀ a, a < 128 → ∀ b, b < 2 →
    (((a <<< 1) ||| b) % 256) >>> 1 = a ∧ (((a <<< 1) ||| b) % 256) &&& 1 = b := by
  decide

/-- A 3-bit field above a 5-bit field in one byte: both are read back. -/
theorem pack5 : ∀ a, a < 8 → ∀ b, b < 32 →
    ((((a <<< 5) ||| b) % 256) &&& 0xE0) >>> 5 = a ∧ (((a <<< 5) ||| b) % 256) &&& 0x1F = b := by
  decide

/-- A 5-bit field above a 3-bit field in one byte: both are read back. -/
theorem pack3 : ∀ a, a < 32 → ∀ b, b < 8 →
    (((a <<< 3) ||| b) % 256) >>> 3 = a ∧ (((a <<< 3) ||| b) % 256) &&& 0x07 = b := by
  decide

/-- A value below 64 split by the masks 0x38 and 0x07 and put together again. -/
theorem split3 : ∀ m, m < 64 →
    (m &&& 0x38) >>> 3 < 8 ∧ m &&& 0x07 < 8 ∧ (((m &&& 0x38) >>> 3) <<< 3) ||| (m &&& 0x07) = m := by
  decide

/-- A value below 16 split by the masks 0x08 and 0x07 and put together again. -/
theorem split_month : ∀ m, m < 16 →
    (m &&& 0x08) >>> 3 < 2 ∧ m &&& 0x07 < 8 ∧ (((m &&& 0x08) >>> 3) <<< 3) ||| (m &&& 0x07) = m := by
  decide

/-- The masks 0x7F and 0x1F on small values. -/
theorem mask_small : ∀ m, m < 128 →
    m &&& 0x7F = m ∧ m &&& 0x1F < 32 ∧ (m < 32 → m &&& 0x1F = m) := by
  decide

/-- `usub32` undoes an addition that does not overflow. -/
theorem usub32_add (a b : Nat) (h : a + b < 2 ^ 32) : usub32 (a + b) b = a := by
  unfold usub32
  omega

/-- Over the ranges of a date (year 1980..2107, month 1..12, day 1..31, hour 0..23,
minute 0..59, second 0..59) `date(buf)` on the bytes of `date::write` gives back
year, month, day, hour and minute, and the second masked by 0x1F. -/
theorem date_write_read (y m dd h mi s : Nat) (hy : y < 128) (hm : m < 12) (hd : dd < 31)
    (hh : h < 24) (hmi : mi < 60) (hs : s < 60) :
    date.ofBuf (date.write ⟨y + 1980, m + 1, dd + 1, h, mi, s⟩) =
      ⟨y + 1980, m + 1, dd + 1, h, mi, s &&& 0x1F⟩ := by
  obtain ⟨m1, m2, m3⟩ := split_month m (by omega)
  obtain ⟨n1, n2, n3⟩ := split3 mi (by omega)
  have y1 := (mask_small y hy).1
  have d1 := (mask_small dd (by omega)).2.2 (by omega)
  have h1 := (mask_small h (by omega)).2.2 (by omega)
  have s1 := (mask_small s (by omega)).2.1
  have p0 := pack1 y hy _ m1
  have p1 := pack5 _ m2 dd (by omega)
  have p2 := pack3 h (by omega) _ n1
  have p3 := pack5 _ n2 _ s1
  simp only [date.ofBuf, date.write, List.getD_cons_zero, List.getD_cons_succ,
    usub32_add y 1980 (by omega), usub32_add m 1 (by omega), usub32_add dd 1 (by omega),
    y1, d1, h1, Nat.mod_mod, p0.1, p0.2, p1.1, p1.2, p2.1, p2.2, p3.1, p3.2, m3, n3]

/-! ### Partition detection and geometry -/

/-- With no table hint, a forced offset and "XTAF" at the offset, the detection
ends with `found`, the start at the offset and the size still 0. -/
theorem setup_probe_forced (fe : frontend) (dev : device) (ht : fe.table = table_t.auto)
    (ho : fe.offset ≠ 0) (hx : dev.has_fsid fe.offset = true) :
    fatxpar.setup_probe fe dev = { found := true, par_start := fe.offset, par_size := 0 } := by
  simp [fatxpar.setup_probe, ht, ho, hx]

/-- `x + (0x1000 - x % 0x1000)` for a 32-bit `x`. -/
theorem fat_round (x : Nat) (hx : x < 2 ^ 32) :
    wadd x (0x1000 - x % 0x1000) = (x / 0x1000 + 1) * 0x1000 := by
  unfold wadd W64
  omega

/-- The root cluster `fatxpar::setup` keeps is at least 1. -/
theorem root_fix (r c : Nat) : 1 ≤ (if decide (r < 1 ∨ r > c) = true then 1 else r) := by
  by_cases h : r < 1 ∨ r > c
  · rw [if_pos (decide_eq_true h)]
  · rw [if_neg (by simpa using h)]
    omega

/-- The fields of a geometry `setup_geometry` returns. -/
theorem setup_geometry_fields (par_id par_start par_size clus_size root_clus : Nat)
    (par : fatxpar) (b : Bool)
    (h : fatxpar.setup_geometry par_id par_start par_size clus_size root_clus = some (par, b)) :
    par.par_start = par_start ∧ par.par_size = par_size ∧ par.clus_size = clus_size ∧
    par.clus_num = (par_size >>> par.clus_pow) % 2 ^ 32 ∧
    par.chain_size = (if par.clus_num < 0xFFF0 then 2 else 4) ∧
    par.fat_start = wadd par_start 0x1000 ∧
    par.fat_size = ((par.clus_num * par.chain_size) % 2 ^ 32 / 0x1000 + 1) * 0x1000 ∧
    par.root_start = wadd par.fat_start par.fat_size ∧
    par.clus_fat =
      (wsub (wsub par_size (wsub par.root_start par_start) >>> par.clus_pow) 1) % 2 ^ 32 ∧
    1 ≤ par.root_clus := by
  unfold fatxpar.setup_geometry at h
  simp only at h
  split at h
  · simp at h
  · simp only [Option.some.injEq, Prod.mk.injEq] at h
    obtain ⟨h1, -⟩ := h
    subst h1
    exact ⟨rfl, rfl, rfl, rfl, rfl, rfl, fat_round _ (Nat.mod_lt _ (by decide)), rfl, rfl,
      root_fix _ _⟩

/-- A run of `fatxpar::setup` that succeeds went through `setup_geometry`; when a
partition was detected, with the start and the size of the detection (or the
forced size). -/
theorem setup_some (fe : frontend) (dev : device) (par : fatxpar)
    (h : (fatxpar.setup fe dev).map Prod.fst = some par) :
    ∃ par_id par_start par_size clus_size root_clus b,
      fatxpar.setup_geometry par_id par_start par_size clus_size root_clus = some (par, b) ∧
      (fe.table = table_t.auto → (fatxpar.setup_probe fe dev).found = true →
        par_start = (fatxpar.setup_probe fe dev).par_start ∧
        par_size = (if fe.size ≠ 0 then fe.size else (fatxpar.setup_probe fe dev).par_size)) := by
  unfold fatxpar.setup at h
  simp only at h
  split at h
  · simp at h
  · split at h
    · simp at h
    · rename_i p bad hg
      have hp : p = par := by
        split at h <;> simpa using h
      subst hp
      refine ⟨_, _, _, _, _, _, hg, ?_⟩
      intro ht hf
      simp [ht, hf]

/-- With no table hint, a forced offset, no forced size and "XTAF" at the offset,
every run of `fatxpar::setup` that succeeds has `par_size = 0`. -/
theorem setup_forced_size (fe : frontend) (dev : device) (par : fatxpar)
    (ht : fe.table = table_t.auto) (ho : fe.offset ≠ 0) (hs : fe.size = 0)
    (hx : dev.has_fsid fe.offset = true)
    (h : (fatxpar.setup fe dev).map Prod.fst = some par) :
    par.par_start = fe.offset ∧ par.par_size = 0 ∧ par.clus_num = 0 := by
  obtain ⟨_, ps, sz, _, _, _, hg, hp⟩ := setup_some fe dev par h
  have hpr := setup_probe_forced fe dev ht ho hx
  obtain ⟨h1, h2⟩ := hp ht (by rw [hpr])
  rw [hpr] at h1 h2
  simp only [hs, ne_eq, not_true_eq_false, if_false] at h2
  have hf := setup_geometry_fields _ _ _ _ _ _ _ hg
  refine ⟨hf.1.trans h1, hf.2.1.trans h2, ?_⟩
  rw [hf.2.2.2.1, h2]
  simp

/-- For every run of `fatxpar::setup` that succeeds, `fat_size` is the smallest
multiple of 0x1000 strictly greater than the 32-bit product
`clus_num * chain_size`. -/
theorem setup_fat_size (fe : frontend) (dev : device) (par : fatxpar)
    (h : (fatxpar.setup fe dev).map Prod.fst = some par) :
    par.chain_size = (if par.clus_num < 0xFFF0 then 2 else 4) ∧
    0x1000 ∣ par.fat_size ∧
    (par.clus_num * par.chain_size) % 2 ^ 32 < par.fat_size ∧
    (∀ m, 0x1000 ∣ m → (par.clus_num * par.chain_size) % 2 ^ 32 < m → par.fat_size ≤ m) := by
  obtain ⟨_, _, _, _, _, _, hg, -⟩ := setup_some fe dev par h
  have hf := setup_geometry_fields _ _ _ _ _ _ _ hg
  refine ⟨hf.2.2.2.2.1, ?_, ?_, ?_⟩
  · rw [hf.2.2.2.2.2.2.1]
    exact Dvd.intro_left _ rfl
  · rw [hf.2.2.2.2.2.2.1]
    omega
  · intro m hm hlt
    rw [hf.2.2.2.2.2.2.1]
    obtain ⟨k, rfl⟩ := hm
    generalize (par.clus_num * par.chain_size) % 2 ^ 32 = x at hlt
    have : x / 4096 < k := by
      rw [Nat.div_lt_iff_lt_mul (by norm_num)]
      omega
    nlinarith

/-- `wsub` is the subtraction when it does not wrap. -/
theorem wsub_of_le (a b : Nat) (ha : a < 2 ^ 64) (hb : b ≤ a) : wsub a b = a - b := by
  have e1 : a + 2 ^ 64 - b = a - b + 2 ^ 64 := by omega
  unfold wsub W64
  rw [Nat.mod_eq_of_lt (by omega : b < 2 ^ 64), e1, Nat.add_mod_right]
  exact Nat.mod_eq_of_lt (by omega)

/-- For a geometry of `fatxpar::setup` without integer overflow, on a partition
that holds the FAT and one cluster, the cell of every cluster in
`root_clus .. clus_fat` lies inside the FAT region. -/
theorem cls2fat_in_region (fe : frontend) (dev : device) (par : fatxpar) (c : Nat)
    (h : (fatxpar.setup fe dev).map Prod.fst = some par)
    (hnum : par.par_size >>> par.clus_pow < 2 ^ 32)
    (hprod : par.clus_num * par.chain_size < 2 ^ 32)
    (hend : par.par_start + 0x1000 + par.fat_size < 2 ^ 64)
    (hbig : 0x1000 + par.fat_size + 2 ^ par.clus_pow ≤ par.par_size)
    (hsz : par.par_size < 2 ^ 64)
    (hc : par.root_clus ≤ c ∧ c ≤ par.clus_fat) :
    par.fat_start ≤ clsarithm.cls2fat par c ∧
    clsarithm.cls2fat par c + par.chain_size ≤ par.fat_start + par.fat_size := by
  obtain ⟨_, ps, sz, _, _, _, hg, -⟩ := setup_some fe dev par h
  obtain ⟨h1, h2, -, h4, h5, h6, h7, h8, h9, -⟩ := setup_geometry_fields _ _ _ _ _ _ _ hg
  subst h1 h2
  rw [Nat.mod_eq_of_lt hnum] at h4
  rw [Nat.mod_eq_of_lt hprod] at h7
  have hfs : par.fat_start = par.par_start + 0x1000 := by
    rw [h6]; unfold wadd W64; omega
  have hrs : wsub par.root_start par.par_start = 0x1000 + par.fat_size := by
    rw [h8, hfs]; unfold wadd wsub W64; omega
  rw [hrs] at h9
  have hle : 0x1000 + par.fat_size ≤ par.par_size := Nat.le_of_add_right_le hbig
  have hsub := wsub_of_le par.par_size (0x1000 + par.fat_size) hsz hle
  rw [hsub, Nat.shiftRight_eq_div_pow] at h9
  rw [Nat.shiftRight_eq_div_pow] at h4 hnum
  have hpos : 0 < 2 ^ par.clus_pow := Nat.two_pow_pos _
  have hq1 : 1 ≤ (par.par_size - (0x1000 + par.fat_size)) / 2 ^ par.clus_pow := by
    rw [Nat.le_div_iff_mul_le hpos]; omega
  have hq2 : (par.par_size - (0x1000 + par.fat_size)) / 2 ^ par.clus_pow ≤ par.clus_num := by
    rw [h4]; exact Nat.div_le_div_right (by omega)
  have hcf : par.clus_fat + 1 ≤ par.clus_num := by
    rw [h9]; unfold wsub W64; omega
  have hcs : par.chain_size = 2 ∨ par.chain_size = 4 := by
    rw [h5]; split <;> simp
  have hlt : par.clus_num * par.chain_size < par.fat_size := by
    rw [h7]; omega
  have hcell : clsarithm.cls2fat par c = par.fat_start + c * par.chain_size := by
    unfold clsarithm.cls2fat
    rw [if_neg (by omega)]
    unfold wadd W64
    apply Nat.mod_eq_of_lt
    rcases hcs with h2 | h2 <;> rw [h2] at hlt ⊢ <;> omega
  rw [hcell]
  rcases hcs with h2 | h2 <;> rw [h2] at hlt ⊢ <;> omega

/-! ### Directory records -/

/-- A list is the list of its elements by index. -/
theorem map_getD_range (chars : List Nat) :
    (List.range chars.length).map (fun i => chars.getD i 0) = chars := by
  apply List.ext_getElem
  · simp
  · intro n h1 h2
    simp [List.getElem?_eq_getElem h2]

/-- The label units of a list take two bytes for each character. -/
theorem label_units_length (l : List Nat) : (label_units l).length = 2 * l.length := by
  induction l with
  | nil => rfl
  | cons c t ih =>
    simp only [label_units, List.flatMap_cons, List.length_append, List.length_cons,
      List.length_nil] at ih ⊢
    omega

/-- The label units of a list with one more character. -/
theorem label_units_append (l : List Nat) (c : Nat) :
    label_units (l ++ [c]) = label_units l ++ [0, c % 256] := by
  simp [label_units, List.flatMap_append]

/-- One pass of the loop of `label(buf)` on a buffer that holds `p`, fewer than
`name_size` characters. -/
theorem label_step (p : List Nat) (c : Nat) (h : p.length < name_size) :
    (([0xFE, 0xFF] ++ label_units p ++ List.replicate (slab - 2 - 2 * p.length) 0).set
        (2 + 2 * p.length + 2 - 1) (c % 256)) =
      [0xFE, 0xFF] ++ label_units (p ++ [c]) ++
        List.replicate (slab - 2 - 2 * (p ++ [c]).length) 0 := by
  have hl : ([0xFE, 0xFF] ++ label_units p).length = 2 + 2 * p.length := by
    simp only [List.length_append, List.length_cons, List.length_nil, label_units_length]
  have hn : slab - 2 - 2 * p.length = (slab - 2 - 2 * (p ++ [c]).length) + 2 := by
    simp [slab, name_size] at h ⊢
    omega
  rw [hn, List.set_append_right _ _ (by rw [hl]; omega), hl, label_units_append,
    show 2 + 2 * p.length + 2 - 1 - (2 + 2 * p.length) = 1 by omega]
  simp [List.replicate_succ]

/-- The loop of `label(buf)` from a buffer that holds `p`. -/
theorem label_fold : ∀ (l p : List Nat), p.length ≤ name_size →
    l.foldl
      (fun (st : List Nat × Nat) c =>
        if st.2 = slab then st
        else (st.1.set (st.2 + 2 - 1) (c % 256), st.2 + 2))
      ([0xFE, 0xFF] ++ label_units p ++ List.replicate (slab - 2 - 2 * p.length) 0,
        2 + 2 * p.length) =
    ([0xFE, 0xFF] ++ label_units (p ++ l.take (name_size - p.length)) ++
        List.replicate (slab - 2 - 2 * (p ++ l.take (name_size - p.length)).length) 0,
      2 + 2 * (p ++ l.take (name_size - p.length)).length)
  | [], p, _ => by simp
  | c :: l, p, hp => by
    rw [List.foldl_cons]
    by_cases hfull : p.length = name_size
    · have h0 : name_size - p.length = 0 := by omega
      rw [if_pos (by rw [hfull]; simp only [slab]; omega)]
      have ih := label_fold l p hp
      rw [h0, List.take_zero, List.append_nil] at ih ⊢
      exact ih
    · have hlt : p.length < name_size := by omega
      rw [if_neg (by simp [slab]; omega)]
      simp only
      rw [label_step p c hlt]
      have hlen : (p ++ [c]).length = p.length + 1 := by simp
      have ih := label_fold l (p ++ [c]) (by rw [hlen]; omega)
      have e1 : 2 + 2 * p.length + 2 = 2 + 2 * (p ++ [c]).length := by rw [hlen]; omega
      rw [e1, ih]
      have e2 : name_size - p.length = (name_size - (p ++ [c]).length) + 1 := by
        rw [hlen]; omega
      rw [e2, List.take_succ_cons]
      simp

/-- The buffer and the size `label(buf)` gives. -/
theorem label_eq (par : fatxpar) :
    fatxpar.label par =
      ([0xFE, 0xFF] ++ label_units (par.par_label.take name_size) ++
          List.replicate (slab - 2 - 2 * (par.par_label.take name_size).length) 0,
        2 + 2 * (par.par_label.take name_size).length) := by
  have h := label_fold par.par_label [] (Nat.zero_le _)
  simp only [List.length_nil, Nat.mul_zero, Nat.sub_zero, List.nil_append] at h
  unfold fatxpar.label
  rw [← h]
  rfl

/-- The byte at an odd index of the label units is the character. -/
theorem label_units_getD : ∀ (l r : List Nat) (j : Nat), j < l.length →
    (label_units l ++ r).getD (2 * j + 1) 0 = l.getD j 0 % 256
  | [], _, _, h => by simp at h
  | c :: t, r, 0, _ => by simp [label_units]
  | c :: t, r, j + 1, h => by
    have ih := label_units_getD t r j (by simpa using h)
    have e : 2 * (j + 1) + 1 = (2 * j + 1) + 1 + 1 := by omega
    rw [e]
    simp only [label_units, List.flatMap_cons, List.cons_append, List.nil_append,
      List.getD_cons_succ] at ih ⊢
    exact ih

/-- The indices `label(buf, size)` reads: those of the first `m` characters when
`size` is `2 + 2 * m`. -/
theorem label_indices (m : Nat) (hm : m ≤ name_size) :
    ((List.range ((slab - 2) / 2)).map (fun j => 3 + 2 * j)).takeWhile
        (fun i => decide (i < 2 + 2 * m)) =
      (List.range m).map (fun j => 3 + 2 * j) := by
  have hn : (slab - 2) / 2 = m + (name_size - m) := by
    simp [slab, name_size] at hm ⊢
    omega
  rw [hn, List.range_add, List.map_append,
    List.takeWhile_append_of_pos (by
      intro a ha
      obtain ⟨j, hj, rfl⟩ := List.mem_map.1 ha
      have := List.mem_range.1 hj
      simp only [decide_eq_true_eq]
      omega)]
  have htail : (List.map (fun j => 3 + 2 * j)
      (List.map (fun x => m + x) (List.range (name_size - m)))).takeWhile
      (fun i => decide (i < 2 + 2 * m)) = [] := by
    cases hk : name_size - m with
    | zero => simp
    | succ k =>
      rw [List.range_succ_eq_map]
      simp only [List.map_cons, List.map_map]
      rw [List.takeWhile_cons_of_neg (by simp)]
  rw [htail, List.append_nil]

/-- Reading back the label written by `label(buf)`. -/
theorem label_read_label (par par0 : fatxpar) (hl : par.par_label.length ≤ name_size)
    (hc : ∀ c ∈ par.par_label, c < 256) :
    (fatxpar.label_read par0 (fatxpar.label par).1 (fatxpar.label par).2).par_label =
      par0.par_label ++ par.par_label := by
  have ht : par.par_label.take name_size = par.par_label := List.take_of_length_le hl
  rw [label_eq, ht]
  unfold fatxpar.label_read
  simp only
  rw [label_indices _ hl, List.map_map]
  congr 1
  have hm : (List.range par.par_label.length).map
      ((fun i => ([0xFE, 0xFF] ++ label_units par.par_label ++
          List.replicate (slab - 2 - 2 * par.par_label.length) 0).getD i 0 % 256) ∘
        (fun j => 3 + 2 * j)) =
      (List.range par.par_label.length).map (fun j => par.par_label.getD j 0) := by
    apply List.map_congr_left
    intro j hj
    have hjl := List.mem_range.1 hj
    have hcj : par.par_label.getD j 0 < 256 := by
      rw [List.getD_eq_getElem _ _ hjl]
      exact hc _ (List.getElem_mem hjl)
    simp only [Function.comp]
    rw [show 3 + 2 * j = (2 * j + 1) + 1 + 1 by omega]
    simp only [List.cons_append, List.nil_append, List.getD_cons_succ, List.append_assoc]
    rw [label_units_getD _ _ _ hjl, Nat.mod_mod, Nat.mod_eq_of_lt hcj]
  rw [hm, map_getD_range]

/-- The label units of ASCII characters: a null byte, then the character. -/
theorem label_units_ascii : ∀ (l : List Nat), (∀ c ∈ l, c < 128) →
    label_units l = l.flatMap (fun c => [0, c])
  | [], _ => rfl
  | c :: t, h => by
    have hc : c % 256 = c := Nat.mod_eq_of_lt (Nat.lt_trans (h c (List.mem_cons_self _ _)) (by decide))
    have ht := label_units_ascii t (fun x hx => h x (List.mem_cons_of_mem _ hx))
    unfold label_units at ht ⊢
    rw [List.flatMap_cons, List.flatMap_cons, ht, hc]

/-- The buffer and the size `label(buf)` gives for a label of ASCII characters. -/
theorem label_ascii (par : fatxpar) (h : ∀ c ∈ par.par_label, c < 128) :
    fatxpar.label par =
      ([0xFE, 0xFF] ++ (par.par_label.take name_size).flatMap (fun c => [0, c]) ++
          List.replicate (slab - 2 - 2 * min par.par_label.length name_size) 0,
        2 + 2 * min par.par_label.length name_size) := by
  rw [label_eq, label_units_ascii _ (fun c hc => h c (List.mem_of_mem_take hc)),
    List.length_take, Nat.min_comm]
/-- A write on a read-only front end inside the bounds of the device. -/
theorem device_write_readonly (fe : frontend) (dev : device) (p : Nat) (s : List Nat)
    (hro : fe.readonly = true) (hin : p + s.length ≤ dev.tot_size)
    (hts : dev.tot_size < 2 ^ 64) :
    device.write fe dev p s = (true, dev) := by
  have hwa : wadd p s.length = p + s.length := by
    unfold wadd W64
    exact Nat.mod_eq_of_lt (by omega)
  unfold device.write
  by_cases hs : s = []
  · rw [if_pos hs]
  · rw [if_neg hs, hwa, if_neg (by omega), if_pos (by simp [frontend.writeable, hro])]

/-- `addtodir` gives up before it looks at the directory data when the
receiver is not a directory or has no cluster, when the entry is a directory
without cluster, or when a child has the name length and the name of the entry. -/
theorem addtodir_rejects (par : fatxpar) (fe : frontend) (d : dskmap) (dev : device)
    (dir : entry) (childs : List entry) (root : Bool) (e : entry) (now : date)
    (h : dir.flags.dir = false ∨ dir.cluster = 0 ∨ (e.flags.dir = true ∧ e.cluster = 0) ∨
      ∃ i ∈ childs, i.namesize = e.namesize ∧ strncmp_eq i.name e.name i.namesize = true) :
    entry.addtodir par fe d dev dir childs root (some e) now =
      some { ok := false, e := some e, dir := dir, childs := childs, d := d, dev := dev } := by
  unfold entry.addtodir
  simp only
  by_cases h1 : ¬ dir.flags.dir = true ∨ dir.cluster = 0 ∨ (e.flags.dir = true ∧ e.cluster = 0)
  · rw [if_pos h1]
  · rw [if_neg h1]
    have h2 : childs.any
        (fun i => i.namesize == e.namesize && strncmp_eq i.name e.name i.namesize) = true := by
      rcases h with h | h | h | ⟨i, hi, hn, hs⟩
      · exact absurd (Or.inl (by simp [h])) h1
      · exact absurd (Or.inr (Or.inl h)) h1
      · exact absurd (Or.inr (Or.inr h)) h1
      · rw [List.any_eq_true]
        exact ⟨i, hi, by rw [Bool.and_eq_true, beq_iff_eq]; exact ⟨hn, hn ▸ hs⟩⟩
    rw [if_pos h2]

/-- The clusters of a path are neither END nor FREE. -/
theorem path_mem (fat : Nat → Nat) : ∀ (cs : List Nat) (o r : Nat),
    path fat o cs r → ∀ c ∈ cs, c ≠ EOC ∧ c ≠ FLK
  | [], _, _, _ => fun c hc => absurd hc (List.not_mem_nil c)
  | x :: cs, o, r, h => by
    obtain ⟨h1, h2, h3, h4⟩ := h
    intro c hc
    rcases List.mem_cons.1 hc with hx | hx
    · rw [hx, h1]
      exact ⟨h2, h3⟩
    · exact path_mem fat cs _ r h4 c hx

/-- A pass of the loop of `getareas` on a cluster already visited ends the
walk; in fsck mode with the answer yes it writes END into the cell of the
cluster visited before. -/
theorem getareas_step_cycle (par : fatxpar) (fe : frontend)
    (lbd : Option (dskmap → Nat → Nat → dskmap)) (w : walk)
    (h1 : w.cur_cls ≠ EOC) (h2 : w.cur_cls ≠ FLK) (h3 : w.cur_cls ∈ w.sc) :
    dskmap.getareas_step par fe lbd w = walk_t.done w.res
      (if fe.prog = call_t.fsck ∧ fe.answer = true then (dskmap.write par w.d w.prv_cls EOC).2
       else w.d) := by
  have hs : (decide (w.cur_cls = EOC) || decide (w.cur_cls = FLK)) = false := by
    simp [h1, h2]
  unfold dskmap.getareas_step
  simp only [hs, h3, decide_True, Bool.not_false, Bool.and_self, if_true]

/-- The walk of `getareas` without visitor along clusters not yet visited that
lead to a cluster already visited: the state is the one the last pass leaves. -/
theorem getareas_loop_cycle (par : fatxpar) (fe : frontend) :
    ∀ (cs : List Nat) (fuel : Nat) (w : walk) (r : Nat),
      path w.d.fat w.cur_cls cs r → cs.Nodup → (∀ c ∈ cs, c ∉ w.sc) →
      (∀ c ∈ cs, 1 ≤ c ∧ c ≤ par.clus_fat) → (r ∈ cs ∨ r ∈ w.sc) → r ≠ EOC → r ≠ FLK →
      cs.length + 1 ≤ fuel →
      (dskmap.getareas_loop par fe none fuel w).2 =
        (if fe.prog = call_t.fsck ∧ fe.answer = true then
          (dskmap.write par w.d (cs.getLastD w.prv_cls) EOC).2
         else w.d) := by
  intro cs
  induction cs with
  | nil =>
    intro fuel w r hp _ _ _ hr hE hF hf
    obtain ⟨f, rfl⟩ : ∃ f, fuel = f + 1 := ⟨fuel - 1, by simp at hf; omega⟩
    have hcur : w.cur_cls = r := hp
    have hin : w.cur_cls ∈ w.sc := by
      rcases hr with h | h
      · simp at h
      · rw [hcur]; exact h
    have hstep := getareas_step_cycle par fe none w (hcur ▸ hE) (hcur ▸ hF) hin
    simp [dskmap.getareas_loop, hstep]
  | cons c cs ih =>
    intro fuel w r hp hnd hsc hr hrep hE hF hf
    obtain ⟨f, rfl⟩ : ∃ f, fuel = f + 1 := ⟨fuel - 1, by simp at hf; omega⟩
    obtain ⟨hcur, hcE, hcF, hrest⟩ := hp
    have hnot : w.cur_cls ∉ w.sc := hcur ▸ hsc c (List.mem_cons_self _ _)
    have hrc := hr c (List.mem_cons_self _ _)
    have hcE1 : c ≠ EOC := hcur ▸ hcE
    rw [List.nodup_cons] at hnd
    obtain ⟨w1, hw1, hd1, hsc1, hcur1, hprv1⟩ := getareas_step_next par fe none w hcE hcF hnot
    simp only at hd1
    have hcur1f : w1.cur_cls = w.d.fat c := by
      rw [hcur1, ← hcur]
      exact read_in_range par w.d c hrc.1 hrc.2 hcE1
    have hloop : dskmap.getareas_loop par fe none (f + 1) w =
        dskmap.getareas_loop par fe none f w1 := by
      simp [dskmap.getareas_loop, hw1]
    have hpath : path w1.d.fat w1.cur_cls cs r := by
      rw [hd1, hcur1f]
      exact hrest
    have hsc1f : ∀ x ∈ cs, x ∉ w1.sc := by
      intro x hx
      rw [hsc1, List.mem_cons, not_or, ← hcur]
      exact ⟨fun h => hnd.1 (h ▸ hx), hsc x (List.mem_cons_of_mem _ hx)⟩
    have hrep1 : r ∈ cs ∨ r ∈ w1.sc := by
      rw [hsc1, ← hcur]
      rcases hrep with h | h
      · rcases List.mem_cons.1 h with h | h
        · exact Or.inr (h ▸ List.mem_cons_self _ _)
        · exact Or.inl h
      · exact Or.inr (List.mem_cons_of_mem _ h)
    have := ih f w1 r hpath hnd.2 hsc1f (fun x hx => hr x (List.mem_cons_of_mem _ hx)) hrep1
      hE hF (by simp at hf; omega)
    rw [hloop, this, hd1, hprv1, ← hcur]
    cases cs with
    | nil => rfl
    | cons x xs => rfl

/-- Writing END into the cell of a cluster of `[1, clus_fat]` is accepted and
changes that cell alone. -/
theorem write_end_fat (par : fatxpar) (d : dskmap) (c : Nat)
    (h1 : 1 ≤ c) (h2 : c ≤ par.clus_fat) (h3 : c ≠ EOC) :
    (dskmap.write par d c EOC).2 = { d with fat := fun x => if x = c then EOC else d.fat x } := by
  have h0 : c ≠ FLK := by unfold FLK; omega
  unfold dskmap.write
  rw [if_neg (by simp [h0, h3]), if_neg (by omega), if_neg (by simp)]

/-- The effect of `getareas(start)` without visitor on a chain that runs into a
cluster it has already visited. -/
theorem getareas_cycle (par : fatxpar) (fe : frontend) (d : dskmap) (start r : Nat)
    (cs : List Nat) (hp : path d.fat start cs r) (hnd : cs.Nodup)
    (hr : ∀ c ∈ cs, 1 ≤ c ∧ c ≤ par.clus_fat) (hrep : r ∈ cs) :
    (dskmap.getareas par fe d start none).2 =
      (if fe.prog = call_t.fsck ∧ fe.answer = true then
        { d with fat := fun x => if x = cs.getLastD 0 then EOC else d.fat x }
       else d) := by
  obtain ⟨c, t, rfl⟩ : ∃ c t, cs = c :: t := by
    cases cs with
    | nil => simp at hrep
    | cons c t => exact ⟨c, t, rfl⟩
  have hrr := hr r hrep
  have hlen := nodup_range_length (c :: t) par.clus_fat hnd hr
  have hlast : (c :: t).getLastD 0 ∈ c :: t := by
    show (c :: t).getLast (List.cons_ne_nil _ _) ∈ _
    exact List.getLast_mem _
  have hlr := hr _ hlast
  have hstart : ¬ (start = EOC ∨ start = FLK) := by
    obtain ⟨_, h2, h3, _⟩ := hp
    exact fun h => h.elim h2 h3
  unfold dskmap.getareas
  rw [if_neg hstart]
  rw [getareas_loop_cycle par fe (c :: t) (par.clus_fat + 2)
    { d := d, sc := [], res := [], area_off := 0, area_ptr := 0, area_siz := 0,
      area_start := 0, cur_cls := start, prv_cls := 0 } r hp hnd
    (fun _ _ => List.not_mem_nil _) hr (Or.inl hrep) (path_mem d.fat _ _ _ hp _ hrep).1
    (path_mem d.fat _ _ _ hp _ hrep).2 (by omega)]
  simp only
  by_cases hf : fe.prog = call_t.fsck ∧ fe.answer = true
  · rw [if_pos hf, if_pos hf]
    exact write_end_fat par d _ hlr.1 hlr.2 (path_mem d.fat _ _ _ hp _ hlast).1
  · rw [if_neg hf, if_neg hf]
/-- A key that is not in the container is not found in it. -/
theorem cache_find_none (l : List (Nat × Nat)) (k : Nat)
    (h : ∀ x ∈ l, x.1 ≠ k) : l.find? (fun x => x.1 == k) = none := by
  rw [List.find?_eq_none]
  intro x hx
  simp [h x hx]

/-- The container after a put: the pairs of other keys that were kept, then the
pair put. -/
theorem cache_put_container (write : Nat → Nat → Bool) (c : read_cache) (k v : Nat) :
    ∃ l : List (Nat × Nat), (read_cache.put write c k v).2.1.container = l ++ [(k, v)] ∧
      (∀ x ∈ l, x.1 ≠ k) ∧
      (c.capacity ≠ 0 → c.container.length ≤ c.capacity → l.length + 1 ≤ c.capacity) := by
  unfold read_cache.put
  simp only
  by_cases hin : c.container.any (fun x => x.1 == k) = true
  · rw [if_pos hin]
    refine ⟨c.container.filter (fun x => x.1 != k), rfl, ?_, ?_⟩
    · intro x hx
      have := (List.mem_filter.1 hx).2
      simpa using this
    · intro _ hlen
      obtain ⟨x, hx, hk⟩ := List.any_eq_true.1 hin
      have hlt : (c.container.filter (fun x => x.1 != k)).length < c.container.length := by
        apply List.length_filter_lt_length_iff_exists.2
        exact ⟨x, hx, by simpa using hk⟩
      omega
  · rw [if_neg hin]
    have hall : ∀ x ∈ c.container, x.1 ≠ k := by
      intro x hx hk
      exact hin (List.any_eq_true.2 ⟨x, hx, by simp [hk]⟩)
    by_cases hfull : c.container.length = c.capacity
    · rw [if_pos hfull]
      have hall1 : ∀ x ∈ c.container.drop 1, x.1 ≠ k :=
        fun x hx => hall x (List.mem_of_mem_drop hx)
      have hany : ¬ (c.container.drop 1).any (fun x => x.1 == k) = true := by
        intro h
        obtain ⟨x, hx, hk⟩ := List.any_eq_true.1 h
        exact hall1 x hx (by simpa using hk)
      refine ⟨c.container.drop 1, ?_, hall1, ?_⟩
      · unfold read_cache.insert
        rw [if_neg hany]
      · intro h0 _
        rw [List.length_drop]
        omega
    · rw [if_neg hfull]
      refine ⟨c.container, ?_, hall, ?_⟩
      · unfold read_cache.insert
        rw [if_neg hin]
      · intro _ hlen
        omega

/-- Put then get on the cache: the put hands the pair to the write function once
and answers what the function answers; the get that follows answers the value
put and does not call the read function; neither leaves more pairs in the
container than the capacity. -/
theorem cache_put_get (write : Nat → Nat → Bool) (read : Nat → Nat → List (Nat × Nat))
    (c : read_cache) (k v : Nat) (h0 : c.capacity ≠ 0)
    (hlen : c.container.length ≤ c.capacity) :
    (read_cache.put write c k v).1 = write k v ∧
    (read_cache.put write c k v).2.2 = [(k, v)] ∧
    (read_cache.put write c k v).2.1.capacity = c.capacity ∧
    (read_cache.put write c k v).2.1.container.length ≤ c.capacity ∧
    (read_cache.get read (read_cache.put write c k v).2.1 k).1 = v ∧
    (read_cache.get read (read_cache.put write c k v).2.1 k).2.2 = [] ∧
    (read_cache.get read (read_cache.put write c k v).2.1 k).2.1.capacity = c.capacity ∧
    (read_cache.get read (read_cache.put write c k v).2.1 k).2.1.container.length
      ≤ c.capacity := by
  obtain ⟨l, hl, hne, hsz⟩ := cache_put_container write c k v
  have hsz1 := hsz h0 hlen
  have hfind : (read_cache.put write c k v).2.1.container.find? (fun x => x.1 == k)
      = some (k, v) := by
    rw [hl, List.find?_append, cache_find_none l k hne]
    simp
  have hcap : (read_cache.put write c k v).2.1.capacity = c.capacity := rfl
  have hget : read_cache.get read (read_cache.put write c k v).2.1 k =
      (v, { (read_cache.put write c k v).2.1 with
              container := (read_cache.put write c k v).2.1.container.filter
                (fun y => y.1 != k) ++ [(k, v)] }, []) := by
    unfold read_cache.get
    rw [hfind]
  refine ⟨rfl, rfl, rfl, ?_, ?_, ?_, ?_, ?_⟩
  · rw [hl, List.length_append]
    exact hsz1
  · rw [hget]
  · rw [hget]
  · rw [hget]
    exact hcap
  · rw [hget]
    simp only [List.length_append, List.length_cons, List.length_nil]
    have h1 : ((read_cache.put write c k v).2.1.container.filter
        (fun y => y.1 != k)).length ≤ l.length := by
      rw [hl, List.filter_append]
      simp only [List.length_append]
      have : ([(k, v)] : List (Nat × Nat)).filter (fun y => y.1 != k) = [] := by simp
      rw [this]
      exact Nat.le_trans (Nat.add_le_add_right (List.length_filter_le _ _) _) (by simp)
    omega
/-! ### Chains of a sound FAT -/

/-- The chain from a cluster is unique. -/
theorem chain_det {fat : Nat → Nat} : ∀ (cs1 cs2 : List Nat) (o : Nat),
    chain fat o cs1 → chain fat o cs2 → cs1 = cs2
  | [], [], _, _, _ => rfl
  | [], _ :: _, _, h1, h2 => by
    obtain ⟨_, a, b, _⟩ := h2
    exact absurd h1 (fun h => h.elim a b)
  | _ :: _, [], _, h1, h2 => by
    obtain ⟨_, a, b, _⟩ := h1
    exact absurd h2 (fun h => h.elim a b)
  | c1 :: cs1, c2 :: cs2, o, h1, h2 => by
    obtain ⟨a1, _, _, r1⟩ := h1
    obtain ⟨a2, _, _, r2⟩ := h2
    rw [a1, a2]
    rw [a1] at r1
    rw [a2] at r2
    rw [chain_det cs1 cs2 _ r1 r2]

/-- The chain from a cluster of a chain is the end of that chain. -/
theorem chain_suffix {fat : Nat → Nat} : ∀ (cs : List Nat) (o x : Nat),
    chain fat o cs → x ∈ cs → ∃ pre suf, cs = pre ++ x :: suf ∧ chain fat x (x :: suf)
  | [], _, _, _, hx => absurd hx (List.not_mem_nil _)
  | c :: t, o, x, h, hx => by
    obtain ⟨a, b1, b2, r⟩ := h
    rcases List.mem_cons.1 hx with hxc | hxt
    · refine ⟨[], t, by rw [hxc]; rfl, ?_⟩
      rw [hxc]
      exact ⟨rfl, a ▸ b1, a ▸ b2, r⟩
    · obtain ⟨pre, suf, e, hc⟩ := chain_suffix t _ x r hxt
      exact ⟨c :: pre, suf, by rw [e]; rfl, hc⟩

/-- A cluster of a chain is its first cluster or the cell of a cluster of the
chain holds it. -/
theorem chain_pred {fat : Nat → Nat} : ∀ (cs : List Nat) (o x : Nat),
    chain fat o cs → x ∈ cs → x = o ∨ ∃ z ∈ cs, fat z = x
  | [], _, _, _, hx => absurd hx (List.not_mem_nil _)
  | c :: t, o, x, h, hx => by
    obtain ⟨a, _, _, r⟩ := h
    rcases List.mem_cons.1 hx with hxc | hxt
    · exact Or.inl (hxc.trans a)
    · rcases chain_pred t _ x r hxt with h1 | ⟨z, hz, hzx⟩
      · exact Or.inr ⟨c, List.mem_cons_self _ _, h1.symm⟩
      · exact Or.inr ⟨z, List.mem_cons_of_mem _ hz, hzx⟩

/-- The cluster held by the cell of a cluster of a chain is in the chain. -/
theorem chain_next_mem {fat : Nat → Nat} (cs : List Nat) (o x : Nat)
    (h : chain fat o cs) (hx : x ∈ cs) (h1 : fat x ≠ EOC) (h2 : fat x ≠ FLK) : fat x ∈ cs := by
  obtain ⟨pre, suf, e, hc⟩ := chain_suffix cs o x h hx
  obtain ⟨_, _, _, r⟩ := hc
  cases suf with
  | nil => exact absurd r (fun hh => hh.elim h1 h2)
  | cons y t =>
    obtain ⟨a, _, _, _⟩ := r
    rw [e, a]
    simp

/-- A set of clusters closed under the links holds the whole chain of each of
its clusters. -/
theorem chain_closed {fat : Nat → Nat} (K : Nat → Prop)
    (hK : ∀ x, K x → fat x ≠ EOC → fat x ≠ FLK → K (fat x)) : ∀ (cs : List Nat) (o : Nat),
    chain fat o cs → (o ≠ EOC → o ≠ FLK → K o) → ∀ x ∈ cs, K x
  | [], _, _, _ => fun x hx => absurd hx (List.not_mem_nil _)
  | c :: t, o, h, ho => by
    obtain ⟨a, b1, b2, r⟩ := h
    have hc : K c := a ▸ ho b1 b2
    intro x hx
    rcases List.mem_cons.1 hx with hxc | hxt
    · exact hxc ▸ hc
    · exact chain_closed K hK t _ r (fun e1 e2 => hK c hc e1 e2) x hxt

/-- Two chains of a FAT in which no two cells hold the same cluster: when they
share a cluster, the first cluster of one is in the other. -/
theorem chain_merge (par : fatxpar) {fat : Nat → Nat}
    (single : ∀ a b, par.in_fat a → par.in_fat b → par.in_fat (fat a) → fat a = fat b → a = b)
    (cs2 : List Nat) (o : Nat) (h2 : chain fat o cs2) (hr2 : ∀ x ∈ cs2, par.in_fat x) :
    ∀ (cs1 : List Nat) (s x : Nat), chain fat s cs1 → (∀ y ∈ cs1, par.in_fat y) →
      x ∈ cs1 → x ∈ cs2 → s ∈ cs2 ∨ o ∈ cs1
  | [], _, _, _, _, hx, _ => absurd hx (List.not_mem_nil _)
  | c :: t, s, x, h1, hr1, hx1, hx2 => by
    obtain ⟨a, _, _, r⟩ := h1
    rcases List.mem_cons.1 hx1 with hxc | hxt
    · exact Or.inl (a ▸ hxc ▸ hx2)
    · rcases chain_merge par single cs2 o h2 hr2 t _ x r
          (fun y hy => hr1 y (List.mem_cons_of_mem _ hy)) hxt hx2 with hl | hrr
      · rcases chain_pred cs2 o _ h2 hl with e | ⟨z, hz, hzf⟩
        · cases t with
          | nil => exact absurd hxt (List.not_mem_nil _)
          | cons y t1 =>
            obtain ⟨ay, _, _, _⟩ := r
            refine Or.inr ?_
            rw [← e, ← ay]
            simp
        · have hzc : z = c :=
            single z c (hr2 z hz) (hr1 c (List.mem_cons_self _ _))
              (hzf ▸ hr2 _ hl) hzf
          exact Or.inl (a ▸ hzc ▸ hz)
      · exact Or.inr (List.mem_cons_of_mem _ hrr)

/-- In a sound FAT the chain from every cluster of the range ends: it is a list
without repetition of clusters of the range. -/
theorem chain_exists (par : fatxpar) (fat : Nat → Nat) (rank : Nat → Nat)
    (hs : fat_sound par fat rank) (h1 : 1 ≤ par.root_clus) (h32 : par.clus_fat ≤ EOC) :
    ∀ (n c : Nat), rank c ≤ n → par.in_fat c →
      ∃ cs, chain fat c cs ∧ (∀ x ∈ cs, par.in_fat x ∧ rank x ≤ rank c) ∧ cs.Nodup := by
  intro n
  induction n with
  | zero =>
    intro c hr hc
    have hcE : c ≠ EOC := by have := hc.2; omega
    have hcF : c ≠ FLK := by have := hc.1; unfold FLK; omega
    rcases hs.links c hc with hf | hf | hf
    · exact ⟨[c], ⟨rfl, hcE, hcF, Or.inr hf⟩,
        fun x hx => by rw [List.mem_singleton.1 hx]; exact ⟨hc, le_refl _⟩,
        List.nodup_singleton c⟩
    · exact ⟨[c], ⟨rfl, hcE, hcF, Or.inl hf⟩,
        fun x hx => by rw [List.mem_singleton.1 hx]; exact ⟨hc, le_refl _⟩,
        List.nodup_singleton c⟩
    · have := hs.acyclic c hc hf
      omega
  | succ n ih =>
    intro c hr hc
    have hcE : c ≠ EOC := by have := hc.2; omega
    have hcF : c ≠ FLK := by have := hc.1; unfold FLK; omega
    rcases hs.links c hc with hf | hf | hf
    · exact ⟨[c], ⟨rfl, hcE, hcF, Or.inr hf⟩,
        fun x hx => by rw [List.mem_singleton.1 hx]; exact ⟨hc, le_refl _⟩,
        List.nodup_singleton c⟩
    · exact ⟨[c], ⟨rfl, hcE, hcF, Or.inl hf⟩,
        fun x hx => by rw [List.mem_singleton.1 hx]; exact ⟨hc, le_refl _⟩,
        List.nodup_singleton c⟩
    · have hlt := hs.acyclic c hc hf
      obtain ⟨cs, hch, hin, hnd⟩ := ih (fat c) (by omega) hf
      refine ⟨c :: cs, ⟨rfl, hcE, hcF, hch⟩, ?_, ?_⟩
      · intro x hx
        rcases List.mem_cons.1 hx with hxc | hxt
        · rw [hxc]; exact ⟨hc, le_refl _⟩
        · exact ⟨(hin x hxt).1, by have := (hin x hxt).2; omega⟩
      · rw [List.nodup_cons]
        refine ⟨fun hmem => ?_, hnd⟩
        have := (hin c hmem).2
        omega

/-! ### The map `memchain` -/

/-- Looking up a key in a list of pairs with a first pair. -/
theorem lookup_cons_if (k : Nat) (b : memmap.link) (t : List (Nat × memmap.link)) (q : Nat) :
    List.lookup q ((k, b) :: t) = if q = k then some b else List.lookup q t := by
  rw [List.lookup_cons]
  by_cases h : q = k
  · rw [if_pos h, h]
    simp
  · rw [if_neg h]
    have e : (q == k) = false := by simpa using h
    rw [e]

/-- Looking up a key after the insertion of a new key. -/
theorem insert_lookup : ∀ (l : List (Nat × memmap.link)) (p q : Nat) (v : memmap.link),
    l.lookup p = none →
    (memmap.insert l p v).lookup q = if q = p then some v else l.lookup q
  | [], p, q, v, _ => by
    unfold memmap.insert
    rw [lookup_cons_if]
  | x :: t, p, q, v, h => by
    obtain ⟨k, b⟩ := x
    rw [lookup_cons_if] at h
    have hpk : ¬ p = k := by
      intro e
      rw [if_pos e] at h
      exact Option.noConfusion h
    have ht : t.lookup p = none := by
      rw [if_neg hpk] at h
      exact h
    unfold memmap.insert
    simp only
    by_cases hlt : p < k
    · rw [if_pos hlt, lookup_cons_if]
    · rw [if_neg hlt, if_neg hpk, lookup_cons_if, lookup_cons_if, insert_lookup t p q v ht]
      by_cases hqk : q = k
      · have hqp : ¬ q = p := fun e => hpk (e.symm.trans hqk)
        rw [if_pos hqk, if_neg hqp, if_pos hqk]
      · rw [if_neg hqk, if_neg hqk]

/-- Looking up a key after the update of the link of a key. -/
theorem update_lookup (f : Nat × memmap.link → memmap.link) :
    ∀ (l : List (Nat × memmap.link)) (p q : Nat),
    (l.map (fun x => if x.1 = p then (x.1, f x) else x)).lookup q =
      if q = p then (l.lookup q).map (fun b => f (q, b)) else l.lookup q
  | [], p, q => by simp
  | x :: t, p, q => by
    obtain ⟨k, b⟩ := x
    simp only [List.map_cons]
    by_cases hkp : k = p
    · rw [if_pos hkp, lookup_cons_if, lookup_cons_if, update_lookup f t p q]
      by_cases hqk : q = k
      · rw [if_pos hqk, if_pos hqk, if_pos (hqk.trans hkp)]
        simp [hqk]
      · rw [if_neg hqk, if_neg hqk]
    · rw [if_neg hkp, lookup_cons_if, lookup_cons_if, update_lookup f t p q]
      by_cases hqk : q = k
      · rw [if_pos hqk, if_pos hqk, if_neg (fun e => hkp (hqk ▸ e))]
      · rw [if_neg hqk, if_neg hqk]

/-- The overlay after `change(p, e)`: the link of `p` is marked for `e`, with
the cluster it held before or FREE when it is new; no other link changes. -/
theorem change_lookup (m : memmap) (p e q : Nat) :
    (memmap.change m p e FLK dskmap.status_t.marked).memchain.lookup q =
      (if q = p then
        some { next := match m.memchain.lookup p with
                 | some l => l.next
                 | none => FLK,
               ent := e, status := dskmap.status_t.marked }
       else m.memchain.lookup q) ∧
    (memmap.change m p e FLK dskmap.status_t.marked).d = m.d ∧
    (memmap.change m p e FLK dskmap.status_t.marked).lost = m.lost := by
  unfold memmap.change
  cases hl : m.memchain.lookup p with
  | none =>
    simp only
    rw [insert_lookup _ p q _ hl]
    exact ⟨rfl, trivial, trivial⟩
  | some l =>
    simp only
    rw [update_lookup
      (fun x => memmap.link.mk (if FLK ≠ FLK then FLK else x.2.next) e dskmap.status_t.marked)
      m.memchain p q]
    refine ⟨?_, trivial, trivial⟩
    by_cases hq : q = p
    · rw [if_pos hq, if_pos hq, hq, hl]
      simp
    · rw [if_neg hq, if_neg hq]
/-! ### The walk of `getareas` on a `memmap` -/

/-- A pass of the loop of `getareas` on END or FREE closes the open area and
ends the walk, the state left as it is. -/
theorem mstep_special (par : fatxpar) (fe : frontend)
    (lbd : Option (memmap → Nat → Nat → memmap)) (w : mwalk)
    (h : w.cur_cls = EOC ∨ w.cur_cls = FLK) :
    memmap.getareas_step par fe lbd w =
      mwalk_t.done
        (w.res ++ [area.mk w.area_off w.area_ptr w.area_siz w.area_start w.prv_cls]) w.m := by
  have hs : (decide (w.cur_cls = EOC) || decide (w.cur_cls = FLK)) = true := by
    rcases h with h | h <;> simp [h]
  unfold memmap.getareas_step
  simp only [hs, Bool.not_true, Bool.false_and, Bool.false_eq_true, if_false, if_true,
    Bool.or_true, Bool.and_false]

/-- A pass of the loop of `getareas` on a cluster that is neither END nor FREE
and not yet visited: the cell is read, the visitor called, and the open area is
closed when the cluster does not follow the one before. -/
theorem mstep_next (par : fatxpar) (fe : frontend)
    (lbd : Option (memmap → Nat → Nat → memmap)) (w : mwalk)
    (h1 : w.cur_cls ≠ EOC) (h2 : w.cur_cls ≠ FLK) (h3 : w.cur_cls ∉ w.sc) :
    ∃ w1, memmap.getareas_step par fe lbd w = mwalk_t.next w1 ∧
      w1.m = (match lbd with
        | none => w.m
        | some f => f w.m w.cur_cls (memmap.read par fe w.m w.cur_cls)) ∧
      w1.sc = w.cur_cls :: w.sc ∧ w1.cur_cls = memmap.read par fe w.m w.cur_cls ∧
      w1.prv_cls = w.cur_cls ∧
      (w1.res.runs, w1.area_start, w1.area_ptr) =
        (if w.prv_cls ≠ 0 ∧ w.prv_cls ≠ wsub w.cur_cls 1 then
          (w.res.runs ++ [(if w.area_ptr = 0 then w.cur_cls else w.area_start, w.prv_cls)],
            w.cur_cls, clsarithm.cls2ptr par w.cur_cls)
         else
          (w.res.runs, if w.area_ptr = 0 then w.cur_cls else w.area_start,
            if w.area_ptr = 0 then clsarithm.cls2ptr par w.cur_cls else w.area_ptr)) := by
  have hs : (decide (w.cur_cls = EOC) || decide (w.cur_cls = FLK)) = false := by
    simp [h1, h2]
  unfold memmap.getareas_step
  simp only [hs, h3, decide_False, Bool.and_false, Bool.false_eq_true, if_false]
  refine ⟨_, rfl, rfl, rfl, rfl, rfl, ?_⟩
  by_cases hc : w.prv_cls ≠ 0 ∧ w.prv_cls ≠ wsub w.cur_cls 1
  · rw [if_pos hc]
    simp [hc, vareas.runs]
  · rw [if_neg hc]
    have hc1 : (decide (w.prv_cls ≠ 0) && decide (w.prv_cls ≠ wsub w.cur_cls 1)) = false := by
      rw [Bool.eq_false_iff]
      intro hh
      rw [Bool.and_eq_true, decide_eq_true_eq, decide_eq_true_eq] at hh
      exact hc hh
    have hc2 : ¬ (¬ w.prv_cls = 0 ∧ ¬ w.prv_cls = wsub w.cur_cls 1) := hc
    simp [hc1]
    rw [if_neg hc2]
    exact ⟨rfl, fun a b => absurd ⟨a, b⟩ hc2, fun a b => absurd ⟨a, b⟩ hc2⟩
/-- Reading through the overlay a cluster that has no link in it gives the
cell on disk. -/
theorem mread_none (par : fatxpar) (fe : frontend) (m : memmap) (c : Nat)
    (hdl : fe.dellost = true) (h : m.memchain.lookup c = none)
    (h1 : 1 ≤ c) (h2 : c ≤ par.clus_fat) (h3 : c ≠ EOC) :
    memmap.read par fe m c = m.d.fat c := by
  unfold memmap.read
  rw [h]
  simp only [hdl, if_true]
  exact read_in_range par m.d c h1 h2 h3

/-- Reading through the overlay a cluster that has a link in it gives the
link. -/
theorem mread_some (par : fatxpar) (fe : frontend) (m : memmap) (c : Nat) (l : memmap.link)
    (h : m.memchain.lookup c = some l) : memmap.read par fe m c = l.next := by
  unfold memmap.read
  rw [h]

/-- The walk of `markchain` along a chain `cs`, on an overlay whose links are
all FREE and marked and that holds a set `K` closed under the links of the FAT:
the walk ends, leaves the FAT and the lost chains as they are, and the overlay
then holds the clusters it held and those of `cs`, all FREE and marked. -/
theorem mark_loop (par : fatxpar) (fe : frontend) (e : Nat) (hdl : fe.dellost = true)
    (d : dskmap) (K : Nat → Prop)
    (hK : ∀ x, K x → d.fat x ≠ EOC → d.fat x ≠ FLK → K (d.fat x)) :
    ∀ (cs : List Nat) (fuel : Nat) (w : mwalk),
      w.m.d = d → chain d.fat w.cur_cls cs → cs.Nodup → (∀ c ∈ cs, c ∉ w.sc) →
      (∀ c ∈ cs, 1 ≤ c ∧ c ≤ par.clus_fat) →
      (∀ q, K q → w.m.memchain.lookup q ≠ none) →
      (∀ q, w.m.memchain.lookup q ≠ none → K q ∨ q ∈ w.sc) →
      (∀ q l, w.m.memchain.lookup q = some l →
        l.next = FLK ∧ l.status = dskmap.status_t.marked) →
      cs.length + 1 ≤ fuel →
      (memmap.getareas_loop par fe (some (memmap.mark_lbd e)) fuel w).2.d = d ∧
      (memmap.getareas_loop par fe (some (memmap.mark_lbd e)) fuel w).2.lost = w.m.lost ∧
      (∀ q, (memmap.getareas_loop par fe (some (memmap.mark_lbd e)) fuel w).2.memchain.lookup q
          ≠ none ↔ w.m.memchain.lookup q ≠ none ∨ q ∈ cs) ∧
      (∀ q l, (memmap.getareas_loop par fe (some (memmap.mark_lbd e)) fuel w).2.memchain.lookup q
          = some l → l.next = FLK ∧ l.status = dskmap.status_t.marked) := by
  intro cs
  induction cs with
  | nil =>
    intro fuel w hd hc _ _ _ _ _ hQ hf
    obtain ⟨f, rfl⟩ : ∃ f, fuel = f + 1 := ⟨fuel - 1, by simp at hf; omega⟩
    have hstep := mstep_special par fe (some (memmap.mark_lbd e)) w hc
    have hloop : memmap.getareas_loop par fe (some (memmap.mark_lbd e)) (f + 1) w =
        (w.res ++ [area.mk w.area_off w.area_ptr w.area_siz w.area_start w.prv_cls], w.m) := by
      simp [memmap.getareas_loop, hstep]
    rw [hloop]
    exact ⟨hd, rfl, fun q => by simp, hQ⟩
  | cons c cs ih =>
    intro fuel w hd hc hnd hsc hr hKs hsub hQ hf
    obtain ⟨f, rfl⟩ : ∃ f, fuel = f + 1 := ⟨fuel - 1, by simp at hf; omega⟩
    obtain ⟨hcur, hE, hF, hrest⟩ := hc
    have hnot : w.cur_cls ∉ w.sc := hcur ▸ hsc c (List.mem_cons_self _ _)
    have hrc := hr c (List.mem_cons_self _ _)
    have hcE : c ≠ EOC := hcur ▸ hE
    rw [List.nodup_cons] at hnd
    obtain ⟨w1, hw1, hm1, hsc1, hcur1, _, _⟩ :=
      mstep_next par fe (some (memmap.mark_lbd e)) w hE hF hnot
    simp only [memmap.mark_lbd] at hm1
    rw [← hcur] at hm1 hcur1 hsc1
    have hch : ∀ q, w1.m.memchain.lookup q =
        if q = c then
          some { next := match w.m.memchain.lookup c with
                   | some l => l.next
                   | none => FLK,
                 ent := e, status := dskmap.status_t.marked }
        else w.m.memchain.lookup q := by
      intro q
      rw [hm1]
      exact (change_lookup w.m c e q).1
    have hd1 : w1.m.d = d := by
      rw [hm1, (change_lookup w.m c e 0).2.1]
      exact hd
    have hl1 : w1.m.lost = w.m.lost := by
      rw [hm1, (change_lookup w.m c e 0).2.2]
    have hQ1 : ∀ q l, w1.m.memchain.lookup q = some l →
        l.next = FLK ∧ l.status = dskmap.status_t.marked := by
      intro q l hql
      rw [hch q] at hql
      by_cases hqc : q = c
      · rw [if_pos hqc] at hql
        cases hlc : w.m.memchain.lookup c with
        | none =>
          rw [hlc] at hql
          rw [← Option.some.inj hql]
          exact ⟨rfl, rfl⟩
        | some l0 =>
          rw [hlc] at hql
          rw [← Option.some.inj hql]
          exact ⟨(hQ c l0 hlc).1, rfl⟩
      · rw [if_neg hqc] at hql
        exact hQ q l hql
    have hkeys1 : ∀ q, w1.m.memchain.lookup q ≠ none ↔ w.m.memchain.lookup q ≠ none ∨ q = c := by
      intro q
      rw [hch q]
      by_cases hqc : q = c
      · rw [if_pos hqc]
        simp [hqc]
      · rw [if_neg hqc]
        simp [hqc]
    have hloop : memmap.getareas_loop par fe (some (memmap.mark_lbd e)) (f + 1) w =
        memmap.getareas_loop par fe (some (memmap.mark_lbd e)) f w1 := by
      simp [memmap.getareas_loop, hw1]
    rw [hloop]
    cases hlc : w.m.memchain.lookup c with
    | some l0 =>
      have hcurF : w1.cur_cls = EOC ∨ w1.cur_cls = FLK := by
        rw [hcur1, mread_some par fe w.m c l0 hlc]
        exact Or.inr (hQ c l0 hlc).1
      obtain ⟨f1, rfl⟩ : ∃ f1, f = f1 + 1 := ⟨f - 1, by simp at hf; omega⟩
      have hstep := mstep_special par fe (some (memmap.mark_lbd e)) w1 hcurF
      have hloop1 : memmap.getareas_loop par fe (some (memmap.mark_lbd e)) (f1 + 1) w1 =
          (w1.res ++ [area.mk w1.area_off w1.area_ptr w1.area_siz w1.area_start w1.prv_cls],
            w1.m) := by
        simp [memmap.getareas_loop, hstep]
      rw [hloop1]
      have hKc : K c := by
        rcases hsub c (by rw [hlc]; exact Option.some_ne_none _) with h | h
        · exact h
        · exact absurd h (hsc c (List.mem_cons_self _ _))
      have hcsK : ∀ x ∈ cs, K x :=
        chain_closed K hK cs _ hrest (fun e1 e2 => hK c hKc e1 e2)
      refine ⟨hd1, hl1, ?_, hQ1⟩
      intro q
      rw [hkeys1 q]
      constructor
      · rintro (h | h)
        · exact Or.inl h
        · exact Or.inr (h ▸ List.mem_cons_self _ _)
      · rintro (h | h)
        · exact Or.inl h
        · rcases List.mem_cons.1 h with h | h
          · exact Or.inr h
          · exact Or.inl (hKs q (hcsK q h))
    | none =>
      have hcur1f : w1.cur_cls = d.fat c := by
        rw [hcur1, mread_none par fe w.m c hdl hlc hrc.1 hrc.2 hcE, hd]
      have hsc1f : ∀ x ∈ cs, x ∉ w1.sc := by
        intro x hx
        rw [hsc1, List.mem_cons, not_or]
        exact ⟨fun h => hnd.1 (h ▸ hx), hsc x (List.mem_cons_of_mem _ hx)⟩
      obtain ⟨i1, i2, i3, i4⟩ := ih f w1 hd1 (hcur1f ▸ hrest) hnd.2 hsc1f
        (fun x hx => hr x (List.mem_cons_of_mem _ hx))
        (fun q hq => (hkeys1 q).2 (Or.inl (hKs q hq)))
        (fun q hq => by
          rw [hsc1]
          rcases (hkeys1 q).1 hq with h | h
          · rcases hsub q h with h | h
            · exact Or.inl h
            · exact Or.inr (List.mem_cons_of_mem _ h)
          · exact Or.inr (h ▸ List.mem_cons_self _ _))
        hQ1 (by simp at hf; omega)
      refine ⟨i1, i2.trans hl1, ?_, i4⟩
      intro q
      rw [i3 q, hkeys1 q]
      constructor
      · rintro ((h | h) | h)
        · exact Or.inl h
        · exact Or.inr (h ▸ List.mem_cons_self _ _)
        · exact Or.inr (List.mem_cons_of_mem _ h)
      · rintro (h | h)
        · exact Or.inl (Or.inl h)
        · rcases List.mem_cons.1 h with h | h
          · exact Or.inl (Or.inr h)
          · exact Or.inr h
/-- The runs of an area vector with one more area. -/
theorem runs_append (v : vareas) (a : area) :
    vareas.runs (v ++ [a]) = vareas.runs v ++ [(a.start, a.stop)] := by
  simp [vareas.runs]

/-- `vareas::isin` in terms of the runs. -/
theorem isin_runs (v : vareas) (x : Nat) :
    v.isin x = true ↔ ∃ r ∈ vareas.runs v, r.1 ≤ x ∧ x ≤ r.2 := by
  unfold vareas.isin vareas.runs
  rw [List.any_eq_true]
  constructor
  · rintro ⟨a, ha, h⟩
    rw [Bool.and_eq_true, decide_eq_true_eq, decide_eq_true_eq] at h
    exact ⟨(a.start, a.stop), List.mem_map.2 ⟨a, ha, rfl⟩, h⟩
  · rintro ⟨r, hr, h⟩
    obtain ⟨a, ha, rfl⟩ := List.mem_map.1 hr
    refine ⟨a, ha, ?_⟩
    rw [Bool.and_eq_true, decide_eq_true_eq, decide_eq_true_eq]
    exact h

/-- `vareas::first` in terms of the runs. -/
theorem first_runs (v : vareas) (o : Nat)
    (h : (vareas.runs v).head?.map Prod.fst = some o) : v.first = o := by
  cases v with
  | nil => simp [vareas.runs] at h
  | cons a t =>
    simp [vareas.runs] at h
    exact h

/-- The walk of `getareas` without visitor on a `memmap`, lost chains kept,
along the rest `cs` of a chain whose clusters have no link in the overlay,
after the clusters `V`: the state is left as it is, and the runs of the areas
returned hold the clusters of `V` and `cs` and no other. -/
theorem lost_loop (par : fatxpar) (fe : frontend) (hdl : fe.dellost = true)
    (hptr : ∀ c, par.in_fat c → clsarithm.cls2ptr par c ≠ 0)
    (h1 : 1 ≤ par.root_clus) (h32 : par.clus_fat ≤ EOC) :
    ∀ (cs V : List Nat) (fuel : Nat) (w : mwalk),
      chain w.m.d.fat w.cur_cls cs → cs.Nodup → (∀ c ∈ cs, c ∉ w.sc) →
      (∀ c ∈ cs, par.in_fat c) → (∀ c ∈ cs, w.m.memchain.lookup c = none) →
      cs.length + 1 ≤ fuel → w.area_ptr ≠ 0 → w.prv_cls ≠ 0 → w.area_start ≤ w.prv_cls →
      (∀ x, (∃ r ∈ vareas.runs w.res ++ [(w.area_start, w.prv_cls)], r.1 ≤ x ∧ x ≤ r.2) ↔
        x ∈ V) →
      (memmap.getareas_loop par fe none fuel w).2 = w.m ∧
      (∀ x, (∃ r ∈ vareas.runs (memmap.getareas_loop par fe none fuel w).1,
          r.1 ≤ x ∧ x ≤ r.2) ↔ x ∈ V ++ cs) ∧
      (vareas.runs (memmap.getareas_loop par fe none fuel w).1).head?.map Prod.fst =
        (vareas.runs w.res ++ [(w.area_start, w.prv_cls)]).head?.map Prod.fst := by
  intro cs
  induction cs with
  | nil =>
    intro V fuel w hc _ _ _ _ hf _ _ _ hcov
    obtain ⟨f, rfl⟩ : ∃ f, fuel = f + 1 := ⟨fuel - 1, by simp at hf; omega⟩
    have hstep := mstep_special par fe none w hc
    have hloop : memmap.getareas_loop par fe none (f + 1) w =
        (w.res ++ [area.mk w.area_off w.area_ptr w.area_siz w.area_start w.prv_cls], w.m) := by
      simp [memmap.getareas_loop, hstep]
    rw [hloop]
    simp only [runs_append, List.append_nil]
    exact ⟨trivial, hcov, trivial⟩
  | cons c cs ih =>
    intro V fuel w hc hnd hsc hr hnone hf hptr0 hprv hle hcov
    obtain ⟨f, rfl⟩ : ∃ f, fuel = f + 1 := ⟨fuel - 1, by simp at hf; omega⟩
    obtain ⟨hcur, hE, hF, hrest⟩ := hc
    have hnot : w.cur_cls ∉ w.sc := hcur ▸ hsc c (List.mem_cons_self _ _)
    have hrc := hr c (List.mem_cons_self _ _)
    have hc1 : 1 ≤ c := le_trans h1 hrc.1
    have hc2 : c ≤ par.clus_fat := le_of_lt hrc.2
    have hcE : c ≠ EOC := hcur ▸ hE
    rw [List.nodup_cons] at hnd
    obtain ⟨w1, hw1, hm1, hsc1, hcur1, hprv1, hrun1⟩ := mstep_next par fe none w hE hF hnot
    simp only at hm1
    rw [← hcur] at hcur1 hsc1 hprv1 hrun1
    rw [if_neg hptr0, if_neg hptr0] at hrun1
    have hsub : wsub c 1 = c - 1 := by
      unfold wsub W64
      unfold EOC at h32
      have := hrc.2
      omega
    rw [hsub] at hrun1
    have hcur1f : w1.cur_cls = w.m.d.fat c := by
      rw [hcur1]
      exact mread_none par fe w.m c hdl (hnone c (List.mem_cons_self _ _)) hc1 hc2 hcE
    have hsc1f : ∀ x ∈ cs, x ∉ w1.sc := by
      intro x hx
      rw [hsc1, List.mem_cons, not_or]
      exact ⟨fun h => hnd.1 (h ▸ hx), hsc x (List.mem_cons_of_mem _ hx)⟩
    have hloop : memmap.getareas_loop par fe none (f + 1) w =
        memmap.getareas_loop par fe none f w1 := by
      simp [memmap.getareas_loop, hw1]
    have hchain1 : chain w1.m.d.fat w1.cur_cls cs := by
      rw [hm1, hcur1f]
      exact hrest
    have hnone1 : ∀ x ∈ cs, w1.m.memchain.lookup x = none := by
      intro x hx
      rw [hm1]
      exact hnone x (List.mem_cons_of_mem _ hx)
    rw [hloop]
    by_cases hcl : w.prv_cls ≠ 0 ∧ w.prv_cls ≠ c - 1
    · rw [if_pos hcl] at hrun1
      have hres1 : vareas.runs w1.res = vareas.runs w.res ++ [(w.area_start, w.prv_cls)] :=
        congrArg Prod.fst hrun1
      have hst1 : w1.area_start = c := congrArg (fun t => t.2.1) hrun1
      have hpt1 : w1.area_ptr = clsarithm.cls2ptr par c := congrArg (fun t => t.2.2) hrun1
      have hcov1 : ∀ x, (∃ r ∈ vareas.runs w1.res ++ [(w1.area_start, w1.prv_cls)],
          r.1 ≤ x ∧ x ≤ r.2) ↔ x ∈ V ++ [c] := by
        intro x
        rw [hres1, hst1, hprv1, List.mem_append, ← hcov x]
        constructor
        · rintro ⟨r, hr1, hr2⟩
          rcases List.mem_append.1 hr1 with h | h
          · exact Or.inl ⟨r, h, hr2⟩
          · rw [List.mem_singleton] at h
            rw [h] at hr2
            exact Or.inr (List.mem_singleton.2 (le_antisymm hr2.2 hr2.1))
        · rintro (⟨r, hr1, hr2⟩ | h)
          · exact ⟨r, List.mem_append_left _ hr1, hr2⟩
          · rw [List.mem_singleton] at h
            exact ⟨(c, c), List.mem_append_right _ (List.mem_singleton.2 rfl),
              by rw [h]; exact ⟨le_refl _, le_refl _⟩⟩
      obtain ⟨i1, i2, i3⟩ := ih (V ++ [c]) f w1 hchain1 hnd.2 hsc1f
        (fun x hx => hr x (List.mem_cons_of_mem _ hx)) hnone1 (by simp at hf; omega)
        (by rw [hpt1]; exact hptr c hrc) (by rw [hprv1]; omega)
        (by rw [hst1, hprv1]) hcov1
      refine ⟨i1.trans hm1, ?_, ?_⟩
      · intro x
        rw [i2 x]
        simp
      · rw [i3, hres1]
        cases vareas.runs w.res with
        | nil => rfl
        | cons a t => rfl
    · rw [if_neg hcl] at hrun1
      have hres1 : vareas.runs w1.res = vareas.runs w.res := congrArg Prod.fst hrun1
      have hst1 : w1.area_start = w.area_start := congrArg (fun t => t.2.1) hrun1
      have hpt1 : w1.area_ptr = w.area_ptr := congrArg (fun t => t.2.2) hrun1
      have hpc : w.prv_cls = c - 1 := by
        by_contra hne
        exact hcl ⟨hprv, hne⟩
      have hcov1 : ∀ x, (∃ r ∈ vareas.runs w1.res ++ [(w1.area_start, w1.prv_cls)],
          r.1 ≤ x ∧ x ≤ r.2) ↔ x ∈ V ++ [c] := by
        intro x
        rw [hres1, hst1, hprv1, List.mem_append, ← hcov x]
        constructor
        · rintro ⟨r, hr1, hr2⟩
          rcases List.mem_append.1 hr1 with h | h
          · exact Or.inl ⟨r, List.mem_append_left _ h, hr2⟩
          · rw [List.mem_singleton] at h
            rw [h] at hr2
            by_cases hxc : x = c
            · exact Or.inr (List.mem_singleton.2 hxc)
            · exact Or.inl ⟨(w.area_start, w.prv_cls),
                List.mem_append_right _ (List.mem_singleton.2 rfl),
                ⟨hr2.1, by have := hr2.2; simp only at this ⊢; omega⟩⟩
        · rintro (⟨r, hr1, hr2⟩ | h)
          · rcases List.mem_append.1 hr1 with h | h
            · exact ⟨r, List.mem_append_left _ h, hr2⟩
            · rw [List.mem_singleton] at h
              rw [h] at hr2
              exact ⟨(w.area_start, c), List.mem_append_right _ (List.mem_singleton.2 rfl),
                ⟨hr2.1, by have := hr2.2; simp only at this ⊢; omega⟩⟩
          · rw [List.mem_singleton] at h
            exact ⟨(w.area_start, c), List.mem_append_right _ (List.mem_singleton.2 rfl),
              by rw [h]; exact ⟨by simp only; omega, le_refl _⟩⟩
      obtain ⟨i1, i2, i3⟩ := ih (V ++ [c]) f w1 hchain1 hnd.2 hsc1f
        (fun x hx => hr x (List.mem_cons_of_mem _ hx)) hnone1 (by simp at hf; omega)
        (by rw [hpt1]; exact hptr0) (by rw [hprv1]; omega)
        (by rw [hst1, hprv1]; omega) hcov1
      refine ⟨i1.trans hm1, ?_, ?_⟩
      · intro x
        rw [i2 x]
        simp
      · rw [i3, hres1, hst1]
        cases vareas.runs w.res with
        | nil => rfl
        | cons a t => rfl
/-- `getareas(o)` without visitor on a `memmap`, lost chains kept, for a chain
`cs` from `o` whose clusters have no link in the overlay: the state is left as
it is, `isin` holds of the clusters of `cs` and of no other, and `first` is `o`. -/
theorem getareas_lost (par : fatxpar) (fe : frontend) (hdl : fe.dellost = true)
    (hptr : ∀ c, par.in_fat c → clsarithm.cls2ptr par c ≠ 0)
    (h1 : 1 ≤ par.root_clus) (h32 : par.clus_fat ≤ EOC) (m : memmap) (o : Nat) (cs : List Nat)
    (hc : chain m.d.fat o cs) (hne : cs ≠ []) (hnd : cs.Nodup) (hr : ∀ c ∈ cs, par.in_fat c)
    (hnone : ∀ c ∈ cs, m.memchain.lookup c = none) :
    (memmap.getareas par fe m o none).2 = m ∧
    (∀ x, (memmap.getareas par fe m o none).1.isin x = true ↔ x ∈ cs) ∧
    (memmap.getareas par fe m o none).1.first = o := by
  obtain ⟨c, t, rfl⟩ : ∃ c t, cs = c :: t := by
    cases cs with
    | nil => exact absurd rfl hne
    | cons c t => exact ⟨c, t, rfl⟩
  have hlen := nodup_range_length (c :: t) par.clus_fat hnd
    (fun x hx => ⟨le_trans h1 (hr x hx).1, le_of_lt (hr x hx).2⟩)
  obtain ⟨hcur, hE, hF, hrest⟩ := hc
  have hrc := hr c (List.mem_cons_self _ _)
  have hc1 : 1 ≤ c := le_trans h1 hrc.1
  have hc2 : c ≤ par.clus_fat := le_of_lt hrc.2
  rw [List.nodup_cons] at hnd
  have hstart : ¬ (o = EOC ∨ o = FLK) := fun h => h.elim hE hF
  unfold memmap.getareas
  rw [if_neg hstart]
  obtain ⟨w1, hw1, hm1, hsc1, hcur1, hprv1, hrun1⟩ := mstep_next par fe none
    { m := m, sc := [], res := [], area_off := 0, area_ptr := 0, area_siz := 0,
      area_start := 0, cur_cls := o, prv_cls := 0 } hE hF (List.not_mem_nil _)
  simp only at hm1 hsc1 hcur1 hprv1
  simp only [ne_eq, not_true_eq_false, false_and, if_false, if_true, vareas.runs,
    List.map_nil] at hrun1
  have hres1 : vareas.runs w1.res = [] := congrArg Prod.fst hrun1
  have hst1 : w1.area_start = o := congrArg (fun t => t.2.1) hrun1
  have hpt1 : w1.area_ptr = clsarithm.cls2ptr par o := congrArg (fun t => t.2.2) hrun1
  have hloop : memmap.getareas_loop par fe none (par.clus_fat + 2)
      { m := m, sc := [], res := [], area_off := 0, area_ptr := 0, area_siz := 0,
        area_start := 0, cur_cls := o, prv_cls := 0 } =
      memmap.getareas_loop par fe none (par.clus_fat + 1) w1 := by
    show memmap.getareas_loop par fe none ((par.clus_fat + 1) + 1) _ = _
    simp [memmap.getareas_loop, hw1]
  rw [hloop]
  have hcur1f : w1.cur_cls = m.d.fat c := by
    rw [hcur1, ← hcur]
    exact mread_none par fe m c hdl (hnone c (List.mem_cons_self _ _)) hc1 hc2 (hcur ▸ hE)
  obtain ⟨i1, i2, i3⟩ := lost_loop par fe hdl hptr h1 h32 t [o] (par.clus_fat + 1) w1
    (by rw [hm1, hcur1f]; exact hrest) hnd.2
    (fun x hx => by
      rw [hsc1, List.mem_singleton]
      exact fun h => hnd.1 (hcur ▸ h ▸ hx))
    (fun x hx => hr x (List.mem_cons_of_mem _ hx))
    (fun x hx => by rw [hm1]; exact hnone x (List.mem_cons_of_mem _ hx))
    (by simp at hlen; omega)
    (by rw [hpt1, ← hcur]; exact hptr c hrc)
    (by rw [hprv1, ← hcur]; omega)
    (by rw [hst1, hprv1])
    (fun x => by
      rw [hres1, hst1, hprv1]
      simp only [List.nil_append, List.mem_singleton]
      constructor
      · rintro ⟨r, hr1, hr2⟩
        rw [hr1] at hr2
        exact le_antisymm hr2.2 hr2.1
      · intro h
        exact ⟨(o, o), rfl, by rw [h]; exact ⟨le_refl _, le_refl _⟩⟩)
  refine ⟨i1.trans hm1, ?_, ?_⟩
  · intro x
    rw [isin_runs, i2 x, ← hcur]
    simp
  · apply first_runs
    rw [i3, hres1, hst1]
    rfl

/-- `markchain(p, e)` on an overlay whose links are all FREE and marked and
whose clusters are closed under the links of the FAT, for a chain `cs` from
`p`: the FAT and the lost chains are left as they are, and the overlay then
holds the clusters it held and those of `cs`, all FREE and marked. -/
theorem markchain_keys (par : fatxpar) (fe : frontend) (m : memmap) (p e : Nat) (cs : List Nat)
    (hc : chain m.d.fat p cs) (hnd : cs.Nodup) (hr : ∀ c ∈ cs, 1 ≤ c ∧ c ≤ par.clus_fat)
    (hK : ∀ x, m.memchain.lookup x ≠ none → m.d.fat x ≠ EOC → m.d.fat x ≠ FLK →
      m.memchain.lookup (m.d.fat x) ≠ none)
    (hQ : ∀ q l, m.memchain.lookup q = some l →
      l.next = FLK ∧ l.status = dskmap.status_t.marked) :
    (memmap.markchain par fe m p e).2.d = m.d ∧
    (memmap.markchain par fe m p e).2.lost = m.lost ∧
    (∀ q, (memmap.markchain par fe m p e).2.memchain.lookup q ≠ none ↔
      m.memchain.lookup q ≠ none ∨ q ∈ cs) ∧
    (∀ q l, (memmap.markchain par fe m p e).2.memchain.lookup q = some l →
      l.next = FLK ∧ l.status = dskmap.status_t.marked) := by
  unfold memmap.markchain memmap.getareas
  by_cases hp : p = EOC ∨ p = FLK
  · rw [if_pos hp]
    cases cs with
    | nil => exact ⟨rfl, rfl, fun q => by simp, hQ⟩
    | cons c t =>
      obtain ⟨_, a, b, _⟩ := hc
      exact absurd hp (fun h => h.elim a b)
  · rw [if_neg hp]
    have hlen := nodup_range_length cs par.clus_fat hnd hr
    exact mark_loop par { fe with dellost := true } e rfl m.d
      (fun q => m.memchain.lookup q ≠ none) hK cs (par.clus_fat + 2)
      { m := m, sc := [], res := [], area_off := 0, area_ptr := 0, area_siz := 0,
        area_start := 0, cur_cls := p, prv_cls := 0 }
      rfl hc hnd (fun _ _ => List.not_mem_nil _) hr (fun _ h => h) (fun _ h => Or.inl h) hQ
      (by omega)
/-! ### Labelling the chains of the entries -/

/-- The clusters of a chain of a sound FAT whose first cell is not FREE have a
cell that is not FREE. -/
theorem chain_not_free (par : fatxpar) (fat : Nat → Nat) (rank : Nat → Nat)
    (hs : fat_sound par fat rank) (cs : List Nat) (o : Nat) (hc : chain fat o cs)
    (hr : ∀ x ∈ cs, par.in_fat x) (ho : fat o ≠ FLK) : ∀ x ∈ cs, fat x ≠ FLK := by
  intro x hx
  rcases chain_pred cs o x hc hx with h | ⟨z, hz, hzx⟩
  · rw [h]
    exact ho
  · rw [← hzx]
    exact hs.ends z (hr z hz) (hzx ▸ hr x hx)

/-- `markchain` on the chain of a cluster of `H` keeps the overlay sound and
adds the clusters of the chain to it. -/
theorem markchain_ok (par : fatxpar) (fe : frontend) (d : dskmap) (H : Nat → Prop)
    (rank : Nat → Nat) (hs : fat_sound par d.fat rank) (h1 : 1 ≤ par.root_clus)
    (h32 : par.clus_fat ≤ EOC) (m : memmap) (p e : Nat) (hm : overlay_ok par d H m)
    (hp : par.in_fat p) (hpH : H p) (hpf : d.fat p ≠ FLK) :
    overlay_ok par d H (memmap.markchain par fe m p e).2 ∧
    (memmap.markchain par fe m p e).2.lost = m.lost ∧
    (∀ q, m.memchain.lookup q ≠ none →
      (memmap.markchain par fe m p e).2.memchain.lookup q ≠ none) ∧
    (∀ cs, chain d.fat p cs →
      ∀ x ∈ cs, (memmap.markchain par fe m p e).2.memchain.lookup x ≠ none) := by
  obtain ⟨cs, hc, hin, hnd⟩ := chain_exists par d.fat rank hs h1 h32 (rank p) p (le_refl _) hp
  have hr : ∀ c ∈ cs, 1 ≤ c ∧ c ≤ par.clus_fat :=
    fun c hcm => ⟨le_trans h1 (hin c hcm).1.1, le_of_lt (hin c hcm).1.2⟩
  have hmd := hm.disk
  obtain ⟨k1, k2, k3, k4⟩ := markchain_keys par fe m p e cs (by rw [hmd]; exact hc) hnd hr
    (by rw [hmd]; exact hm.closed) hm.marked
  have hnf := chain_not_free par d.fat rank hs cs p hc (fun x hx => (hin x hx).1) hpf
  refine ⟨⟨k1.trans hmd, k4, ?_, ?_, ?_⟩, k2, fun q hq => (k3 q).2 (Or.inl hq), ?_⟩
  · intro q hq
    rcases (k3 q).1 hq with h | h
    · exact hm.range q h
    · exact ⟨(hin q h).1, hnf q h⟩
  · intro q hq e1 e2
    rcases (k3 q).1 hq with h | h
    · exact (k3 _).2 (Or.inl (hm.closed q h e1 e2))
    · exact (k3 _).2 (Or.inr (chain_next_mem cs p q hc h e1 e2))
  · intro q hq
    rcases (k3 q).1 hq with h | h
    · rcases hm.origin q h with h2 | ⟨z, hz, hzq⟩
      · exact Or.inl h2
      · exact Or.inr ⟨z, (k3 z).2 (Or.inl hz), hzq⟩
    · rcases chain_pred cs p q hc h with h2 | ⟨z, hz, hzq⟩
      · exact Or.inl (h2 ▸ hpH)
      · exact Or.inr ⟨z, (k3 z).2 (Or.inr hz), hzq⟩
  · intro cs1 hc1 x hx
    rw [chain_det cs1 cs p hc1 hc] at hx
    exact (k3 x).2 (Or.inr hx)

/-- `markchain` run for each entry of a list keeps the overlay sound, keeps the
lost chains as they are, and the overlay then holds the chain of each entry. -/
theorem markall_ok (par : fatxpar) (fe : frontend) (d : dskmap) (H : Nat → Prop)
    (rank : Nat → Nat) (hs : fat_sound par d.fat rank) (h1 : 1 ≤ par.root_clus)
    (h32 : par.clus_fat ≤ EOC) :
    ∀ (heads : List (Nat × Nat)) (m : memmap), overlay_ok par d H m →
      (∀ h ∈ heads, par.in_fat h.1 ∧ H h.1 ∧ d.fat h.1 ≠ FLK) →
      overlay_ok par d H (memmap.markall par fe m heads) ∧
      (memmap.markall par fe m heads).lost = m.lost ∧
      (∀ q, m.memchain.lookup q ≠ none →
        (memmap.markall par fe m heads).memchain.lookup q ≠ none) ∧
      (∀ h ∈ heads, ∀ cs, chain d.fat h.1 cs →
        ∀ x ∈ cs, (memmap.markall par fe m heads).memchain.lookup x ≠ none)
  | [], m, hm, _ => ⟨hm, rfl, fun _ h => h, fun _ hh => absurd hh (List.not_mem_nil _)⟩
  | h :: t, m, hm, hh => by
    obtain ⟨a1, a2, a3⟩ := hh h (List.mem_cons_self _ _)
    obtain ⟨b1, b2, b3, b4⟩ := markchain_ok par fe d H rank hs h1 h32 m h.1 h.2 hm a1 a2 a3
    obtain ⟨c1, c2, c3, c4⟩ := markall_ok par fe d H rank hs h1 h32 t
      (memmap.markchain par fe m h.1 h.2).2 b1 (fun x hx => hh x (List.mem_cons_of_mem _ hx))
    have e : memmap.markall par fe m (h :: t) =
        memmap.markall par fe (memmap.markchain par fe m h.1 h.2).2 t := rfl
    rw [e]
    refine ⟨c1, c2.trans b2, fun q hq => c3 q (b3 q hq), ?_⟩
    intro x hx cs hc y hy
    rcases List.mem_cons.1 hx with hxh | hxt
    · rw [hxh] at hc
      exact c3 y (b4 cs hc y hy)
    · exact c4 x hxt cs hc y hy
/-! ### Collecting the lost chains -/

/-- Under a sound overlay whose chains start at clusters that no cell holds, the
cell of a cluster without link in the overlay holds no cluster of the overlay. -/
theorem unmarked_link (par : fatxpar) (d : dskmap) (H : Nat → Prop) (rank : Nat → Nat)
    (hs : fat_sound par d.fat rank) (m : memmap) (hm : overlay_ok par d H m)
    (hH : ∀ q, H q → ∀ c, par.in_fat c → d.fat c ≠ q) (z : Nat) (hz : par.in_fat z)
    (hzn : m.memchain.lookup z = none) : m.memchain.lookup (d.fat z) = none := by
  by_contra h
  rcases hm.origin _ h with h2 | ⟨y, hy, hyz⟩
  · exact hH _ h2 z hz rfl
  · have hyz1 : y = z :=
      hs.single y z (hm.range y hy).1 hz (hyz ▸ (hm.range _ h).1) hyz
    exact hy (hyz1 ▸ hzn)

/-- Under such an overlay the chain from a cluster without link in the overlay
holds no cluster of the overlay. -/
theorem unmarked_chain (par : fatxpar) (d : dskmap) (H : Nat → Prop) (rank : Nat → Nat)
    (hs : fat_sound par d.fat rank) (m : memmap) (hm : overlay_ok par d H m)
    (hH : ∀ q, H q → ∀ c, par.in_fat c → d.fat c ≠ q) (cs : List Nat) (o : Nat)
    (hc : chain d.fat o cs) (ho : par.in_fat o) (hon : m.memchain.lookup o = none) :
    ∀ x ∈ cs, m.memchain.lookup x = none := by
  have hcl := chain_closed (fun x => par.in_fat x ∧ m.memchain.lookup x = none)
    (fun x hx e1 e2 => by
      rcases hs.links x hx.1 with h | h | h
      · exact absurd h e2
      · exact absurd h e1
      · exact ⟨h, unmarked_link par d H rank hs m hm hH x hx.1 hx.2⟩)
    cs o hc (fun _ _ => ⟨ho, hon⟩)
  exact fun x hx => (hcl x hx).2

/-- In a list of pairwise disjoint sets at most one holds a given element. -/
theorem filter_le_one (p : vareas → Bool) : ∀ (l : List vareas),
    l.Pairwise (fun A B => ¬ (p A = true ∧ p B = true)) → (l.filter p).length ≤ 1
  | [], _ => by simp
  | a :: t, h => by
    rw [List.pairwise_cons] at h
    by_cases hp : p a = true
    · rw [List.filter_cons_of_pos hp]
      have : t.filter p = [] := by
        rw [List.filter_eq_nil_iff]
        intro b hb hpb
        exact h.1 b hb ⟨hp, hpb⟩
      rw [this]
      simp
    · rw [List.filter_cons_of_neg hp]
      exact filter_le_one p t h.2

/-- One call of the visitor of `fatlost`, on the cluster `c` with its cell,
keeps the lost chains found so far sound: each is a lost chain of the FAT, no
two share a cluster, and every cluster up to `c` that has no link in the
overlay and a cell that is not FREE is in one of them. -/
theorem fatlost_visit_ok (par : fatxpar) (fe : frontend) (hdl : fe.dellost = true)
    (hptr : ∀ c, par.in_fat c → clsarithm.cls2ptr par c ≠ 0)
    (h1 : 1 ≤ par.root_clus) (h32 : par.clus_fat ≤ EOC)
    (d : dskmap) (H : Nat → Prop) (rank : Nat → Nat)
    (hs : fat_sound par d.fat rank) (m : memmap) (hm : overlay_ok par d H m)
    (hH : ∀ q, H q → ∀ c, par.in_fat c → d.fat c ≠ q)
    (M : memmap) (c : Nat) (hc : par.in_fat c)
    (hMd : M.d = d) (hMc : M.memchain = m.memchain)
    (j1 : ∀ L ∈ M.lost, lost_chain par d m L)
    (j2 : M.lost.Pairwise (fun A B => ∀ x, ¬ (A.isin x = true ∧ B.isin x = true)))
    (j3 : ∀ x, par.root_clus ≤ x → x < c → d.fat x ≠ FLK → m.memchain.lookup x = none →
      ∃ L ∈ M.lost, L.isin x = true) :
    (memmap.fatlost_visit par fe M c (d.fat c)).d = d ∧
    (memmap.fatlost_visit par fe M c (d.fat c)).memchain = m.memchain ∧
    (∀ L ∈ (memmap.fatlost_visit par fe M c (d.fat c)).lost, lost_chain par d m L) ∧
    (memmap.fatlost_visit par fe M c (d.fat c)).lost.Pairwise
      (fun A B => ∀ x, ¬ (A.isin x = true ∧ B.isin x = true)) ∧
    (∀ x, par.root_clus ≤ x → x < c + 1 → d.fat x ≠ FLK → m.memchain.lookup x = none →
      ∃ L ∈ (memmap.fatlost_visit par fe M c (d.fat c)).lost, L.isin x = true) := by
  have hstat : memmap.status M c = dskmap.status_t.disk → m.memchain.lookup c = none := by
    intro h
    unfold memmap.status at h
    rw [hMc] at h
    cases hl : m.memchain.lookup c with
    | none => rfl
    | some l =>
      rw [hl] at h
      simp only at h
      rw [(hm.marked c l hl).2] at h
      exact absurd h (by decide)
  have hstat2 : m.memchain.lookup c = none → memmap.status M c = dskmap.status_t.disk := by
    intro h
    unfold memmap.status
    rw [hMc, h]
  unfold memmap.fatlost_visit
  by_cases hcond : d.fat c ≠ FLK ∧ memmap.status M c = dskmap.status_t.disk ∧
      M.lost.any (fun i => i.isin c) = false
  · rw [if_pos hcond]
    obtain ⟨hcf, hcs, hany⟩ := hcond
    have hcn := hstat hcs
    obtain ⟨cs, hch, hin, hnd⟩ :=
      chain_exists par d.fat rank hs h1 h32 (rank c) c (le_refl _) hc
    have hr : ∀ x ∈ cs, par.in_fat x := fun x hx => (hin x hx).1
    have hccs : c ∈ cs := by
      cases cs with
      | nil =>
        have hcE : c ≠ EOC := by have := hc.2; omega
        have hcF : c ≠ FLK := by have := hc.1; unfold FLK; omega
        exact absurd hch (fun h => h.elim hcE hcF)
      | cons y t =>
        obtain ⟨a, _, _, _⟩ := hch
        rw [a]
        exact List.mem_cons_self _ _
    have hnone := unmarked_chain par d H rank hs m hm hH cs c hch hc hcn
    have hnf := chain_not_free par d.fat rank hs cs c hch hr hcf
    obtain ⟨g1, g2, g3⟩ := getareas_lost par fe hdl hptr h1 h32 M c cs (by rw [hMd]; exact hch)
      (List.ne_nil_of_mem hccs) hnd hr (fun x hx => by rw [hMc]; exact hnone x hx)
    simp only
    rw [g1]
    have hva : lost_chain par d m (memmap.getareas par fe M c none).1 :=
      ⟨cs, by rw [g3]; exact hch, g2, by rw [g3]; exact hccs,
        fun x hx => ⟨hr x hx, hnone x hx, hnf x hx⟩⟩
    refine ⟨hMd, hMc, ?_, ?_, ?_⟩
    · intro L hL
      rcases List.mem_append.1 hL with h | h
      · exact j1 L (List.mem_filter.1 h).1
      · rw [List.mem_singleton.1 h]
        exact hva
    · rw [List.pairwise_append]
      refine ⟨List.Pairwise.filter _ j2, List.pairwise_singleton _ _, ?_⟩
      intro A hA B hB x hx
      rw [List.mem_singleton.1 hB] at hx
      obtain ⟨hA1, hA2⟩ := List.mem_filter.1 hA
      obtain ⟨csA, hcA, hiA, _, hpA⟩ := j1 A hA1
      have hx1 : x ∈ csA := (hiA x).1 hx.1
      have hx2 : x ∈ cs := (g2 x).1 hx.2
      rcases chain_merge par hs.single cs c hch hr csA A.first x hcA
          (fun y hy => (hpA y hy).1) hx1 hx2 with h | h
      · have := (g2 A.first).2 h
        rw [this] at hA2
        exact absurd hA2 (by decide)
      · have hAc : A.isin c = true := (hiA c).2 h
        have : M.lost.any (fun i => i.isin c) = true :=
          List.any_eq_true.2 ⟨A, hA1, hAc⟩
        rw [this] at hany
        exact absurd hany (by decide)
    · intro x hx1 hx2 hxf hxn
      by_cases hxc : x = c
      · exact ⟨_, List.mem_append_right _ (List.mem_singleton.2 rfl), by
          rw [hxc]; exact (g2 c).2 hccs⟩
      · obtain ⟨L, hL, hLx⟩ := j3 x hx1 (by omega) hxf hxn
        by_cases hLf : (memmap.getareas par fe M c none).1.isin L.first = true
        · obtain ⟨csL, hcL, hiL, _, _⟩ := j1 L hL
          have hfcs : L.first ∈ cs := (g2 _).1 hLf
          obtain ⟨pre, suf, e, hsf⟩ := chain_suffix cs c L.first hch hfcs
          have e2 : csL = L.first :: suf := chain_det _ _ _ hcL hsf
          have hxcs : x ∈ cs := by
            rw [e]
            apply List.mem_append_right
            rw [← e2]
            exact (hiL x).1 hLx
          exact ⟨_, List.mem_append_right _ (List.mem_singleton.2 rfl), (g2 x).2 hxcs⟩
        · exact ⟨L, List.mem_append_left _ (List.mem_filter.2 ⟨hL, by simpa using hLf⟩), hLx⟩
  · rw [if_neg hcond]
    refine ⟨hMd, hMc, j1, j2, ?_⟩
    intro x hx1 hx2 hxf hxn
    by_cases hxc : x = c
    · rw [hxc] at hxf hxn
      have hany : M.lost.any (fun i => i.isin c) = true := by
        by_contra hne
        exact hcond ⟨hxf, hstat2 hxn, by simpa using hne⟩
      obtain ⟨L, hL, hLc⟩ := List.any_eq_true.1 hany
      exact ⟨L, hL, hxc ▸ hLc⟩
    · exact j3 x hx1 (by omega) hxf hxn
/-- The scan of `fatlost` over the clusters from `root_clus` on keeps the lost
chains found so far sound. -/
theorem fatlost_scan_ok (par : fatxpar) (fe : frontend) (hdl : fe.dellost = true)
    (hptr : ∀ c, par.in_fat c → clsarithm.cls2ptr par c ≠ 0)
    (h1 : 1 ≤ par.root_clus) (h32 : par.clus_fat ≤ EOC)
    (d : dskmap) (H : Nat → Prop) (rank : Nat → Nat)
    (hs : fat_sound par d.fat rank) (m : memmap) (hm : overlay_ok par d H m)
    (hH : ∀ q, H q → ∀ c, par.in_fat c → d.fat c ≠ q) :
    ∀ n, par.root_clus + n ≤ par.clus_fat →
      (scan d.fat (memmap.fatlost_visit par fe) par.root_clus n { m with lost := [] }).d = d ∧
      (scan d.fat (memmap.fatlost_visit par fe) par.root_clus n
        { m with lost := [] }).memchain = m.memchain ∧
      (∀ L ∈ (scan d.fat (memmap.fatlost_visit par fe) par.root_clus n
        { m with lost := [] }).lost, lost_chain par d m L) ∧
      (scan d.fat (memmap.fatlost_visit par fe) par.root_clus n
        { m with lost := [] }).lost.Pairwise
          (fun A B => ∀ x, ¬ (A.isin x = true ∧ B.isin x = true)) ∧
      (∀ x, par.root_clus ≤ x → x < par.root_clus + n → d.fat x ≠ FLK →
        m.memchain.lookup x = none →
        ∃ L ∈ (scan d.fat (memmap.fatlost_visit par fe) par.root_clus n
          { m with lost := [] }).lost, L.isin x = true) := by
  intro n
  induction n with
  | zero =>
    intro _
    refine ⟨hm.disk, rfl, ?_, ?_, ?_⟩
    · intro L hL
      exact absurd hL (List.not_mem_nil _)
    · exact List.Pairwise.nil
    · intro x hx1 hx2
      omega
  | succ n ih =>
    intro hn
    obtain ⟨i1, i2, i3, i4, i5⟩ := ih (by omega)
    rw [scan_succ]
    exact fatlost_visit_ok par fe hdl hptr h1 h32 d H rank hs m hm hH _ (par.root_clus + n)
      ⟨by omega, by omega⟩ i1 i2 i3 i4 i5

/-- After `markchain` for each entry of a list and `fatlost`, on a sound FAT
and from an empty overlay: the FAT is as before, the chains of the entries are
marked, the lost vectors are lost chains of the FAT, and every cluster of the
range is marked, or in one lost chain, or has a FREE cell, and one of these
only. -/
theorem fatlost_partition_all (par : fatxpar) (fe : frontend) (m0 : memmap)
    (heads : List (Nat × Nat)) (rank : Nat → Nat) (hdl : fe.dellost = true)
    (hscan : par.scan_ok) (h32 : par.clus_fat ≤ EOC)
    (hptr : ∀ c, par.in_fat c → clsarithm.cls2ptr par c ≠ 0)
    (hm0 : m0.memchain = []) (hs : fat_sound par m0.d.fat rank)
    (hh : ∀ h ∈ heads, par.in_fat h.1 ∧ m0.d.fat h.1 ≠ FLK ∧
      ∀ c, par.in_fat c → m0.d.fat c ≠ h.1) :
    (memmap.fatlost par fe (memmap.markall par fe m0 heads)).d = m0.d ∧
    (∀ h ∈ heads, ∀ cs, chain m0.d.fat h.1 cs → ∀ c ∈ cs,
      memmap.status (memmap.fatlost par fe (memmap.markall par fe m0 heads)) c =
        dskmap.status_t.marked) ∧
    (∀ L ∈ (memmap.fatlost par fe (memmap.markall par fe m0 heads)).lost,
      ∃ cs, chain m0.d.fat L.first cs ∧ ∀ x, L.isin x = true ↔ x ∈ cs) ∧
    (∀ c, par.in_fat c →
      (memmap.status (memmap.fatlost par fe (memmap.markall par fe m0 heads)) c =
          dskmap.status_t.marked ∧
        (memmap.fatlost par fe (memmap.markall par fe m0 heads)).lost.filter
          (fun L => L.isin c) = [] ∧
        m0.d.fat c ≠ FLK) ∨
      (memmap.status (memmap.fatlost par fe (memmap.markall par fe m0 heads)) c =
          dskmap.status_t.disk ∧
        ((memmap.fatlost par fe (memmap.markall par fe m0 heads)).lost.filter
          (fun L => L.isin c)).length = 1 ∧
        m0.d.fat c ≠ FLK) ∨
      (memmap.status (memmap.fatlost par fe (memmap.markall par fe m0 heads)) c =
          dskmap.status_t.disk ∧
        (memmap.fatlost par fe (memmap.markall par fe m0 heads)).lost.filter
          (fun L => L.isin c) = [] ∧
        m0.d.fat c = FLK)) := by
  have h1 := hscan.root_pos
  have hm0ok : overlay_ok par m0.d (fun q => ∃ h ∈ heads, h.1 = q) m0 :=
    ⟨rfl, fun q l h => by rw [hm0] at h; simp at h,
      fun q h => by rw [hm0] at h; simp at h,
      fun q h => by rw [hm0] at h; simp at h,
      fun q h => by rw [hm0] at h; simp at h⟩
  obtain ⟨a1, _, _, a4⟩ := markall_ok par fe m0.d (fun q => ∃ h ∈ heads, h.1 = q) rank hs h1 h32
    heads m0 hm0ok (fun h hm => ⟨(hh h hm).1, ⟨h, hm, rfl⟩, (hh h hm).2.1⟩)
  have hH : ∀ q, (∃ h ∈ heads, h.1 = q) → ∀ c, par.in_fat c → m0.d.fat c ≠ q := by
    rintro q ⟨h, hm, rfl⟩
    exact (hh h hm).2.2
  have hfl : memmap.fatlost par fe (memmap.markall par fe m0 heads) =
      scan m0.d.fat (memmap.fatlost_visit par fe) par.root_clus
        (par.clus_fat - par.root_clus) { memmap.markall par fe m0 heads with lost := [] } := by
    unfold memmap.fatlost
    rw [forfat_eq_scan par _ _ _ hscan]
    simp only [a1.disk]
  obtain ⟨b1, b2, b3, b4, b5⟩ := fatlost_scan_ok par fe hdl hptr h1 h32 m0.d
    (fun q => ∃ h ∈ heads, h.1 = q) rank hs (memmap.markall par fe m0 heads) a1 hH
    (par.clus_fat - par.root_clus) (by have := hscan.root_le; omega)
  rw [← hfl] at b1 b2 b3 b4 b5
  have hst : ∀ c, memmap.status (memmap.fatlost par fe (memmap.markall par fe m0 heads)) c =
      match (memmap.markall par fe m0 heads).memchain.lookup c with
      | none => dskmap.status_t.disk
      | some l => l.status := by
    intro c
    unfold memmap.status
    rw [b2]
  refine ⟨b1, ?_, ?_, ?_⟩
  · intro h hm cs hc c hcm
    have := a4 h hm cs hc c hcm
    rw [hst c]
    cases hl : (memmap.markall par fe m0 heads).memchain.lookup c with
    | none => exact absurd hl this
    | some l => exact (a1.marked c l hl).2
  · intro L hL
    obtain ⟨cs, k1, k2, _, _⟩ := b3 L hL
    exact ⟨cs, k1, k2⟩
  · intro c hc
    have hnot : ∀ L ∈ (memmap.fatlost par fe (memmap.markall par fe m0 heads)).lost,
        L.isin c = true → (memmap.markall par fe m0 heads).memchain.lookup c = none ∧
          m0.d.fat c ≠ FLK := by
      intro L hL hLc
      obtain ⟨cs, _, k2, _, k4⟩ := b3 L hL
      exact (k4 c ((k2 c).1 hLc)).2
    cases hl : (memmap.markall par fe m0 heads).memchain.lookup c with
    | some l =>
      refine Or.inl ⟨by rw [hst c, hl]; exact (a1.marked c l hl).2, ?_,
        (a1.range c (by rw [hl]; exact Option.some_ne_none _)).2⟩
      rw [List.filter_eq_nil_iff]
      intro L hL hLc
      have := (hnot L hL hLc).1
      rw [hl] at this
      exact Option.noConfusion this
    | none =>
      by_cases hf : m0.d.fat c = FLK
      · refine Or.inr (Or.inr ⟨by rw [hst c, hl], ?_, hf⟩)
        rw [List.filter_eq_nil_iff]
        intro L hL hLc
        exact (hnot L hL hLc).2 hf
      · refine Or.inr (Or.inl ⟨by rw [hst c, hl], ?_, hf⟩)
        obtain ⟨L, hL, hLc⟩ := b5 c hc.1 (by have := hc.2; omega) hf hl
        have hle := filter_le_one (fun L => L.isin c)
          (memmap.fatlost par fe (memmap.markall par fe m0 heads)).lost
          (List.Pairwise.imp (fun hab => hab c) b4)
        have hpos : 0 < ((memmap.fatlost par fe (memmap.markall par fe m0 heads)).lost.filter
            (fun L => L.isin c)).length :=
          List.length_pos_of_mem (List.mem_filter.2 ⟨hL, hLc⟩)
        omega
/-! ### The areas built by the walk of `getareas` -/

/-- A pass of the loop of `getareas` on a cluster that is neither END nor FREE
and not yet visited, with what it does to the areas. -/
theorem getareas_step_build (par : fatxpar) (fe : frontend)
    (lbd : Option (dskmap → Nat → Nat → dskmap)) (w : walk)
    (h1 : w.cur_cls ≠ EOC) (h2 : w.cur_cls ≠ FLK) (h3 : w.cur_cls ∉ w.sc) :
    ∃ w1, dskmap.getareas_step par fe lbd w = walk_t.next w1 ∧
      w1.d = (match lbd with
        | none => w.d
        | some f => f w.d w.cur_cls (dskmap.read par w.d w.cur_cls)) ∧
      w1.sc = w.cur_cls :: w.sc ∧ w1.cur_cls = dskmap.read par w.d w.cur_cls ∧
      w1.build = abuild.pass par w.build w.cur_cls := by
  have hs : (decide (w.cur_cls = EOC) || decide (w.cur_cls = FLK)) = false := by
    simp [h1, h2]
  unfold dskmap.getareas_step
  simp only [hs, h3, decide_False, Bool.and_false, Bool.false_eq_true, if_false]
  refine ⟨_, rfl, rfl, rfl, rfl, ?_⟩
  unfold abuild.pass walk.build
  by_cases hc : w.prv_cls ≠ 0 ∧ w.prv_cls ≠ wsub w.cur_cls 1
  · have hc1 : (decide (w.prv_cls ≠ 0) && decide (w.prv_cls ≠ wsub w.cur_cls 1)) = true := by
      rw [Bool.and_eq_true, decide_eq_true_eq, decide_eq_true_eq]
      exact hc
    rw [if_pos hc]
    simp only [hc1, Bool.or_false, Bool.not_false, Bool.and_true, if_true, Bool.true_and,
      decide_eq_true_eq]
  · have hc1 : (decide (w.prv_cls ≠ 0) && decide (w.prv_cls ≠ wsub w.cur_cls 1)) = false := by
      rw [Bool.eq_false_iff]
      intro hh
      rw [Bool.and_eq_true, decide_eq_true_eq, decide_eq_true_eq] at hh
      exact hc hh
    rw [if_neg hc]
    simp only [hc1, Bool.or_false, Bool.false_and, Bool.false_eq_true, if_false,
      Bool.not_false, Bool.true_and, decide_eq_true_eq]

/-- A pass of the loop of `getareas` on END or FREE closes the area being built
and ends the walk. -/
theorem getareas_step_close (par : fatxpar) (fe : frontend)
    (lbd : Option (dskmap → Nat → Nat → dskmap)) (w : walk)
    (h : w.cur_cls = EOC ∨ w.cur_cls = FLK) :
    dskmap.getareas_step par fe lbd w = walk_t.done (abuild.close w.build) w.d := by
  have hs : (decide (w.cur_cls = EOC) || decide (w.cur_cls = FLK)) = true := by
    rcases h with h | h <;> simp [h]
  unfold dskmap.getareas_step abuild.close walk.build
  simp only [hs, Bool.not_true, Bool.false_and, Bool.false_eq_true, if_false, if_true,
    Bool.or_true, Bool.and_false]

/-- A pass of the loop of `getareas` on a `memmap`, on a cluster that is neither
END nor FREE and not yet visited, with what it does to the areas. -/
theorem mstep_build (par : fatxpar) (fe : frontend)
    (lbd : Option (memmap → Nat → Nat → memmap)) (w : mwalk)
    (h1 : w.cur_cls ≠ EOC) (h2 : w.cur_cls ≠ FLK) (h3 : w.cur_cls ∉ w.sc) :
    ∃ w1, memmap.getareas_step par fe lbd w = mwalk_t.next w1 ∧
      w1.m = (match lbd with
        | none => w.m
        | some f => f w.m w.cur_cls (memmap.read par fe w.m w.cur_cls)) ∧
      w1.sc = w.cur_cls :: w.sc ∧ w1.cur_cls = memmap.read par fe w.m w.cur_cls ∧
      w1.build = abuild.pass par w.build w.cur_cls := by
  have hs : (decide (w.cur_cls = EOC) || decide (w.cur_cls = FLK)) = false := by
    simp [h1, h2]
  unfold memmap.getareas_step
  simp only [hs, h3, decide_False, Bool.and_false, Bool.false_eq_true, if_false]
  refine ⟨_, rfl, rfl, rfl, rfl, ?_⟩
  unfold abuild.pass mwalk.build
  by_cases hc : w.prv_cls ≠ 0 ∧ w.prv_cls ≠ wsub w.cur_cls 1
  · have hc1 : (decide (w.prv_cls ≠ 0) && decide (w.prv_cls ≠ wsub w.cur_cls 1)) = true := by
      rw [Bool.and_eq_true, decide_eq_true_eq, decide_eq_true_eq]
      exact hc
    rw [if_pos hc]
    simp only [hc1, Bool.or_false, Bool.not_false, Bool.and_true, if_true, Bool.true_and,
      decide_eq_true_eq]
  · have hc1 : (decide (w.prv_cls ≠ 0) && decide (w.prv_cls ≠ wsub w.cur_cls 1)) = false := by
      rw [Bool.eq_false_iff]
      intro hh
      rw [Bool.and_eq_true, decide_eq_true_eq, decide_eq_true_eq] at hh
      exact hc hh
    rw [if_neg hc]
    simp only [hc1, Bool.or_false, Bool.false_and, Bool.false_eq_true, if_false,
      Bool.not_false, Bool.true_and, decide_eq_true_eq]

/-- A pass of the loop of `getareas` on a `memmap`, on END or FREE, closes the
area being built and ends the walk. -/
theorem mstep_close (par : fatxpar) (fe : frontend)
    (lbd : Option (memmap → Nat → Nat → memmap)) (w : mwalk)
    (h : w.cur_cls = EOC ∨ w.cur_cls = FLK) :
    memmap.getareas_step par fe lbd w = mwalk_t.done (abuild.close w.build) w.m := by
  have hs : (decide (w.cur_cls = EOC) || decide (w.cur_cls = FLK)) = true := by
    rcases h with h | h <;> simp [h]
  unfold memmap.getareas_step abuild.close mwalk.build
  simp only [hs, Bool.not_true, Bool.false_and, Bool.false_eq_true, if_false, if_true,
    Bool.or_true, Bool.and_false]
/-- The areas of a vector with one more area follow one another when those of
the vector do and the offset of the new area is the sum of the sizes. -/
theorem offsets_append : ∀ (v : vareas) (x : area) (o : Nat),
    vareas.offsets_from (v ++ [x]) o ↔
      vareas.offsets_from v o ∧ x.offset = o + vareas.bytes v
  | [], x, o => by simp [vareas.offsets_from, vareas.bytes]
  | a :: t, x, o => by
    show a.offset = o ∧ vareas.offsets_from (t ++ [x]) (o + a.size) ↔
      (a.offset = o ∧ vareas.offsets_from t (o + a.size)) ∧ x.offset = o + vareas.bytes (a :: t)
    rw [offsets_append t x (o + a.size)]
    have hb : vareas.bytes (a :: t) = a.size + vareas.bytes t := by
      simp [vareas.bytes]
    rw [hb]
    constructor
    · rintro ⟨h1, h2, h3⟩
      exact ⟨⟨h1, h2⟩, by rw [h3]; omega⟩
    · rintro ⟨⟨h1, h2⟩, h3⟩
      exact ⟨h1, h2, by rw [h3]; omega⟩

/-- The sum of the sizes of a vector with one more area. -/
theorem bytes_append (v : vareas) (x : area) :
    vareas.bytes (v ++ [x]) = vareas.bytes v + x.size := by
  simp [vareas.bytes]

/-- The clusters of a vector with one more area. -/
theorem clusters_append (v : vareas) (x : area) :
    vareas.clusters (v ++ [x]) = vareas.clusters v ++ List.range' x.start x.cls := by
  simp [vareas.clusters]

/-- The pointer of a cluster of the range is not null. -/
theorem cls2ptr_ne_zero (par : fatxpar) (hg : par.areas_ok) (c : Nat)
    (h1 : par.root_clus ≤ c) (h2 : c ≤ par.clus_fat) : clsarithm.cls2ptr par c ≠ 0 := by
  have g1 := hg.root_pos
  have g3 := hg.start_pos
  have g4 := hg.no_wrap
  have hsub : wsub c 1 = c - 1 := by
    unfold wsub W64
    have := hg.fat_le
    unfold EOC at this
    omega
  unfold clsarithm.cls2ptr
  rw [if_neg (by omega), hsub]
  have hle : (c - 1) * par.clus_size ≤ par.clus_fat * par.clus_size :=
    Nat.mul_le_mul_right _ (by omega)
  unfold W64
  rw [Nat.mod_eq_of_lt (by omega)]
  omega

/-- The first pass of the loop of `getareas`, on a cluster of the range. -/
theorem pass_init (par : fatxpar) (hg : par.areas_ok) (c : Nat)
    (h1 : par.root_clus ≤ c) (h2 : c ≤ par.clus_fat) :
    abuild.ok par [c] (abuild.pass par abuild.init c) := by
  have g1 := hg.root_pos
  have g4 := hg.no_wrap
  have hcs : par.clus_size < 2 ^ 64 := by
    have : 1 * par.clus_size ≤ par.clus_fat * par.clus_size :=
      Nat.mul_le_mul_right _ (by omega)
    omega
  have hp : abuild.pass par abuild.init c =
      { res := [], area_off := 0, area_ptr := clsarithm.cls2ptr par c,
        area_siz := par.clus_size, area_start := c, prv_cls := c } := by
    unfold abuild.pass abuild.init
    simp only [ne_eq, not_true_eq_false, false_and, if_false, if_true]
    congr 1
    unfold wadd W64
    rw [Nat.zero_add]
    exact Nat.mod_eq_of_lt hcs
  rw [hp]
  exact
    { wf := fun x hx => absurd hx (List.not_mem_nil _)
      offs := trivial
      off := rfl
      ptr := rfl
      ptr_ne := cls2ptr_ne_zero par hg c h1 h2
      prv_ne := by show c ≠ 0; omega
      le := le_refl _
      prv_le := h2
      siz := by show par.clus_size = (c - c + 1) * par.clus_size; simp
      total := by show 0 + par.clus_size = [c].length * par.clus_size; simp
      clus := by show vareas.clusters [] ++ List.range' c (c - c + 1) = [c]; simp [vareas.clusters] }

/-- A later pass of the loop of `getareas`, on a cluster of the range. -/
theorem pass_ok (par : fatxpar) (hg : par.areas_ok) (V : List Nat) (a : abuild) (c : Nat)
    (ha : abuild.ok par V a) (h1 : par.root_clus ≤ c) (h2 : c ≤ par.clus_fat)
    (hV : V.length + 1 ≤ par.clus_fat) :
    abuild.ok par (V ++ [c]) (abuild.pass par a c) := by
  have g1 := hg.root_pos
  have g2 := hg.fat_le
  have g4 := hg.no_wrap
  unfold EOC at g2
  have hsub : wsub c 1 = c - 1 := by
    unfold wsub W64
    omega
  have htot : (V.length + 1) * par.clus_size ≤ par.clus_fat * par.clus_size :=
    Nat.mul_le_mul_right _ hV
  have htot2 : (V.length + 1) * par.clus_size = V.length * par.clus_size + par.clus_size := by
    rw [Nat.add_mul, Nat.one_mul]
  have hT := ha.total
  have hwadd : wadd a.area_siz par.clus_size = a.area_siz + par.clus_size := by
    unfold wadd W64
    exact Nat.mod_eq_of_lt (by omega)
  have hwsub : wsub (a.area_siz + par.clus_size) par.clus_size = a.area_siz := by
    unfold wsub W64
    have e : par.clus_size % 2 ^ 64 = par.clus_size := Nat.mod_eq_of_lt (by omega)
    rw [e]
    have e2 : a.area_siz + par.clus_size + 2 ^ 64 - par.clus_size = a.area_siz + 2 ^ 64 := by
      omega
    rw [e2, Nat.add_mod_right]
    exact Nat.mod_eq_of_lt (by omega)
  have hoff : wadd a.area_off a.area_siz = a.area_off + a.area_siz := by
    unfold wadd W64
    exact Nat.mod_eq_of_lt (by omega)
  have hcls : wadd (wsub a.prv_cls a.area_start) 1 = a.prv_cls - a.area_start + 1 := by
    have hle := ha.le
    have hpl := ha.prv_le
    unfold wadd wsub W64
    have e : a.area_start % 2 ^ 64 = a.area_start := Nat.mod_eq_of_lt (by omega)
    rw [e]
    have e2 : a.prv_cls + 2 ^ 64 - a.area_start = (a.prv_cls - a.area_start) + 2 ^ 64 := by
      omega
    rw [e2, Nat.add_mod_right, Nat.mod_eq_of_lt (by omega), Nat.mod_eq_of_lt (by omega)]
  unfold abuild.pass
  simp only [if_neg ha.ptr_ne, hsub, hwadd, hwsub, hoff]
  by_cases hc : a.prv_cls ≠ 0 ∧ a.prv_cls ≠ c - 1
  · rw [if_pos hc]
    exact
      { wf := by
          intro x hx
          rcases List.mem_append.1 hx with h | h
          · exact ha.wf x h
          · rw [List.mem_singleton.1 h]
            exact ⟨⟨ha.le, ha.siz, ha.ptr⟩, ha.prv_le⟩
        offs := by
          rw [offsets_append]
          exact ⟨ha.offs, by simp only; rw [ha.off]; omega⟩
        off := by
          show a.area_off + a.area_siz = _
          rw [bytes_append, ha.off]
        ptr := rfl
        ptr_ne := cls2ptr_ne_zero par hg c h1 h2
        prv_ne := by show c ≠ 0; omega
        le := le_refl _
        prv_le := h2
        siz := by show par.clus_size = (c - c + 1) * par.clus_size; simp
        total := by
          show a.area_off + a.area_siz + par.clus_size = (V ++ [c]).length * par.clus_size
          rw [List.length_append, List.length_singleton]
          omega
        clus := by
          show vareas.clusters (a.res ++ _) ++ List.range' c (c - c + 1) = V ++ [c]
          rw [clusters_append]
          simp only [area.cls, hcls, Nat.sub_self, Nat.zero_add, List.range'_one]
          rw [ha.clus] }
  · rw [if_neg hc]
    have hpc : a.prv_cls = c - 1 := by
      by_contra hne
      exact hc ⟨ha.prv_ne, hne⟩
    have hle := ha.le
    exact
      { wf := ha.wf
        offs := ha.offs
        off := ha.off
        ptr := ha.ptr
        ptr_ne := ha.ptr_ne
        prv_ne := by show c ≠ 0; omega
        le := by show a.area_start ≤ c; omega
        prv_le := h2
        siz := by
          show a.area_siz + par.clus_size = (c - a.area_start + 1) * par.clus_size
          rw [ha.siz]
          have e : c - a.area_start + 1 = (a.prv_cls - a.area_start + 1) + 1 := by omega
          rw [e, Nat.add_mul (a.prv_cls - a.area_start + 1) 1, Nat.one_mul]
        total := by
          show a.area_off + (a.area_siz + par.clus_size) = (V ++ [c]).length * par.clus_size
          rw [List.length_append, List.length_singleton]
          omega
        clus := by
          show vareas.clusters a.res ++ List.range' a.area_start (c - a.area_start + 1) = V ++ [c]
          have e : c - a.area_start + 1 = (a.prv_cls - a.area_start + 1) + 1 := by omega
          have hne := ha.prv_ne
          have e3 : a.area_start + 1 * (a.prv_cls - a.area_start + 1) = c := by omega
          rw [e, List.range'_concat, ← List.append_assoc, ha.clus, e3] }

/-- The areas returned when the loop ends on END or FREE are well formed, follow
one another and hold the clusters visited in their order. -/
theorem close_ok (par : fatxpar) (hg : par.areas_ok) (V : List Nat) (a : abuild)
    (ha : abuild.ok par V a) :
    (∀ x ∈ abuild.close a, area.wf par x) ∧ vareas.offsets_from (abuild.close a) 0 ∧
    vareas.clusters (abuild.close a) = V := by
  have g2 := hg.fat_le
  unfold EOC at g2
  have hcls : wadd (wsub a.prv_cls a.area_start) 1 = a.prv_cls - a.area_start + 1 := by
    have hle := ha.le
    have hpl := ha.prv_le
    unfold wadd wsub W64
    have e : a.area_start % 2 ^ 64 = a.area_start := Nat.mod_eq_of_lt (by omega)
    rw [e]
    have e2 : a.prv_cls + 2 ^ 64 - a.area_start = (a.prv_cls - a.area_start) + 2 ^ 64 := by
      omega
    rw [e2, Nat.add_mod_right, Nat.mod_eq_of_lt (by omega), Nat.mod_eq_of_lt (by omega)]
  unfold abuild.close
  refine ⟨?_, ?_, ?_⟩
  · intro x hx
    rcases List.mem_append.1 hx with h | h
    · exact (ha.wf x h).1
    · rw [List.mem_singleton.1 h]
      exact ⟨ha.le, ha.siz, ha.ptr⟩
  · rw [offsets_append]
    exact ⟨ha.offs, by simp only; rw [ha.off]; omega⟩
  · rw [clusters_append]
    simp only [area.cls, hcls]
    exact ha.clus

/-- The passes of the loop of `getareas` on a list of distinct clusters of the
range. -/
theorem fold_ok (par : fatxpar) (hg : par.areas_ok) : ∀ (cs V : List Nat) (a : abuild),
    abuild.ok par V a → (∀ c ∈ cs, par.root_clus ≤ c ∧ c ≤ par.clus_fat) →
    V.length + cs.length ≤ par.clus_fat →
    abuild.ok par (V ++ cs) (cs.foldl (abuild.pass par) a)
  | [], V, a, ha, _, _ => by
    rw [List.append_nil]
    exact ha
  | c :: t, V, a, ha, hr, hl => by
    have hc := hr c (List.mem_cons_self _ _)
    simp only [List.length_cons] at hl
    have h1 := pass_ok par hg V a c ha hc.1 hc.2 (by omega)
    have h2 := fold_ok par hg t (V ++ [c]) (abuild.pass par a c) h1
      (fun x hx => hr x (List.mem_cons_of_mem _ hx))
      (by rw [List.length_append, List.length_singleton]; omega)
    rw [List.append_assoc] at h2
    exact h2

/-- In a vector whose areas follow one another, the file offset of each area is
the offset of the first one plus the sizes of the areas before it. -/
theorem offsets_take : ∀ (v : vareas) (o i : Nat) (a : area),
    vareas.offsets_from v o → v[i]? = some a → a.offset = o + vareas.bytes (v.take i)
  | [], _, _, _, _, h => by simp at h
  | x :: t, o, 0, a, ho, h => by
    simp only [List.getElem?_cons_zero, Option.some.injEq] at h
    rw [← h, ho.1]
    simp [vareas.bytes]
  | x :: t, o, i + 1, a, ho, h => by
    simp only [List.getElem?_cons_succ] at h
    rw [offsets_take t (o + x.size) i a ho.2 h]
    simp only [List.take_succ_cons, vareas.bytes, List.map_cons, List.sum_cons]
    omega
/-! ### The walk of `getareas` ends -/

/-- Reading a cluster outside `[1, clus_fat]` gives FREE. -/
theorem read_out_of_range (par : fatxpar) (d : dskmap) (c : Nat)
    (h : c < 1 ∨ par.clus_fat < c) : dskmap.read par d c = FLK := by
  unfold dskmap.read
  by_cases h0 : c = FLK ∨ c = EOC
  · rw [if_pos h0]
    rfl
  · rw [if_neg h0, if_pos (by omega)]
    rfl

/-- The loop of `getareas` ends within the passes that the clusters not yet
visited allow, whatever the visitor does to the cells: the clusters visited are
distinct and all but the last one lie in `[1, clus_fat]`. -/
theorem visits_ends (par : fatxpar) (fe : frontend)
    (lbd : Option (dskmap → Nat → Nat → dskmap)) : ∀ (n : Nat) (w : walk),
    w.sc.Nodup → (∀ x ∈ w.sc.tail, 1 ≤ x ∧ x ≤ par.clus_fat) →
    (w.cur_cls ≠ FLK → ∀ x ∈ w.sc, 1 ≤ x ∧ x ≤ par.clus_fat) →
    (w.cur_cls ≠ FLK → par.clus_fat + 2 ≤ n + w.sc.length) → (w.cur_cls = FLK → 1 ≤ n) →
    ∃ vs, dskmap.getareas_visits par fe lbd n w = some vs ∧ vs.Nodup ∧
      vs.length ≤ par.clus_fat + 1 ∧ (∀ x ∈ vs.dropLast, 1 ≤ x ∧ x ≤ par.clus_fat)
  | 0, w, hnd, _, hr, hf, hz => by
    by_cases h0 : w.cur_cls = FLK
    · have := hz h0
      omega
    · have h1 := hf h0
      have h2 := nodup_range_length w.sc par.clus_fat hnd (hr h0)
      omega
  | n + 1, w, hnd, ht, hr, hf, hz => by
    have hdone : (∃ res d, dskmap.getareas_step par fe lbd w = walk_t.done res d) →
        ∃ vs, dskmap.getareas_visits par fe lbd (n + 1) w = some vs ∧ vs.Nodup ∧
          vs.length ≤ par.clus_fat + 1 ∧ (∀ x ∈ vs.dropLast, 1 ≤ x ∧ x ≤ par.clus_fat) := by
      rintro ⟨res, d, hs⟩
      refine ⟨w.sc.reverse, ?_, List.nodup_reverse.2 hnd, ?_, ?_⟩
      · unfold dskmap.getareas_visits
        rw [hs]
      · rw [List.length_reverse]
        cases hsc : w.sc with
        | nil => simp
        | cons a t =>
          rw [hsc] at hnd ht
          have := nodup_range_length t par.clus_fat (List.nodup_cons.1 hnd).2 ht
          simp only [List.length_cons]
          omega
      · intro x hx
        rw [List.dropLast_reverse] at hx
        exact ht x (List.mem_reverse.1 hx)
    by_cases hsp : w.cur_cls = EOC ∨ w.cur_cls = FLK
    · obtain ⟨res, hs⟩ := getareas_step_special par fe lbd w hsp
      exact hdone ⟨res, w.d, hs⟩
    · have h1 : w.cur_cls ≠ EOC := fun h => hsp (Or.inl h)
      have h2 : w.cur_cls ≠ FLK := fun h => hsp (Or.inr h)
      by_cases h3 : w.cur_cls ∈ w.sc
      · exact hdone ⟨_, _, getareas_step_cycle par fe lbd w h1 h2 h3⟩
      · obtain ⟨w1, hs, _, hsc, hcur, _⟩ := getareas_step_next par fe lbd w h1 h2 h3
        have hall := hr h2
        have hlen := nodup_range_length w.sc par.clus_fat hnd hall
        have hfu := hf h2
        have ih := visits_ends par fe lbd n w1
          (by rw [hsc]; exact List.nodup_cons.2 ⟨h3, hnd⟩)
          (by rw [hsc]; exact hall)
          (by
            intro hne x hx
            rw [hsc] at hx
            rcases List.mem_cons.1 hx with h | h
            · rw [h]
              by_contra hout
              exact hne (by rw [hcur]; exact read_out_of_range par w.d w.cur_cls (by omega))
            · exact hall x h)
          (by
            intro _
            rw [hsc, List.length_cons]
            omega)
          (by
            intro _
            omega)
        obtain ⟨vs, hv, hrest⟩ := ih
        refine ⟨vs, ?_, hrest⟩
        unfold dskmap.getareas_visits
        rw [hs]
        exact hv

/-- Once the loop of `getareas` has ended, more passes allowed change
nothing. -/
theorem visits_fuel (par : fatxpar) (fe : frontend)
    (lbd : Option (dskmap → Nat → Nat → dskmap)) : ∀ (n : Nat) (w : walk) (vs : List Nat),
    dskmap.getareas_visits par fe lbd n w = some vs → ∀ k,
      dskmap.getareas_visits par fe lbd (n + k) w = some vs ∧
      dskmap.getareas_loop par fe lbd (n + k) w = dskmap.getareas_loop par fe lbd n w
  | 0, w, vs, h, _ => by
    unfold dskmap.getareas_visits at h
    exact absurd h (by simp)
  | n + 1, w, vs, h, k => by
    have e : n + 1 + k = (n + k) + 1 := by omega
    rw [e]
    unfold dskmap.getareas_visits dskmap.getareas_loop
    unfold dskmap.getareas_visits at h
    cases hs : dskmap.getareas_step par fe lbd w with
    | done res d =>
      rw [hs] at h
      exact ⟨h, rfl⟩
    | next w1 =>
      rw [hs] at h
      exact visits_fuel par fe lbd n w1 vs h k

/-- The loop of `getareas` from any first cluster ends within `clus_fat + 2`
passes. -/
theorem getareas_ends (par : fatxpar) (fe : frontend) (d : dskmap) (orig : Nat)
    (lbd : Option (dskmap → Nat → Nat → dskmap)) :
    ∃ vs, dskmap.getareas_visits par fe lbd (par.clus_fat + 2)
        { d := d, sc := [], res := [], area_off := 0, area_ptr := 0, area_siz := 0,
          area_start := 0, cur_cls := orig, prv_cls := 0 } = some vs ∧
      vs.Nodup ∧ vs.length ≤ par.clus_fat + 1 ∧
      (∀ x ∈ vs.dropLast, 1 ≤ x ∧ x ≤ par.clus_fat) ∧
      ∀ k, dskmap.getareas_loop par fe lbd (par.clus_fat + 2 + k)
          { d := d, sc := [], res := [], area_off := 0, area_ptr := 0, area_siz := 0,
            area_start := 0, cur_cls := orig, prv_cls := 0 } =
        dskmap.getareas_loop par fe lbd (par.clus_fat + 2)
          { d := d, sc := [], res := [], area_off := 0, area_ptr := 0, area_siz := 0,
            area_start := 0, cur_cls := orig, prv_cls := 0 } := by
  obtain ⟨vs, hv, h1, h2, h3⟩ := visits_ends par fe lbd (par.clus_fat + 2)
    { d := d, sc := [], res := [], area_off := 0, area_ptr := 0, area_siz := 0,
      area_start := 0, cur_cls := orig, prv_cls := 0 }
    List.nodup_nil (fun x hx => absurd hx (List.not_mem_nil _))
    (fun _ x hx => absurd hx (List.not_mem_nil _))
    (fun _ => by simp) (fun _ => by omega)
  exact ⟨vs, hv, h1, h2, h3, fun k => (visits_fuel par fe lbd _ _ vs hv k).2⟩
/-! ### The areas of `getareas` on the cells -/

/-- The clusters of a chain are distinct: a chain that came back to one of its
clusters would not end. -/
theorem chain_nodup {fat : Nat → Nat} : ∀ (cs : List Nat) (o : Nat),
    chain fat o cs → cs.Nodup
  | [], _, _ => List.nodup_nil
  | c :: t, o, h => by
    have ht : t.Nodup := chain_nodup t _ h.2.2.2
    refine List.nodup_cons.2 ⟨?_, ht⟩
    intro hct
    obtain ⟨pre, suf, e, hc⟩ := chain_suffix (c :: t) o c h (List.mem_cons_of_mem _ hct)
    have h1 : chain fat c (c :: t) := ⟨rfl, h.1 ▸ h.2.1, h.1 ▸ h.2.2.1, h.2.2.2⟩
    have e2 := chain_det (c :: t) (c :: suf) c h1 hc
    have hlen := congrArg List.length e
    have hlen2 := congrArg List.length e2
    rw [List.length_append] at hlen
    simp only [List.length_cons] at hlen hlen2
    have hpre : pre = [] := List.length_eq_zero.1 (by omega)
    rw [hpre, List.nil_append] at e
    have hsuf : t = suf := (List.cons.inj e).2
    obtain ⟨pre2, suf2, e3, hc2⟩ := chain_suffix t _ c h.2.2.2 hct
    have e4 := chain_det (c :: t) (c :: suf2) c h1 hc2
    have hlen3 := congrArg List.length e3
    have hlen4 := congrArg List.length e4
    rw [List.length_append] at hlen3
    simp only [List.length_cons] at hlen3 hlen4
    omega

/-- The walk of `getareas` without visitor along a chain `cs`: with enough
passes allowed, the areas are those the passes on the clusters of `cs` build,
closed at the end, and the cells are not touched. -/
theorem getareas_loop_build (par : fatxpar) (fe : frontend) :
    ∀ (cs : List Nat) (fuel : Nat) (w : walk),
      chain w.d.fat w.cur_cls cs → cs.Nodup → (∀ c ∈ cs, c ∉ w.sc) →
      (∀ c ∈ cs, 1 ≤ c ∧ c ≤ par.clus_fat) → cs.length + 1 ≤ fuel →
      dskmap.getareas_loop par fe none fuel w =
        (abuild.close (cs.foldl (abuild.pass par) w.build), w.d) := by
  intro cs
  induction cs with
  | nil =>
    intro fuel w hc _ _ _ hf
    obtain ⟨f, rfl⟩ : ∃ f, fuel = f + 1 := ⟨fuel - 1, by simp at hf; omega⟩
    have hs := getareas_step_close par fe none w hc
    unfold dskmap.getareas_loop
    rw [hs]
    rfl
  | cons c cs ih =>
    intro fuel w hc hnd hsc hr hf
    obtain ⟨f, rfl⟩ : ∃ f, fuel = f + 1 := ⟨fuel - 1, by simp at hf; omega⟩
    obtain ⟨hcur, hE, hF, hrest⟩ := hc
    have hnot : w.cur_cls ∉ w.sc := hcur ▸ hsc c (List.mem_cons_self _ _)
    have hrc := hr c (List.mem_cons_self _ _)
    have hcE : c ≠ EOC := hcur ▸ hE
    rw [List.nodup_cons] at hnd
    obtain ⟨w1, hw1, hd1, hsc1, hcur1, hb1⟩ := getareas_step_build par fe none w hE hF hnot
    have hd1f : w1.d = w.d := hd1
    have hcur1f : w1.cur_cls = w.d.fat c := by
      rw [hcur1, ← hcur]
      exact read_in_range par w.d c hrc.1 hrc.2 hcE
    have hchain : chain w1.d.fat w1.cur_cls cs := by
      rw [hcur1f, hd1f]
      exact hrest
    have hsc1f : ∀ x ∈ cs, x ∉ w1.sc := by
      intro x hx
      rw [hsc1, List.mem_cons, not_or, ← hcur]
      exact ⟨fun h => hnd.1 (h ▸ hx), hsc x (List.mem_cons_of_mem _ hx)⟩
    have hloop : dskmap.getareas_loop par fe none (f + 1) w =
        dskmap.getareas_loop par fe none f w1 := by
      simp [dskmap.getareas_loop, hw1]
    rw [hloop, ih f w1 hchain hnd.2 hsc1f
      (fun x hx => hr x (List.mem_cons_of_mem _ hx)) (by simp at hf; omega), hb1, hd1f,
      List.foldl_cons, hcur]

/-- The areas that the loop of `getareas` without visitor returns are well
formed and follow one another, however the loop ends (on END or FREE, on a
cluster already visited, or after the passes allowed), on a FAT whose cells
hold only FREE, END or clusters of the range. -/
theorem getareas_loop_wf (par : fatxpar) (fe : frontend) (hg : par.areas_ok) :
    ∀ (fuel : Nat) (w : walk),
      (∀ c, par.in_fat c → w.d.fat c = FLK ∨ w.d.fat c = EOC ∨ par.in_fat (w.d.fat c)) →
      w.sc.Nodup → (∀ x ∈ w.sc, par.in_fat x) →
      ((w.sc = [] ∧ w.build = abuild.init ∧ par.in_fat w.cur_cls) ∨
        (abuild.ok par w.sc.reverse w.build ∧
          (w.cur_cls = FLK ∨ w.cur_cls = EOC ∨ par.in_fat w.cur_cls))) →
      (∀ x ∈ (dskmap.getareas_loop par fe none fuel w).1, area.wf par x) ∧
      vareas.offsets_from (dskmap.getareas_loop par fe none fuel w).1 0
  | 0, w, _, _, _, hb => by
    unfold dskmap.getareas_loop
    have e : w.res = w.build.res := rfl
    rcases hb with ⟨_, hi, _⟩ | ⟨hok, _⟩
    · simp only [e, hi, abuild.init]
      exact ⟨fun x hx => absurd hx (List.not_mem_nil _), trivial⟩
    · simp only [e]
      exact ⟨fun x hx => (hok.wf x hx).1, hok.offs⟩
  | fuel + 1, w, hcells, hnd, hr, hb => by
    have g1 := hg.root_pos
    have g2 := hg.fat_le
    by_cases hsp : w.cur_cls = EOC ∨ w.cur_cls = FLK
    · have hs := getareas_step_close par fe none w hsp
      unfold dskmap.getareas_loop
      rw [hs]
      rcases hb with ⟨_, _, hin⟩ | ⟨hok, _⟩
      · exfalso
        have a := hin.1
        have b := hin.2
        unfold EOC FLK at hsp
        unfold EOC at g2
        omega
      · have := close_ok par hg _ _ hok
        exact ⟨this.1, this.2.1⟩
    · have h1 : w.cur_cls ≠ EOC := fun h => hsp (Or.inl h)
      have h2 : w.cur_cls ≠ FLK := fun h => hsp (Or.inr h)
      have hin : par.in_fat w.cur_cls := by
        rcases hb with ⟨_, _, hin⟩ | ⟨_, hc⟩
        · exact hin
        · rcases hc with hc | hc | hc
          · exact absurd hc h2
          · exact absurd hc h1
          · exact hc
      by_cases h3 : w.cur_cls ∈ w.sc
      · have hs := getareas_step_cycle par fe none w h1 h2 h3
        unfold dskmap.getareas_loop
        rw [hs]
        have e : w.res = w.build.res := rfl
        rcases hb with ⟨hsc, _, _⟩ | ⟨hok, _⟩
        · rw [hsc] at h3
          exact absurd h3 (List.not_mem_nil _)
        · simp only [e]
          exact ⟨fun x hx => (hok.wf x hx).1, hok.offs⟩
      · obtain ⟨w1, hw1, hd1, hsc1, hcur1, hb1⟩ := getareas_step_build par fe none w h1 h2 h3
        have hd1f : w1.d = w.d := hd1
        have hloop : dskmap.getareas_loop par fe none (fuel + 1) w =
            dskmap.getareas_loop par fe none fuel w1 := by
          simp [dskmap.getareas_loop, hw1]
        have hnd1 : w1.sc.Nodup := by
          rw [hsc1]
          exact List.nodup_cons.2 ⟨h3, hnd⟩
        have hr1 : ∀ x ∈ w1.sc, par.in_fat x := by
          intro x hx
          rw [hsc1] at hx
          rcases List.mem_cons.1 hx with h | h
          · rw [h]
            exact hin
          · exact hr x h
        have hlen : w1.sc.length ≤ par.clus_fat :=
          nodup_range_length w1.sc par.clus_fat hnd1
            (fun x hx => ⟨by have := (hr1 x hx).1; omega, Nat.le_of_lt (hr1 x hx).2⟩)
        have hcur1f : w1.cur_cls = w.d.fat w.cur_cls := by
          rw [hcur1]
          exact read_in_range par w.d w.cur_cls (by have := hin.1; omega) (Nat.le_of_lt hin.2) h1
        have hok1 : abuild.ok par w1.sc.reverse w1.build := by
          rw [hb1, hsc1, List.reverse_cons]
          rcases hb with ⟨hsc, hi, _⟩ | ⟨hok, _⟩
          · rw [hsc, hi]
            exact pass_init par hg w.cur_cls hin.1 (Nat.le_of_lt hin.2)
          · refine pass_ok par hg _ _ _ hok hin.1 (Nat.le_of_lt hin.2) ?_
            rw [hsc1, List.length_cons] at hlen
            rw [List.length_reverse]
            exact hlen
        rw [hloop]
        refine getareas_loop_wf par fe hg fuel w1 (by rw [hd1f]; exact hcells) hnd1 hr1
          (Or.inr ⟨hok1, ?_⟩)
        rw [hcur1f]
        exact hcells w.cur_cls hin

/-- The areas of `getareas` without visitor, on a FAT whose cells hold only
FREE, END or clusters of the range and from a cluster of the range: every area
is well formed, the areas follow one another from the file offset 0, and when
the chain ends the areas hold its clusters in their order. -/
theorem getareas_areas (par : fatxpar) (fe : frontend) (hg : par.areas_ok) (d : dskmap)
    (orig : Nat)
    (hcells : ∀ c, par.in_fat c → d.fat c = FLK ∨ d.fat c = EOC ∨ par.in_fat (d.fat c))
    (ho : par.in_fat orig) :
    (∀ x ∈ (dskmap.getareas par fe d orig none).1, area.wf par x) ∧
    vareas.offsets_from (dskmap.getareas par fe d orig none).1 0 ∧
    (∀ cs, chain d.fat orig cs →
      vareas.clusters (dskmap.getareas par fe d orig none).1 = cs) := by
  have g1 := hg.root_pos
  have g2 := hg.fat_le
  have hns : ¬ (orig = EOC ∨ orig = FLK) := by
    have a := ho.1
    have b := ho.2
    unfold EOC FLK
    unfold EOC at g2
    omega
  have hdef : dskmap.getareas par fe d orig none =
      dskmap.getareas_loop par fe none (par.clus_fat + 2)
        { d := d, sc := [], res := [], area_off := 0, area_ptr := 0, area_siz := 0,
          area_start := 0, cur_cls := orig, prv_cls := 0 } := by
    unfold dskmap.getareas
    rw [if_neg hns]
  rw [hdef]
  have hwf := getareas_loop_wf par fe hg (par.clus_fat + 2)
    { d := d, sc := [], res := [], area_off := 0, area_ptr := 0, area_siz := 0,
      area_start := 0, cur_cls := orig, prv_cls := 0 }
    hcells List.nodup_nil (fun x hx => absurd hx (List.not_mem_nil _))
    (Or.inl ⟨rfl, rfl, ho⟩)
  refine ⟨hwf.1, hwf.2, ?_⟩
  · intro cs hc
    have hnd := chain_nodup cs orig hc
    have hr : ∀ x ∈ cs, par.in_fat x :=
      chain_closed (fun x => par.in_fat x)
        (fun x hx h1 h2 => by
          rcases hcells x hx with h | h | h
          · exact absurd h h2
          · exact absurd h h1
          · exact h)
        cs orig hc (fun _ _ => ho)
    have hr1 : ∀ x ∈ cs, 1 ≤ x ∧ x ≤ par.clus_fat :=
      fun x hx => ⟨by have := (hr x hx).1; omega, Nat.le_of_lt (hr x hx).2⟩
    have hlen := nodup_range_length cs par.clus_fat hnd hr1
    rw [getareas_loop_build par fe cs (par.clus_fat + 2) _ hc hnd
      (fun c _ hx => absurd hx (List.not_mem_nil _)) hr1 (by omega)]
    cases cs with
    | nil => exact absurd hc hns
    | cons c t =>
      have hp := pass_init par hg c (hr c (List.mem_cons_self _ _)).1
        (Nat.le_of_lt (hr c (List.mem_cons_self _ _)).2)
      have hf := fold_ok par hg t [c] _ hp
        (fun x hx => ⟨(hr x (List.mem_cons_of_mem _ hx)).1,
          Nat.le_of_lt (hr x (List.mem_cons_of_mem _ hx)).2⟩)
        (by simp only [List.length_cons, List.length_nil] at hlen ⊢; omega)
      exact (close_ok par hg _ _ hf).2.2
/-! ### The walk of `markchain` along a chain that is not in the overlay -/

/-- The walk of `markchain` along a chain `cs` none of whose clusters has a link
in the overlay: with enough passes allowed, the areas are those the passes on
the clusters of `cs` build, the FAT and the lost chains are left as they are,
each cluster of `cs` gets the link (FREE, `e`, marked), and the links of the
other clusters are kept. -/
theorem mark_loop_fresh (par : fatxpar) (fe : frontend) (e : Nat) (hdl : fe.dellost = true)
    (d : dskmap) :
    ∀ (cs : List Nat) (fuel : Nat) (w : mwalk),
      w.m.d = d → chain d.fat w.cur_cls cs → cs.Nodup → (∀ c ∈ cs, c ∉ w.sc) →
      (∀ c ∈ cs, 1 ≤ c ∧ c ≤ par.clus_fat) →
      (∀ c ∈ cs, w.m.memchain.lookup c = none) →
      cs.length + 1 ≤ fuel →
      (memmap.getareas_loop par fe (some (memmap.mark_lbd e)) fuel w).1 =
        abuild.close (cs.foldl (abuild.pass par) w.build) ∧
      (memmap.getareas_loop par fe (some (memmap.mark_lbd e)) fuel w).2.d = d ∧
      (memmap.getareas_loop par fe (some (memmap.mark_lbd e)) fuel w).2.lost = w.m.lost ∧
      (∀ q, (memmap.getareas_loop par fe (some (memmap.mark_lbd e)) fuel w).2.memchain.lookup q
          = if q ∈ cs then some (memmap.link.mk FLK e dskmap.status_t.marked)
            else w.m.memchain.lookup q) := by
  intro cs
  induction cs with
  | nil =>
    intro fuel w hd hc _ _ _ _ hf
    obtain ⟨f, rfl⟩ : ∃ f, fuel = f + 1 := ⟨fuel - 1, by simp at hf; omega⟩
    have hstep := mstep_close par fe (some (memmap.mark_lbd e)) w hc
    have hloop : memmap.getareas_loop par fe (some (memmap.mark_lbd e)) (f + 1) w =
        (abuild.close w.build, w.m) := by
      simp [memmap.getareas_loop, hstep]
    rw [hloop]
    exact ⟨rfl, hd, rfl, fun q => by simp⟩
  | cons c cs ih =>
    intro fuel w hd hc hnd hsc hr hfresh hf
    obtain ⟨f, rfl⟩ : ∃ f, fuel = f + 1 := ⟨fuel - 1, by simp at hf; omega⟩
    obtain ⟨hcur, hE, hF, hrest⟩ := hc
    have hnot : w.cur_cls ∉ w.sc := hcur ▸ hsc c (List.mem_cons_self _ _)
    have hrc := hr c (List.mem_cons_self _ _)
    have hcE : c ≠ EOC := hcur ▸ hE
    have hlc := hfresh c (List.mem_cons_self _ _)
    rw [List.nodup_cons] at hnd
    obtain ⟨w1, hw1, hm1, hsc1, hcur1, hb1⟩ :=
      mstep_build par fe (some (memmap.mark_lbd e)) w hE hF hnot
    simp only [memmap.mark_lbd] at hm1
    rw [← hcur] at hm1 hcur1 hsc1 hb1
    have hch : ∀ q, w1.m.memchain.lookup q =
        if q = c then some (memmap.link.mk FLK e dskmap.status_t.marked)
        else w.m.memchain.lookup q := by
      intro q
      rw [hm1, (change_lookup w.m c e q).1, hlc]
    have hd1 : w1.m.d = d := by
      rw [hm1, (change_lookup w.m c e 0).2.1]
      exact hd
    have hl1 : w1.m.lost = w.m.lost := by
      rw [hm1, (change_lookup w.m c e 0).2.2]
    have hloop : memmap.getareas_loop par fe (some (memmap.mark_lbd e)) (f + 1) w =
        memmap.getareas_loop par fe (some (memmap.mark_lbd e)) f w1 := by
      simp [memmap.getareas_loop, hw1]
    have hcur1f : w1.cur_cls = d.fat c := by
      rw [hcur1, mread_none par fe w.m c hdl hlc hrc.1 hrc.2 hcE, hd]
    have hsc1f : ∀ x ∈ cs, x ∉ w1.sc := by
      intro x hx
      rw [hsc1, List.mem_cons, not_or]
      exact ⟨fun h => hnd.1 (h ▸ hx), hsc x (List.mem_cons_of_mem _ hx)⟩
    have hfresh1 : ∀ x ∈ cs, w1.m.memchain.lookup x = none := by
      intro x hx
      rw [hch x, if_neg (fun h : x = c => hnd.1 (h ▸ hx))]
      exact hfresh x (List.mem_cons_of_mem _ hx)
    obtain ⟨i1, i2, i3, i4⟩ := ih f w1 hd1 (by rw [hcur1f]; exact hrest) hnd.2 hsc1f
      (fun x hx => hr x (List.mem_cons_of_mem _ hx)) hfresh1 (by simp at hf; omega)
    rw [hloop]
    refine ⟨?_, i2, i3.trans hl1, ?_⟩
    · rw [i1, hb1, List.foldl_cons]
    · intro q
      rw [i4 q, hch q]
      by_cases hqc : q = c
      · rw [if_pos hqc]
        simp [hqc]
      · rw [if_neg hqc]
        simp [hqc]

/-- The effect of `markchain(p, e)` on a chain `cs` of clusters fetched from the
device, none of which has a link in the overlay. -/
theorem markchain_fresh (par : fatxpar) (fe : frontend) (hg : par.areas_ok) (m : memmap)
    (p e : Nat) (cs : List Nat) (hc : chain m.d.fat p cs) (hr : ∀ c ∈ cs, par.in_fat c)
    (hfresh : ∀ c ∈ cs, m.memchain.lookup c = none) :
    (∀ c ∈ cs, memmap.status (memmap.markchain par fe m p e).2 c = dskmap.status_t.marked ∧
      memmap.getentry (memmap.markchain par fe m p e).2 c = e) ∧
    (∀ q, q ∉ cs → (memmap.markchain par fe m p e).2.memchain.lookup q =
      m.memchain.lookup q) ∧
    (memmap.markchain par fe m p e).2.d = m.d ∧
    (memmap.markchain par fe m p e).2.lost = m.lost ∧
    vareas.clusters (memmap.markchain par fe m p e).1 = cs ∧
    (∀ x ∈ (memmap.markchain par fe m p e).1, area.wf par x) ∧
    vareas.offsets_from (memmap.markchain par fe m p e).1 0 := by
  have g1 := hg.root_pos
  have hnd := chain_nodup cs p hc
  have hr1 : ∀ x ∈ cs, 1 ≤ x ∧ x ≤ par.clus_fat :=
    fun x hx => ⟨by have := (hr x hx).1; omega, Nat.le_of_lt (hr x hx).2⟩
  have hlen := nodup_range_length cs par.clus_fat hnd hr1
  cases cs with
  | nil =>
    have hdef : memmap.markchain par fe m p e = ([], m) := by
      unfold memmap.markchain memmap.getareas
      rw [if_pos (show p = EOC ∨ p = FLK from hc)]
    rw [hdef]
    exact ⟨fun c hx => absurd hx (List.not_mem_nil _), fun _ _ => rfl, rfl, rfl, rfl,
      fun x hx => absurd hx (List.not_mem_nil _), trivial⟩
  | cons c t =>
    have hns : ¬ (p = EOC ∨ p = FLK) := fun h => h.elim hc.2.1 hc.2.2.1
    have hdef : memmap.markchain par fe m p e =
        memmap.getareas_loop par { fe with dellost := true } (some (memmap.mark_lbd e))
          (par.clus_fat + 2)
          { m := m, sc := [], res := [], area_off := 0, area_ptr := 0, area_siz := 0,
            area_start := 0, cur_cls := p, prv_cls := 0 } := by
      unfold memmap.markchain memmap.getareas
      rw [if_neg hns]
    obtain ⟨i1, i2, i3, i4⟩ := mark_loop_fresh par { fe with dellost := true } e rfl m.d
      (c :: t) (par.clus_fat + 2)
      { m := m, sc := [], res := [], area_off := 0, area_ptr := 0, area_siz := 0,
        area_start := 0, cur_cls := p, prv_cls := 0 }
      rfl hc hnd (fun _ _ hx => absurd hx (List.not_mem_nil _)) hr1 hfresh (by omega)
    rw [← hdef] at i1 i2 i3 i4
    have hp := pass_init par hg c (hr c (List.mem_cons_self _ _)).1
      (Nat.le_of_lt (hr c (List.mem_cons_self _ _)).2)
    have hf := fold_ok par hg t [c] _ hp
      (fun x hx => ⟨(hr x (List.mem_cons_of_mem _ hx)).1,
        Nat.le_of_lt (hr x (List.mem_cons_of_mem _ hx)).2⟩)
      (by simp only [List.length_cons, List.length_nil] at hlen ⊢; omega)
    have hcl := close_ok par hg _ _ hf
    have hb : abuild.close ((c :: t).foldl (abuild.pass par)
        (mwalk.build (mwalk.mk m [] [] 0 0 0 0 p 0))) =
        abuild.close (t.foldl (abuild.pass par) (abuild.pass par abuild.init c)) := rfl
    rw [hb] at i1
    refine ⟨?_, ?_, i2, i3, ?_, ?_, ?_⟩
    · intro x hx
      unfold memmap.status memmap.getentry
      rw [i4 x, if_pos hx]
      exact ⟨rfl, rfl⟩
    · intro q hq
      rw [i4 q, if_neg hq]
    · rw [i1]
      exact hcl.2.2
    · rw [i1]
      exact hcl.1
    · rw [i1]
      exact hcl.2.1
/-! ### The 2-byte cells of the FAT -/

/-- C1 (fails on the code): on the FAT whose free clusters are 5, 6, 9 and 11,
with the gap index `gapcheck` builds from it, `alloc(4, 0)` takes the
fragmented path; `freegaps.right.erase(gap_clus)` erases by size, so the gap
(5, 2) stays in the index and is taken twice.  The vector returned has 4
clusters, but they are 5, 6, 5, 6: not pairwise distinct. -/
theorem alloc_fragmented_repeats_gap :
    (exState cellsA).view =
      ([0, EOC, EOC, EOC, EOC, 0, 0, EOC, EOC, 0, EOC, 0, EOC, 0], [(9, 1), (11, 1), (5, 2)]) ∧
    (dskmap.alloc exPar (exState cellsA) 4 0).map
        (fun r => (r.1.runs, r.1.nbcls, r.1.clusters)) =
      some ([(5, 6), (5, 6)], 4, [5, 6, 5, 6]) := by
  decide

/-- C2 (fails on the code): on the FAT whose free clusters are 2, 4..7 and
10..11, `alloc(6, 0)` returns the areas 4..7 and 10..11, but the second gap is
linked with `write(old_clus, gap_clus)` where `old_clus` is the first cluster
of the previous gap: cell 4 receives 10 and cell 7 END, so following the FAT
from cluster 4 visits 4, 10, 11 only. -/
theorem alloc_fragmented_chain_skips :
    (exState cellsB).freegaps = [(2, 1), (10, 2), (4, 4)] ∧
    (dskmap.alloc exPar (exState cellsB) 6 0).map
        (fun r => (r.1.runs, (dskmap.getareas exPar exFe r.2 r.1.first none).1.runs,
          r.2.fat 4, r.2.fat 7)) =
      some ([(4, 7), (10, 11)], [(4, 4), (10, 11)], 10, EOC) := by
  decide

/-- C3 (fails on the code): for the vector of one area of one cluster (file
offset 0, 512 bytes), `sub(1, 511)` asks for the last byte alone; the test
`o < i.offset + i.size - 1` is strict, so the front of the area is not cut and
the result is the whole area: offset 0 instead of 511, size 512 instead of 1. -/
theorem sub_last_byte_not_cut :
    vareas.nbcls [areaOne] <<< exPar.clus_pow = 512 ∧
    vareas.sub exPar [areaOne] 1 511 = [areaOne] := by
  decide

/-- C4 (fails on the code): for the chain 5 → 6 → 7 → 8 → 9 and its area vector
(one area of 2560 bytes), `resize(v, 3)` returns true, but the shrinking branch
subtracts the cluster count from the byte size (`size -= nbcls() - s`) and sets
`stop = start + size - 1` from that byte size: the area left has size 2558 and
stop 2562, and `nbcls()` is 2558, not 3. -/
theorem resize_shrink_nbcls :
    (dskmap.getareas exPar exFe (exState cellsE) 5 none).1 =
      [area.mk 0 0x2800 2560 5 9] ∧
    (dskmap.resize exPar exFe (exState cellsE)
        (some (dskmap.getareas exPar exFe (exState cellsE) 5 none).1) 3).map
        (fun r => (r.1, r.2.1.map (fun v => (v, vareas.nbcls v)))) =
      some (true, some ([area.mk 0 0x2800 2558 5 2562], 2558)) := by
  decide

/-- C5 (fails on the code): with `clus_fat = 12` and the cell of cluster 12
FREE, the index `gapcheck` builds is the single gap (3, 2); no gap holds
cluster 12, since `forfat` stops at `c < clus_fat`. -/
theorem gapcheck_misses_last_cluster :
    exPar.root_clus ≤ 12 ∧ 12 ≤ exPar.clus_fat ∧ fatOf cellsF 12 = FLK ∧
    (exState cellsF).freegaps = [(3, 2)] ∧
    (exState cellsF).freegaps.filter (fun g => decide (gap_has g 12)) = [] := by
  decide

/-- C6 (fails on the code): with the gap index `[(5, 2)]` and cluster 7 a
one-cluster chain, `free(7)` outside fsck mode frees the cell of cluster 7, but
no gap begins after cluster 7 (`next` is `end()`), every merge test starts with
`next != freegaps.left.end()`, and the freed run is inserted as a gap of its
own: the index becomes (7, 1), (5, 2) although clusters 5, 6, 7 are one FREE
run, for which `gapcheck` computes the single gap (5, 3). -/
theorem free_leaves_adjacent_gaps :
    (exState cellsC).freegaps = [(5, 2)] ∧
    (dskmap.free exPar exFe (exState cellsC) 7).view =
      ([0, EOC, EOC, EOC, EOC, 0, 0, 0, EOC, EOC, EOC, EOC, EOC, 0], [(7, 1), (5, 2)]) ∧
    (dskmap.gapcheck exPar (dskmap.free exPar exFe (exState cellsC) 7)).freegaps = [(5, 3)] := by
  decide

/-- C7 (fails on the code): from the gap index (2, 1), (10, 2), (4, 4),
`alloc(6, 0)` returns a vector whose first cluster is 4, and `free(4)` right
after it leaves the index (2, 1), (4, 1), (10, 2): the gap (4, 4) has become
(4, 1), because the chain written by the fragmented path runs 4 → 10 → 11 and
the clusters 5, 6, 7 are never walked by `free`. -/
theorem alloc_free_changes_gaps :
    (exState cellsB).freegaps = [(2, 1), (10, 2), (4, 4)] ∧
    (dskmap.alloc exPar (exState cellsB) 6 0).map
        (fun r => (r.1.first, (dskmap.free exPar exFe r.2 r.1.first).freegaps)) =
      some (4, [(2, 1), (4, 1), (10, 2)]) := by
  decide

/-- C9 (fails on the code): the root directory holds cluster 1 and the free
clusters are 2..5 and 8..10.  `alloc(1, 2)` (the directory growing by one
cluster) leaves the gaps (8, 3) and (3, 3).  Then 6 clusters are free, yet
`alloc(4, 0)` has no result: its fragmented path takes the gap (3, 3), erases
by size 3 and so empties the index with one cluster still to place, and the
next pass dereferences `rbegin()` of the empty index. -/
theorem alloc_fragmented_empties_index :
    (exState cellsD).freegaps = [(8, 3), (2, 4)] ∧
    (dskmap.alloc exPar (exState cellsD) 1 2).map (fun r => (r.1.runs, r.2.freegaps)) =
      some ([(2, 2)], [(8, 3), (3, 3)]) ∧
    (dskmap.alloc exPar (exState cellsD) 1 2).map
        (fun r => ((r.2.freegaps.map Prod.snd).sum, (dskmap.alloc exPar r.2 4 0).isNone)) =
      some (6, true) := by
  decide

/-- C10 (fails on the code): with the flags read-only and hidden both set,
`attrib::write` stores the byte `0x01` (only the first set flag survives the
`?:` chain), and decoding that byte with `attrib(char)` gives read-only alone,
which differs from the flags that were written. -/
theorem attrib_write_drops_flags :
    attrib.write attribRoHid = 1 ∧
    attrib.ofChar (attrib.write attribRoHid) =
      { ro := true, hid := false, sys := false, lab := false,
        dir := false, arc := false, dev := false, na := false } ∧
    attrib.ofChar (attrib.write attribRoHid) ≠ attribRoHid := by
  decide

/-- C12 (the code departs from the claim): `date::write` stores the second as
`sec & 0x1F` and `date(buf)` reads it back as it is, so the second is neither
halved nor doubled.  The date 2001-02-03 04:05:40 comes back with second 8,
not 40, and the odd second 1 comes back as 1, not truncated to 0; the five
other fields round-trip. -/
theorem date_second_not_truncated_even :
    date.ofBuf (date.write ⟨2001, 2, 3, 4, 5, 40⟩) = ⟨2001, 2, 3, 4, 5, 8⟩ ∧
    date.ofBuf (date.write ⟨2001, 2, 3, 4, 5, 1⟩) = ⟨2001, 2, 3, 4, 5, 1⟩ := by
  decide

/-- C13: for `bytes = 2` and `bytes = 4`, decoding the string
`endian<bytes>::litend(n)` gives back every `n` below `2 ^ (8 * bytes)`, and
encoding the decoded value of a string of exactly `bytes` bytes gives back the
string. -/
theorem litend_round_trip (bytes : Nat) (hb : bytes = 2 ∨ bytes = 4) :
    (∀ n, n < 2 ^ (8 * bytes) → endian.litend_value bytes (endian.litend bytes n) = n) ∧
    (∀ s : List Nat, s.length = bytes → (∀ b ∈ s, b < 256) →
      endian.litend bytes (endian.litend_value bytes s) = s) := by
  rcases hb with h | h
  · subst h
    exact ⟨fun n hn => litend2_decode_encode n hn, fun s hl hs => litend2_encode_decode s hl hs⟩
  · subst h
    exact ⟨fun n hn => litend4_decode_encode n hn, fun s hl hs => litend4_encode_decode s hl hs⟩

/-- C13 at `bytes = 4`. -/
theorem litend_round_trip_witness :
    (4 = 2 ∨ 4 = 4) ∧
    ((∀ n, n < 2 ^ (8 * 4) → endian.litend_value 4 (endian.litend 4 n) = n) ∧
    (∀ s : List Nat, s.length = 4 → (∀ b ∈ s, b < 256) →
      endian.litend 4 (endian.litend_value 4 s) = s)) :=
  ⟨by decide, litend_round_trip 4 (by decide)⟩

/-- C14 (counterexample): `endian<4>::litend(1)` is `00 00 00 01` and
`endian<2>::litend(0x1234)` is `12 34`: byte 0 is not `n & 0xFF`, the least
significant byte is stored last. -/
theorem litend_least_significant_last :
    endian.litend 4 1 = [0, 0, 0, 1] ∧ (1 >>> (8 * 0)) &&& 0xFF = 1 ∧
    endian.litend 2 0x1234 = [0x12, 0x34] ∧
    endian.litend_value 4 [1, 0, 0, 0] = 0x01000000 := by
  decide

/-- C14 (amended): the string `endian<bytes>::litend(n)` has `bytes` bytes and
its byte `i` is `(n >> 8 * (bytes - 1 - i)) & 0xFF` (of `n` cut to `8 * bytes`
bits), for the widths 2 and 4 in use as for any other: the most significant
byte is stored first. -/
theorem litend_most_significant_first (bytes n i : Nat) (hi : i < bytes) :
    (endian.litend bytes n).length = bytes ∧
    (endian.litend bytes n).getD i 0 =
      ((n % 2 ^ (8 * bytes)) >>> (8 * (bytes - 1 - i))) &&& 0xFF := by
  have h := litend_bytes bytes n i hi
  refine ⟨h.1, ?_⟩
  rw [h.2, Nat.shiftRight_eq_div_pow]
  exact (Nat.and_pow_two_sub_one_eq_mod _ 8).symm

/-- C14 (amended) at the first byte of a 4-byte field. -/
theorem litend_most_significant_first_witness :
    0 < 4 ∧ (endian.litend 4 0x01020304).length = 4 ∧
    (endian.litend 4 0x01020304).getD 0 0 =
      ((0x01020304 % 2 ^ (8 * 4)) >>> (8 * (4 - 1 - 0))) &&& 0xFF :=
  ⟨by decide, litend_most_significant_first 4 0x01020304 0 (by decide)⟩

set_option maxRecDepth 100000 in
/-- C18 (the code departs from the claim): with no container hint, the offset
0x200 forced, no size forced and "XTAF" at 0x200 of a device of 0x10000 bytes,
`fatxpar::setup` selects the start 0x200 but leaves the partition size at 0,
not at `0x10000 - 0x200`; no cluster is counted and `clus_fat` wraps to
0xFFFFFFEF. -/
theorem setup_forced_offset_size_zero :
    exFeOffset.table = table_t.auto ∧ exFeOffset.offset = 0x200 ∧ exFeOffset.size = 0 ∧
    (exImage 0x10000 0x200 1).has_fsid 0x200 = true ∧
    (fatxpar.setup exFeOffset (exImage 0x10000 0x200 1)).map
      (fun r => (r.1.par_start, r.1.par_size, r.1.clus_num, r.1.clus_fat)) =
      some (0x200, 0, 0, 0xFFFFFFEF) := by
  decide

set_option maxRecDepth 100000 in
/-- C19 (the code departs from the claim): for a partition of 0x100000 bytes
with clusters of 512 bytes, `clus_num * chain_size` is 2048 * 2 = 0x1000,
already a multiple of 0x1000, and `fatxpar::setup` computes `fat_size = 0x2000`,
not 0x1000. -/
theorem setup_fat_size_aligned_adds_page :
    (fatxpar.setup exFe (exImage 0x100000 0 1)).map
      (fun r => (r.1.par_size, r.1.clus_size, r.1.clus_num, r.1.chain_size, r.1.fat_size)) =
      some (0x100000, 512, 2048, 2, 0x2000) ∧
    2048 * 2 ≤ 0x1000 ∧ 0x1000 % 0x1000 = 0 ∧ 0x1000 < 0x2000 := by
  decide

set_option maxRecDepth 100000 in
/-- C20 (the code departs from the claim): on a partition image of 0x10000
bytes whose boot sector names cluster 2 as root, `fatxpar::setup` gives
`root_clus = 2`; `dskmap::write` accepts cluster 1, `clsarithm::cls2fat`
answers 0 for it, and `dskmap::real_write` writes the two bytes of the cell at
device offset 0, over the "XT" of the boot sector and below `fat_start`. -/
theorem fat_write_below_root_outside_region :
    (fatxpar.setup exFe (exImage 0x10000 0 2)).map Prod.fst = some exParTwo ∧
    (dskmap.write exParTwo (dskmap.mk (fun _ => EOC) []) 1 EOC).1 = true ∧
    clsarithm.cls2fat exParTwo 1 = 0 ∧
    (dskmap.real_write exParTwo exFe (exImage 0x10000 0 2) 1 EOC).1 = true ∧
    ((exImage 0x10000 0 2).data 0, (exImage 0x10000 0 2).data 1) = (88, 84) ∧
    ((dskmap.real_write exParTwo exFe (exImage 0x10000 0 2) 1 EOC).2.data 0,
      (dskmap.real_write exParTwo exFe (exImage 0x10000 0 2) 1 EOC).2.data 1) = (255, 255) ∧
    0 + exParTwo.chain_size ≤ exParTwo.fat_start := by
  decide

set_option maxRecDepth 100000 in
/-- C15 (the code departs from the claim): the root directory holds cluster 1,
which is all zero, so its first record at 0x2000 is parsed as the end marker
(two bytes 0x00).  `entry::addtodir` only looks for two bytes 0xFF: it finds no
slot, extends the directory with cluster 2 and writes the record of the new
file "A" at 0x2200.  After the call the record at 0x2000 is still parsed as
the end marker, before the new record. -/
theorem addtodir_skips_zero_end_marker :
    (exState cellsRoot).view = ([0, EOC, 0, 0, 0, 0, 0, 0, 0, 0, 0, 0, 0, 0], [(2, 10)]) ∧
    clsarithm.cls2ptr exPar exRoot.cluster = 0x2000 ∧
    (entry.ofBuf exPar (exState cellsRoot) 0x2000 (some (exDev.read 0x2000 ent_size))).status =
      status_t.end_ ∧
    (entry.addtodir exPar exFe (exState cellsRoot) exDev exRoot [] true (some exFile) exDate).map
      (fun r => (r.ok, r.e.map (fun e => (e.status, e.loc)), r.dev.read 0x2200 4,
        (entry.ofBuf exPar r.d 0x2000 (some (r.dev.read 0x2000 ent_size))).status)) =
      some (true, some (status_t.valid, 0x2200), [1, 0, 65, 0], status_t.end_) := by
  decide

/-- C17 (the code departs from the claim): the record with name length 3 and
name "A/B" is not an end record and its name holds the path separator at index
1, yet it is decoded with status `valid`: the constructor only tests the first
character of the name against the separator. -/
theorem status_separator_inside_name_valid :
    (byte_at recSep 0, byte_at recSep 1) = (3, 0) ∧
    (entry.ofBuf exPar (exState cellsRoot) 0x2000 (some recSep)).name =
      [65, sepdir, 66] ++ List.replicate 40 0 ∧
    (entry.ofBuf exPar (exState cellsRoot) 0x2000 (some recSep)).status = status_t.valid := by
  decide

/-! ### Claims C21 to C30 -/

/-- C21 (the claim fails, the code is as designed): for the label "HI",
`label(buf)` writes the mark 0xFE 0xFF and then, for each character, the byte
0x00 followed by the character (the big-endian order the mark announces), not
the character followed by 0x00; it returns 6. -/
theorem label_units_high_byte_first :
    exParLabel.par_label = [72, 73] ∧
    (fatxpar.label exParLabel).1.take 6 = [0xFE, 0xFF, 0, 72, 0, 73] ∧
    (fatxpar.label exParLabel).1.take 6 ≠ [0xFE, 0xFF, 72, 0, 73, 0] ∧
    (fatxpar.label exParLabel).2 = 6 := by
  decide

/-- C21 as amended: for every label of ASCII characters, `label(buf)` fills the
buffer of `slab` bytes with the mark 0xFE 0xFF, then for each of the first
min(|L|, 42) characters the byte 0x00 followed by the character, then null
bytes, and returns 2 + 2 * min(|L|, 42). -/
theorem label_encoding (par : fatxpar) (h : ∀ c ∈ par.par_label, c < 128) :
    fatxpar.label par =
      ([0xFE, 0xFF] ++ (par.par_label.take name_size).flatMap (fun c => [0, c]) ++
          List.replicate (slab - 2 - 2 * min par.par_label.length name_size) 0,
        2 + 2 * min par.par_label.length name_size) :=
  label_ascii par h

/-- C21 as amended, at the label "HI". -/
theorem label_encoding_witness :
    fatxpar.label exParLabel =
      ([0xFE, 0xFF] ++ (exParLabel.par_label.take name_size).flatMap (fun c => [0, c]) ++
          List.replicate (slab - 2 - 2 * min exParLabel.par_label.length name_size) 0,
        2 + 2 * min exParLabel.par_label.length name_size) :=
  label_encoding exParLabel (by decide)

/-- C22: for every label `L` of at most 42 ASCII characters, `label(buf, size)`
on a partition whose `par_label` is empty, applied to the buffer and the size
that `label(buf)` gives for `L`, leaves `par_label == L`. -/
theorem label_round_trip (par par0 : fatxpar) (hl : par.par_label.length ≤ name_size)
    (hc : ∀ c ∈ par.par_label, c < 128) (h0 : par0.par_label = []) :
    (fatxpar.label_read par0 (fatxpar.label par).1 (fatxpar.label par).2).par_label =
      par.par_label := by
  rw [label_read_label par par0 hl (fun c hm => Nat.lt_trans (hc c hm) (by decide)), h0]
  rfl

/-- C22 at the label "HI", read back into the partition `exPar`. -/
theorem label_round_trip_witness :
    (fatxpar.label_read exPar (fatxpar.label exParLabel).1
      (fatxpar.label exParLabel).2).par_label = exParLabel.par_label :=
  label_round_trip exParLabel exPar (by decide) (by decide) rfl

set_option maxRecDepth 100000 in
/-- C25 (the claim fails, the code is as designed): the new file "A" has no
first cluster (`cluster == 0`) and is not a directory; `addtodir` of it on the
root directory, whose first record is an end record, returns true, the
directory has one child more, and the record of the file is on the device. -/
theorem addtodir_accepts_file_without_cluster :
    exFile.cluster = 0 ∧ exFile.flags.dir = false ∧
    (entry.addtodir exPar exFe (exState cellsRoot) exDevEnd exRoot [] true (some exFile)
        exDate).map
      (fun r => (r.ok, r.childs.length, r.dev.changes, r.dev.read 0x2000 4)) =
      some (true, 1, true, [1, 0, 65, 0]) ∧
    exDevEnd.read 0x2000 4 = [255, 255, 255, 255] := by
  decide

/-- C25 as amended: `addtodir(e)` returns false and leaves the entry, the
directory, its children, the FAT and the device as they were when the receiver
is not a directory, when the receiver has no first cluster, when `e` is a
directory without first cluster, or when a child, whatever its status, has the
name length of `e` and the same name on that length. -/
theorem addtodir_rejects_unchanged (par : fatxpar) (fe : frontend) (d : dskmap) (dev : device)
    (dir : entry) (childs : List entry) (root : Bool) (e : entry) (now : date)
    (h : dir.flags.dir = false ∨ dir.cluster = 0 ∨ (e.flags.dir = true ∧ e.cluster = 0) ∨
      ∃ i ∈ childs, i.namesize = e.namesize ∧ strncmp_eq i.name e.name i.namesize = true) :
    entry.addtodir par fe d dev dir childs root (some e) now =
      some { ok := false, e := some e, dir := dir, childs := childs, d := d, dev := dev } :=
  addtodir_rejects par fe d dev dir childs root e now h

/-- C25 as amended, at the root directory that holds the file "A" and is handed
a new file "A". -/
theorem addtodir_rejects_unchanged_witness :
    entry.addtodir exPar exFe (exState cellsRoot) exDevEnd exRoot [exFileA] true (some exFile)
        exDate =
      some { ok := false, e := some exFile, dir := exRoot, childs := [exFileA], d := exState cellsRoot, dev := exDevEnd } :=
  addtodir_rejects_unchanged exPar exFe (exState cellsRoot) exDevEnd exRoot [exFileA] true
    exFile exDate
    (Or.inr (Or.inr (Or.inr ⟨exFileA, List.mem_singleton.2 rfl, by decide, by decide⟩)))

set_option maxRecDepth 100000 in
/-- C26 (fails on the code): the root directory holds the valid files "A" and
"B", no two valid children sharing a name.  `rename("/B")` on the file "A"
(the directory found for the path is the root itself) returns true and so does
`rename("B")`; after either call both children are valid and named "B". -/
theorem rename_onto_sibling_name :
    names_unique exRootAB.childs = true ∧
    (entry.rename exPar exFe (exState cellsRoot) exDev exFileA exRootAB 0 [47, 66]
        (some (exRootAB, true)) exDate).map
      (fun r => (r.ok, r.oldpar.childs.map (fun e => (e.status, cstr e.name)),
        names_unique r.oldpar.childs)) =
      some (true, [(status_t.valid, [66]), (status_t.valid, [66])], false) ∧
    (entry.rename exPar exFe (exState cellsRoot) exDev exFileA exRootAB 0 [66] none
        exDate).map
      (fun r => (r.ok, r.oldpar.childs.map (fun e => (e.status, cstr e.name)),
        names_unique r.oldpar.childs)) =
      some (true, [(status_t.valid, [66]), (status_t.valid, [66])], false) :=
  ⟨by decide, by decide, by decide⟩

/-- C27: on a read-only front end, `device::write(p, s)` with
`p + |s| <= tot_size` returns true and leaves the device as it was: every byte
of the storage and the flag `changes` that `modified()` returns. -/
theorem device_write_test_mode (fe : frontend) (dev : device) (p : Nat) (s : List Nat)
    (hro : fe.readonly = true) (hin : p + s.length ≤ dev.tot_size)
    (hts : dev.tot_size < 2 ^ 64) :
    (device.write fe dev p s).1 = true ∧
    (∀ q, (device.write fe dev p s).2.data q = dev.data q) ∧
    (device.write fe dev p s).2.changes = dev.changes ∧
    (device.write fe dev p s).2 = dev := by
  rw [device_write_readonly fe dev p s hro hin hts]
  exact ⟨rfl, fun _ => rfl, rfl, rfl⟩

/-- C27 at the example device, not yet modified: a write of two bytes at 0x1000
in test mode. -/
theorem device_write_test_mode_witness :
    exDev.changes = false ∧
    (device.write exFsckTest exDev 0x1000 [1, 2]).1 = true ∧
    (∀ q, (device.write exFsckTest exDev 0x1000 [1, 2]).2.data q = exDev.data q) ∧
    (device.write exFsckTest exDev 0x1000 [1, 2]).2.changes = exDev.changes ∧
    (device.write exFsckTest exDev 0x1000 [1, 2]).2 = exDev :=
  ⟨rfl, device_write_test_mode exFsckTest exDev 0x1000 [1, 2] rfl (by decide) (by decide)⟩

/-- C28 (fails on the code): the program is fsck, the device has been modified
and every prompt was answered yes, yet `main` returns 0, not 1; with a prompt
answered no it returns 0 as well, not 4.  The variable `err` is 0 when the last
statement tests `err != 0`, so the exit code is never computed. -/
theorem fsck_exit_code_zero_after_repair :
    exFsck.prog = call_t.fsck ∧ exFsck.allyes = true ∧ exDevModified.changes = true ∧
    main_exit exFsck exDevModified 0 = code_noerr ∧
    main_exit { exFsck with allyes := false } exDevModified 0 = code_noerr ∧
    code_noerr = 0 ∧ code_corrd = 1 ∧ code_ncorr = 4 := by
  decide

/-- C29: on a cache of capacity at least 1 that holds no more pairs than its
capacity, `put(k, v)` calls the write function once, with `(k, v)`, and returns
what it returns; the `get(k)` that follows returns `v` and does not call the
read function; after either call the cache holds no more pairs than its
capacity. -/
theorem cache_put_then_get (write : Nat → Nat → Bool) (read : Nat → Nat → List (Nat × Nat))
    (c : read_cache) (k v : Nat) (h0 : c.capacity ≠ 0)
    (hlen : c.container.length ≤ c.capacity) :
    (read_cache.put write c k v).1 = write k v ∧
    (read_cache.put write c k v).2.2 = [(k, v)] ∧
    (read_cache.put write c k v).2.1.capacity = c.capacity ∧
    (read_cache.put write c k v).2.1.container.length ≤ c.capacity ∧
    (read_cache.get read (read_cache.put write c k v).2.1 k).1 = v ∧
    (read_cache.get read (read_cache.put write c k v).2.1 k).2.2 = [] ∧
    (read_cache.get read (read_cache.put write c k v).2.1 k).2.1.capacity = c.capacity ∧
    (read_cache.get read (read_cache.put write c k v).2.1 k).2.1.container.length
      ≤ c.capacity :=
  cache_put_get write read c k v h0 hlen

/-- C29 at a full cache of two pairs: a put of the new key 3, with a write
function that fails and a read function that has nothing to give. -/
theorem cache_put_then_get_witness :
    (read_cache.put (fun _ _ => false) exCache 3 30).1 = false ∧
    (read_cache.put (fun _ _ => false) exCache 3 30).2.2 = [(3, 30)] ∧
    (read_cache.put (fun _ _ => false) exCache 3 30).2.1.capacity = exCache.capacity ∧
    (read_cache.put (fun _ _ => false) exCache 3 30).2.1.container.length
      ≤ exCache.capacity ∧
    (read_cache.get (fun _ _ => []) (read_cache.put (fun _ _ => false) exCache 3 30).2.1 3).1
      = 30 ∧
    (read_cache.get (fun _ _ => []) (read_cache.put (fun _ _ => false) exCache 3 30).2.1 3).2.2
      = [] ∧
    (read_cache.get (fun _ _ => [])
      (read_cache.put (fun _ _ => false) exCache 3 30).2.1 3).2.1.capacity = exCache.capacity ∧
    (read_cache.get (fun _ _ => [])
      (read_cache.put (fun _ _ => false) exCache 3 30).2.1 3).2.1.container.length
      ≤ exCache.capacity :=
  cache_put_then_get (fun _ _ => false) (fun _ _ => []) exCache 3 30 (by decide) (by decide)

set_option maxRecDepth 100000 in
/-- C30 (fails on the code): the free clusters are 2..4, 6..9 and 11, and
`alloc(2, 0)` is called.  The gap with the highest first cluster, (11, 1), is
too small, and the smallest gap of size at least 2 is (2, 3); but the best-fit
step only takes a gap whose size is exactly 2, so it finds none, and the
fragmented path places the two clusters in the largest gap: the run is 6..7,
not 2..3. -/
theorem alloc_best_fit_needs_exact_size :
    (exState cellsG).freegaps = [(11, 1), (2, 3), (6, 4)] ∧
    (dskmap.alloc exPar (exState cellsG) 2 0).map (fun r => r.1.runs) = some [(6, 7)] := by
  decide

set_option maxRecDepth 100000 in
/-- C24 (fails on the code): on the FAT `cellsW`,
acyclic and without cross-links, after `markchain` for the two valid entries
and `fatlost`, cluster 12, the last cluster `clus_fat`, is not marked, is in no
lost chain, and its cell holds END, not FREE: `forfat` stops before it.  And
on the FAT `cellsDangle`, where the chain 2 → 3 → 6 of a valid entry runs into
a cluster whose cell is FREE, cluster 6 is marked and its cell is FREE. -/
theorem fatlost_leaves_last_cluster_out :
    (exPar.root_clus ≤ 12 ∧ 12 ≤ exPar.clus_fat) ∧
    (memmap.status (memmap.fatlost exPar exFe (memmap.markall exPar exFe exMem exHeads)) 12 =
        dskmap.status_t.disk ∧
      (memmap.fatlost exPar exFe (memmap.markall exPar exFe exMem exHeads)).lost.filter
        (fun L => L.isin 12) = [] ∧
      exMem.d.fat 12 = EOC) ∧
    (memmap.status
        (memmap.fatlost exPar exFe (memmap.markall exPar exFe exMemDangle exHeads)) 6 =
        dskmap.status_t.marked ∧
      exMemDangle.d.fat 6 = FLK) :=
  ⟨by decide, by decide, by decide⟩

/-! ### Claims C31 to C40 -/

set_option maxRecDepth 100000 in
/-- C33 (fails on the code): on the cycle 5 → 6 → 5, `getareas(5)` returns no
area at all, and on the cycle 5 → 7 → 5 it returns the area of cluster 5 alone:
in both walks two clusters are visited before the repetition is found, but the
`break` of the cycle test leaves the loop without adding the area being built,
so `nbcls` is 0 and 1.  The same holds in fsck mode with the answer yes. -/
theorem getareas_cycle_drops_open_area :
    dskmap.getareas_visits exPar exFe none (exPar.clus_fat + 2)
      (walk.mk (exState cellsCycle) [] [] 0 0 0 0 5 0) = some [5, 6] ∧
    (dskmap.getareas exPar exFe (exState cellsCycle) 5 none).1 = [] ∧
    (dskmap.getareas exPar exFe (exState cellsCycle) 5 none).1.nbcls = 0 ∧
    dskmap.getareas_visits exPar exFe none (exPar.clus_fat + 2)
      (walk.mk (exState cellsCycleGap) [] [] 0 0 0 0 5 0) = some [5, 7] ∧
    (dskmap.getareas exPar exFe (exState cellsCycleGap) 5 none).1.runs = [(5, 5)] ∧
    (dskmap.getareas exPar exFe (exState cellsCycleGap) 5 none).1.nbcls = 1 ∧
    (dskmap.getareas exPar exFsck (exState cellsCycle) 5 none).1 = [] :=
  ⟨by decide, by decide, by decide, by decide, by decide, by decide, by decide⟩

set_option maxRecDepth 100000 in
/-- C34 (fails on the code): the FAT has 2-byte cells and the cell of cluster 6
holds 0x7000, out of range, while the cell of cluster 7 holds the link 8.  In
fsck mode with the answer yes, `read(5)` on a fresh cache fetches the cells
from cluster 5 on; the value reported for cluster 6 is FREE, but the cell of
cluster 6 still holds 0x7000 on the device and FREE has been written to the
cell of cluster 7: the cluster written is `p + i` with the byte index `i` of
the cell in the buffer, and it is also the one entered in `bad`. -/
theorem real_read_repairs_other_cluster :
    (List.range 13).map (dskio.cell exPar (dskio.init exPar (fatDev cellsBad))) = cellsBad ∧
    (dskio.real_read exPar exFsck (dskio.init exPar (fatDev cellsBad)) 5 512).1.take 3 =
      [(6, 5), (FLK, 6), (8, 7)] ∧
    (dskio.read exPar exFsck (dskio.init exPar (fatDev cellsBad)) 5).1 = 6 ∧
    (List.range 13).map
      (dskio.cell exPar (dskio.read exPar exFsck (dskio.init exPar (fatDev cellsBad)) 5).2) =
      [0, 0xFFFF, 0, 0, 0, 6, 0x7000, 0, 0xFFFF, 0, 0, 0, 0xFFFF] ∧
    (dskio.read exPar exFsck (dskio.init exPar (fatDev cellsBad)) 5).2.bad = [7] :=
  ⟨by decide, by decide, by decide, by decide, by decide⟩

set_option maxRecDepth 100000 in
/-- C37 (fails on the code): on the FAT `cellsW` the chain of cluster 2 is
2 → 3 → 5.  After `markchain(2, e)`, which walks these three clusters,
`memmap::read(2)` is FREE although the cell of cluster 2 holds 3, and so for
the clusters 3 and 5; walking the chain again through the overlay stops after
cluster 2.  The visitor calls `change(c, e)`, whose link argument defaults to
FREE. -/
theorem markchain_links_read_free :
    (memmap.markchain exPar exFe exMem 2 101).1.runs = [(2, 3), (5, 5)] ∧
    [2, 3, 5].map exMem.d.fat = [3, 5, EOC] ∧
    [2, 3, 5].map (memmap.read exPar exFe (memmap.markchain exPar exFe exMem 2 101).2) =
      [FLK, FLK, FLK] ∧
    (memmap.getareas exPar exFe (memmap.markchain exPar exFe exMem 2 101).2 2 none).1.runs =
      [(2, 2)] :=
  ⟨by decide, by decide, by decide, by decide⟩

set_option maxRecDepth 100000 in
/-- C38 (fails on the code): on the FAT `cellsLive` the valid file of pointer
101 holds the chain 7 → 8, and after the pass that marks the valid entries
cluster 7 is marked for it.  `guess` for the deleted file of two clusters whose
first cluster was 6 takes cluster 6, which is free, and then cluster 7: read
through the overlay the marked cluster is FREE, so it is not skipped, and it
ends with the status `deleted` and the deleted file as owner although its cell
on disk holds 8.  For the deleted file of three clusters whose first cluster
was 11, `guess` takes the clusters 11, 12 and then 13, past `clus_fat = 12`:
`inccls(12)` is 13 and a cluster out of range reads as FREE. -/
theorem guess_takes_marked_cluster :
    (memmap.status (memmap.markall exPar exFe exMemLive exHeadsLive) 7,
      memmap.getentry (memmap.markall exPar exFe exMemLive exHeadsLive) 7,
      exMemLive.d.fat 7) = (dskmap.status_t.marked, 101, 8) ∧
    (entry.guess exPar exFe exEnts 200 exDeleted 50
        (memmap.markall exPar exFe exMemLive exHeadsLive)).map
      (fun r => ([6, 7, 8].map (fun c => (memmap.status r.1 c, memmap.getentry r.1 c)), r.2)) =
      some ([(dskmap.status_t.deleted, 200), (dskmap.status_t.deleted, 200),
             (dskmap.status_t.marked, 101)], status_t.delwdata, []) ∧
    exPar.clus_fat = 12 ∧
    (entry.guess exPar exFe exEnts 201 exDeletedEnd 50
        (memmap.markall exPar exFe exMemLive exHeadsLive)).map
      (fun r => ([11, 12, 13].map (fun c => (memmap.status r.1 c, memmap.getentry r.1 c)),
        r.2)) =
      some ([(dskmap.status_t.deleted, 201), (dskmap.status_t.deleted, 201),
             (dskmap.status_t.deleted, 201)], status_t.delwdata, []) :=
  ⟨by decide, by decide, by decide, by decide⟩

/-- C39 (fails on the code): `inccls(clus_fat)` is `clus_fat + 1` for every
partition, since the test is `p <= clus_fat`; on the example partition
`inccls(12)` is 13, outside `[1, 12]`, and the scan only wraps at 13, and then
to cluster 2. -/
theorem inccls_steps_past_clus_fat :
    (∀ par : fatxpar, clsarithm.inccls par par.clus_fat = wadd par.clus_fat 1) ∧
    exPar.clus_fat = 12 ∧ clsarithm.inccls exPar 12 = 13 ∧ clsarithm.inccls exPar 13 = 2 :=
  ⟨fun par => by unfold clsarithm.inccls; rw [if_pos (le_refl _)], by decide, by decide,
    by decide⟩

set_option maxRecDepth 100000 in
/-- C40 (fails on the code): on the example partition, `clus_fat = 12`, with a
writable front end, `write(12, END)` returns true and stores 0xFFFF in the cell
of cluster 12 on the device; a `read(12)` right after it is answered by the
cache with END, but once the cache is cleared `read(12)` returns FREE:
`real_read` limits the number of cells to `clus_fat - p`, which is 0 for the
last cluster, so nothing is read and the cache returns 0. -/
theorem last_cluster_write_not_read_back :
    exPar.root_clus ≤ 12 ∧ 12 ≤ exPar.clus_fat ∧ exFe.readonly = false ∧
    (dskio.write exPar exFe (dskio.init exPar (fatDev cellsLast)) 12 EOC).1 = true ∧
    dskio.cell exPar (dskio.write exPar exFe (dskio.init exPar (fatDev cellsLast)) 12 EOC).2 12 =
      0xFFFF ∧
    (dskio.read exPar exFe
      (dskio.write exPar exFe (dskio.init exPar (fatDev cellsLast)) 12 EOC).2 12).1 = EOC ∧
    (dskio.read exPar exFe
      (dskio.mk (dskio.write exPar exFe (dskio.init exPar (fatDev cellsLast)) 12 EOC).2.dev
        (read_cache.clear
          (dskio.write exPar exFe (dskio.init exPar (fatDev cellsLast)) 12 EOC).2.memnext)
        (dskio.write exPar exFe (dskio.init exPar (fatDev cellsLast)) 12 EOC).2.bad) 12).1 =
      FLK ∧
    (dskio.real_read exPar exFe (dskio.init exPar (fatDev cellsLast)) 12 512).1 = [] :=
  ⟨by decide, by decide, by decide, by decide, by decide, by decide, by decide, by decide⟩

set_option maxRecDepth 100000 in
/-- C31 (fails on the code): the FAT has 2-byte cells, the
cell of cluster 12, the last one (`clus_fat = 12`), holds 5 and the cell of
cluster 5 holds END, so every cell holds FREE, END or a cluster of
`[root_clus, clus_fat]` and the chain of cluster 12 is 12 → 5.  Read from the
device, the cell of cluster 12 is not fetched and reads FREE, and
`getareas(12)` returns the area of cluster 12 alone. -/
theorem getareas_stops_at_last_cluster :
    exPar.clus_fat = 12 ∧
    (List.range 13).map (dskio.cell exPar (dskio.init exPar (fatDev cellsLast))) =
      [0, 0xFFFF, 0, 0, 0, 0xFFFF, 0, 0, 0, 0, 0, 0, 5] ∧
    (dskio.read exPar exFe (dskio.init exPar (fatDev cellsLast)) 12).1 = FLK ∧
    (dskio.getareas exPar exFe (dskio.init exPar (fatDev cellsLast)) 12 none).1.runs =
      [(12, 12)] ∧
    (dskio.getareas exPar exFe (dskio.init exPar (fatDev cellsLast)) 12 none).1.clusters = [12] :=
  ⟨by decide, by decide, by decide, by decide, by decide⟩

/-- C32: for every content of the FAT, every first cluster and every visitor
(so whatever the cells read are: links of a cycle, clusters whose cell is FREE,
values out of range), the loop of `getareas` ends within the `clus_fat + 2`
passes that `dskmap.getareas` allows; the clusters visited are distinct, at
most `clus_fat + 1`, all but the last in `[1, clus_fat]`; and allowing more
passes does not change the result. -/
theorem getareas_terminates (par : fatxpar) (fe : frontend) (d : dskmap) (orig : Nat)
    (lbd : Option (dskmap → Nat → Nat → dskmap)) :
    ∃ vs, dskmap.getareas_visits par fe lbd (par.clus_fat + 2)
        (walk.mk d [] [] 0 0 0 0 orig 0) = some vs ∧
      vs.Nodup ∧ vs.length ≤ par.clus_fat + 1 ∧
      (∀ x ∈ vs.dropLast, 1 ≤ x ∧ x ≤ par.clus_fat) ∧
      ∀ k, dskmap.getareas_loop par fe lbd (par.clus_fat + 2 + k)
          (walk.mk d [] [] 0 0 0 0 orig 0) =
        dskmap.getareas_loop par fe lbd (par.clus_fat + 2) (walk.mk d [] [] 0 0 0 0 orig 0) :=
  getareas_ends par fe d orig lbd

set_option maxRecDepth 100000 in
/-- C36 (fails on the code): the FAT has 2-byte cells, the cell of cluster 12,
the last one (`clus_fat = 12`), holds 5 and the cell of cluster 5 holds END:
the chain on disk from 12 is 12 → 5, acyclic, and the overlay is empty.
`markchain(12, 101)` returns the area of cluster 12 alone and marks cluster 12
only; cluster 5 keeps the status `disk` and no entry.  The cell of cluster 12
is not fetched from the device and reads FREE, so the walk ends after its
first cluster.  `dellost` is set back to its value. -/
theorem markchain_stops_at_last_cluster :
    exPar.clus_fat = 12 ∧
    (List.range 13).map (dskio.cell exPar (exMemDev cellsLast).st) =
      [0, 0xFFFF, 0, 0, 0, 0xFFFF, 0, 0, 0, 0, 0, 0, 5] ∧
    (memio.markchain exPar exFe (exMemDev cellsLast) 12 101).1.runs = [(12, 12)] ∧
    [12, 5].map (fun c =>
      (memio.status (memio.markchain exPar exFe (exMemDev cellsLast) 12 101).2.1 c,
       memio.getentry (memio.markchain exPar exFe (exMemDev cellsLast) 12 101).2.1 c)) =
      [(dskmap.status_t.marked, 101), (dskmap.status_t.disk, 0)] ∧
    (memio.markchain exPar exFe (exMemDev cellsLast) 12 101).2.2 = exFe.dellost :=
  ⟨by decide, by decide, by decide, by decide, by decide⟩

set_option maxRecDepth 100000 in
/-- C8 (fails on the code): the FAT has 2-byte cells, the cell of cluster 12,
the last one (`clus_fat = 12`), holds 5 and the cell of cluster 5 holds END:
the chain from 12 is 12 → 5, acyclic and inside `[root_clus, clus_fat]`.
`free(12)` on a writable front end writes FREE to the cell of cluster 12 and
leaves END in the cell of cluster 5, which `read(5)` still answers: the cell
of cluster 12 is not fetched from the device and reads FREE, so the walk ends
after its first cluster.  `free(5)` does free the cell of cluster 5. -/
theorem free_stops_at_last_cluster :
    exPar.clus_fat = 12 ∧ exFe.readonly = false ∧
    (List.range 13).map (dskio.cell exPar (dskio.init exPar (fatDev cellsLast))) =
      [0, 0xFFFF, 0, 0, 0, 0xFFFF, 0, 0, 0, 0, 0, 0, 5] ∧
    (List.range 13).map
      (dskio.cell exPar (dskio.free exPar exFe (dskio.init exPar (fatDev cellsLast)) 12)) =
      [0, 0xFFFF, 0, 0, 0, 0xFFFF, 0, 0, 0, 0, 0, 0, 0] ∧
    (dskio.read exPar exFe
      (dskio.free exPar exFe (dskio.init exPar (fatDev cellsLast)) 12) 5).1 = EOC ∧
    (List.range 13).map
      (dskio.cell exPar (dskio.free exPar exFe (dskio.init exPar (fatDev cellsLast)) 5)) =
      [0, 0xFFFF, 0, 0, 0, 0, 0, 0, 0, 0, 0, 0, 5] :=
  ⟨by decide, by decide, by decide, by decide, by decide, by decide⟩

set_option maxRecDepth 100000 in
/-- C23 (fails on the code): in fsck mode with the answer yes, on a FAT of
2-byte cells with `clus_fat = 12`.  The cycle 5 → 6 → 5 entered at 5 is cut:
END is written to the cell of cluster 6 and no other cell changes.  On the
cycle 11 → 12 → 11 entered at 11, `getareas(11)` writes no cell: the cell of
cluster 12, the last one, is not fetched and reads FREE, the walk ends there
and the cycle stays.  On the cycle 5 → 7 → 5 with 0x7000 in the cell of
cluster 6, `getareas(5)` writes FREE to the cell of cluster 7 and END to no
cell: the read of cluster 5 fetches the cells that follow, finds the value of
the cell of cluster 6 out of range and frees the cell of cluster `p + i`, `i`
being the byte index, which is cluster 7; the walk then reads FREE for
cluster 7 and ends. -/
theorem cycle_repair_not_written :
    exPar.clus_fat = 12 ∧
    (List.range 13).map (dskio.cell exPar
      (dskio.getareas exPar exFsck (dskio.init exPar (fatDev cellsCycleDev)) 5 none).2) =
      [0, 0xFFFF, 0, 0, 0, 6, 0xFFFF, 0, 0, 0, 0, 0, 0] ∧
    (List.range 13).map (dskio.cell exPar (dskio.init exPar (fatDev cellsCycleLast))) =
      [0, 0xFFFF, 0, 0, 0, 0, 0, 0, 0, 0, 0, 12, 11] ∧
    (List.range 13).map (dskio.cell exPar
      (dskio.getareas exPar exFsck (dskio.init exPar (fatDev cellsCycleLast)) 11 none).2) =
      [0, 0xFFFF, 0, 0, 0, 0, 0, 0, 0, 0, 0, 12, 11] ∧
    (dskio.getareas exPar exFsck (dskio.init exPar (fatDev cellsCycleLast)) 11 none).1.runs =
      [(11, 12)] ∧
    (List.range 13).map (dskio.cell exPar (dskio.init exPar (fatDev cellsCycleBad))) =
      [0, 0xFFFF, 0, 0, 0, 7, 0x7000, 5, 0, 0, 0, 0, 0] ∧
    (List.range 13).map (dskio.cell exPar
      (dskio.getareas exPar exFsck (dskio.init exPar (fatDev cellsCycleBad)) 5 none).2) =
      [0, 0xFFFF, 0, 0, 0, 7, 0x7000, 0, 0, 0, 0, 0, 0] ∧
    (dskio.getareas exPar exFsck (dskio.init exPar (fatDev cellsCycleBad)) 5 none).1.runs =
      [(5, 5), (7, 7)] :=
  ⟨by decide, by decide, by decide, by decide, by decide, by decide, by decide, by decide⟩

end Fatx
